import Mathlib

/-!
# CS144 byte stream and reassembler: a shallow embedding

This development embeds `src/byte_stream.cc` (the capacity-bounded `ByteStream`
with its `Writer` and `Reader` views) and `src/reassembler.cc`
(`Reassembler::insert`, `Reassembler::count_bytes_pending`) as pure Lean
functions on explicit state records, and proves properties of them.

Conventions.

* A `std::string` is a `List Byte`; a byte is a `Char`.
* `uint64_t` / `size_t` values are natural numbers, and the program is embedded
  twice.  `ByteStream.push`, `ByteStream.pop`, `Reassembler.insert` and the
  functions they are built from take every sum of the source in `ℕ` (exact
  arithmetic).  `ByteStream.push64`, `ByteStream.pop64`, `Reassembler.insert64`
  and the functions they are built from are the same code with every sum and
  difference of the source taken modulo `2^64`, as the C++ takes them, and with
  `none` where `std::string::substr` throws.  `Reassembler.insert64_eq` shows
  that the two agree on a state that satisfies the invariant whenever the
  window and the range of the call end below `2^64`, and
  `Reachable64.reachable` that a run of the 64-bit program in which every call
  has `first_index + data.size() + capacity < 2^64` is, step by step, a run in
  exact arithmetic.  A statement about `insert` is therefore a statement about
  the program on such runs; what the program does at the edge of the index
  range is stated on `insert64`.
* The updates of `unassembled_bytes_` inside the two merge steps
  (`reassembler.cc` lines 83, 86 and 101) are kept; the value they leave is
  overwritten by the resummation of lines 107-111 before it is read.
* `std::map<uint64_t, std::string>` is a list of `(key, value)` pairs in
  strictly increasing key order.  The map operations (`lower_bound`,
  `upper_bound`, `erase`, `operator[]`) are list functions that coincide with
  the C++ ones on such lists; well-formedness of the list is proved as an
  invariant rather than assumed.
* `std::string::substr(pos)` is `List.drop pos` and `substr(0, n)` is
  `List.take n`; at every call site of the source `pos` is at most the length
  of the string (`trim_size_le`, `overlap_size_lt_of_prev`,
  `overlap_size_le_of_next`), so the throwing branch of `substr` is never taken.
-/

namespace CS144

/-- One byte of a `std::string`. -/
abbrev Byte := Char

/-- The `std::map<uint64_t, std::string>` of pending segments, as an
association list in increasing key order. -/
abbrev Segments := List (Nat × List Byte)

/-! ## ByteStream (`byte_stream.cc`) -/

/-- The fields of `ByteStream`.  `error_` lives in `byte_stream.hh`. -/
structure ByteStream where
  capacity_ : Nat
  buffer_ : List Byte
  closed_ : Bool
  bytes_pushed_ : Nat
  bytes_popped_ : Nat
  error_ : Bool
deriving DecidableEq, Repr

namespace ByteStream

/-- `ByteStream::ByteStream( uint64_t capacity )`, lines 5-7. -/
def new (capacity : Nat) : ByteStream :=
  { capacity_ := capacity, buffer_ := [], closed_ := false,
    bytes_pushed_ := 0, bytes_popped_ := 0, error_ := false }

/-- Modelled from the spec: `set_error()` is declared in `byte_stream.hh`, which
is not among the sources; the spec says a violated `pop` precondition "sets the
absorbing `error` flag on the Stream and performs no mutation". -/
def set_error (s : ByteStream) : ByteStream := { s with error_ := true }

/-- `Writer::is_closed`, lines 29-32. -/
def is_closed (s : ByteStream) : Bool := s.closed_

/-- `Writer::available_capacity`, lines 34-40. -/
def available_capacity (s : ByteStream) : Nat :=
  let buffered_bytes :=
    if s.bytes_pushed_ > s.bytes_popped_ then s.bytes_pushed_ - s.bytes_popped_ else 0
  if s.capacity_ > buffered_bytes then s.capacity_ - buffered_bytes else 0

/-- `Writer::push`, lines 9-22. -/
def push (s : ByteStream) (data : List Byte) : ByteStream :=
  if s.is_closed || data.isEmpty then s
  else
    let to_write := min data.length s.available_capacity
    if to_write > 0 then
      { s with buffer_ := s.buffer_ ++ data.take to_write,
               bytes_pushed_ := s.bytes_pushed_ + to_write }
    else s

/-- `Writer::close`, lines 24-27. -/
def close (s : ByteStream) : ByteStream := { s with closed_ := true }

/-- `Writer::bytes_pushed`, lines 42-45. -/
def bytes_pushed (s : ByteStream) : Nat := s.bytes_pushed_

/-- `Reader::bytes_buffered`, lines 70-73. -/
def bytes_buffered (s : ByteStream) : Nat := s.buffer_.length

/-- `Reader::peek`, lines 47-53: a view of the first `bytes_buffered()` bytes
of the buffer. -/
def peek (s : ByteStream) : List Byte :=
  if s.buffer_.isEmpty then [] else s.buffer_.take s.bytes_buffered

/-- `Reader::pop`, lines 55-63. -/
def pop (s : ByteStream) (len : Nat) : ByteStream :=
  if len > s.buffer_.length then s.set_error
  else { s with buffer_ := s.buffer_.drop len, bytes_popped_ := s.bytes_popped_ + len }

/-- `Reader::is_finished`, lines 65-68. -/
def is_finished (s : ByteStream) : Bool := s.closed_ && s.buffer_.isEmpty

/-- `Reader::bytes_popped`, lines 75-78. -/
def bytes_popped (s : ByteStream) : Nat := s.bytes_popped_

end ByteStream

/-! ## Reassembler (`reassembler.hh`, `reassembler.cc`) -/

/-- The fields of `Reassembler`, `reassembler.hh` lines 51-64. -/
structure Reassembler where
  output_ : ByteStream
  segments_ : Segments
  next_index_ : Nat
  unassembled_bytes_ : Nat
  eof_received_ : Bool
  eof_index_ : Nat
deriving DecidableEq, Repr

/-- The sum computed by the loop of `reassembler.cc` lines 108-111. -/
def sumSizes : Segments → Nat
  | [] => 0
  | seg :: rest => seg.2.length + sumSizes rest

/-- The containment scan of lines 64-73: some stored segment covers
`[first_index, first_index + data.size())`. -/
def containedIn (first_index : Nat) (data : List Byte) (segs : Segments) : Bool :=
  segs.any fun seg =>
    decide (seg.1 ≤ first_index) && decide (seg.1 + seg.2.length ≥ first_index + data.length)

/-- The loop of lines 94-103 run on the entries from `upper_bound( first_index )`
on: returns the extended `data`, the running `unassembled_bytes_` and the
entries that were not erased. -/
def mergeNext (first_index : Nat) : List Byte → Nat → Segments → List Byte × Nat × Segments
  | data, un, [] => (data, un, [])
  | data, un, nx :: rest =>
    if first_index + data.length ≥ nx.1 then
      let data1 :=
        if first_index + data.length < nx.1 + nx.2.length then
          data ++ nx.2.drop (first_index + data.length - nx.1)
        else data
      mergeNext first_index data1 (un - nx.2.length) rest
    else (data, un, nx :: rest)

/-- The assignment `segments_[first_index] = data` of line 106 on an ordered map. -/
def mapAssign (k : Nat) (v : List Byte) : Segments → Segments
  | [] => [(k, v)]
  | seg :: rest =>
    if k < seg.1 then (k, v) :: seg :: rest
    else if k = seg.1 then (k, v) :: rest
    else seg :: mapAssign k v rest

/-- Lines 76-91, the merge with the previous block.  `lower_bound( first_index )`
splits the ordered map into the entries with a smaller key and the rest; `it--`
is the last entry with a smaller key.  Returns the map, `first_index`, `data`
and `unassembled_bytes_` as they stand at line 92. -/
def mergePrev (first_index : Nat) (data : List Byte) (un : Nat) (segs : Segments) :
    Segments × Nat × List Byte × Nat :=
  let lt := segs.takeWhile fun seg => decide (seg.1 < first_index)
  let ge := segs.dropWhile fun seg => decide (seg.1 < first_index)
  match lt.getLast? with
  | some prev =>
    if prev.1 + prev.2.length > first_index then
      let overlap_size := prev.1 + prev.2.length - first_index
      let merged := prev.2 ++ data.drop overlap_size
      (lt.dropLast ++ (prev.1, merged) :: ge, prev.1, merged,
        un - prev.2.length + merged.length)
    else (segs, first_index, data, un)
  | none => (segs, first_index, data, un)

/-- Lines 75-106 on the map alone: merge with the previous block, merge with
and erase the following blocks (`upper_bound( first_index )` splits the map
into the entries with a key up to `first_index` and the later ones), store.
Returns the new map and the value of `unassembled_bytes_` just before line 107. -/
def mergeStore (first_index : Nat) (data : List Byte) (un : Nat) (segs : Segments) :
    Segments × Nat :=
  let st := mergePrev first_index data un segs
  let segs1 := st.1
  let first_index1 := st.2.1
  let data1 := st.2.2.1
  let un1 := st.2.2.2
  let le := segs1.takeWhile fun seg => decide (seg.1 ≤ first_index1)
  let gt := segs1.dropWhile fun seg => decide (seg.1 ≤ first_index1)
  let r := mergeNext first_index1 data1 un1 gt
  (mapAssign first_index1 r.1 (le ++ r.2.2), r.2.1)

/-- The flush loop of lines 119-126 on the head of the map. -/
def flush (out : ByteStream) (next_index un : Nat) :
    Segments → ByteStream × Nat × Nat × Segments
  | [] => (out, next_index, un, [])
  | seg :: rest =>
    if seg.1 = next_index then
      flush (out.push seg.2) (next_index + seg.2.length) (un - seg.2.length) rest
    else (out, next_index, un, seg :: rest)

namespace Reassembler

/-- `Reassembler::Reassembler( ByteStream&& output )`, `reassembler.hh` lines 10-16. -/
def new (output : ByteStream) : Reassembler :=
  { output_ := output, segments_ := [], next_index_ := 0, unassembled_bytes_ := 0,
    eof_received_ := false, eof_index_ := 0 }

/-- `Reassembler::count_bytes_pending`, `reassembler.cc` lines 136-142. -/
def count_bytes_pending (r : Reassembler) : Nat := r.unassembled_bytes_

/-- The closure test with `==`, lines 34-36 and 48-49. -/
def closeIfEq (r : Reassembler) : Reassembler :=
  if r.eof_received_ && r.unassembled_bytes_ == 0 && r.next_index_ == r.eof_index_ then
    { r with output_ := r.output_.close }
  else r

/-- The closure test with `>=`, lines 57-59, 68-70 and 128-131. -/
def closeIfGe (r : Reassembler) : Reassembler :=
  if r.eof_received_ && r.unassembled_bytes_ == 0 && decide (r.next_index_ ≥ r.eof_index_) then
    { r with output_ := r.output_.close }
  else r

/-- Lines 17-22: the EOF bookkeeping, the sum of line 21 taken in `ℕ`
(`markEof64` takes it on `uint64_t`). -/
def markEof (r : Reassembler) (first_index : Nat) (data : List Byte)
    (is_last_substring : Bool) : Reassembler :=
  if is_last_substring then
    { r with eof_received_ := true, eof_index_ := first_index + data.length }
  else r

/-- Lines 62-131: what `insert` does with a non-empty range that survived the
trimming against the window. -/
def store (r : Reassembler) (first_index : Nat) (data : List Byte) : Reassembler :=
  if containedIn first_index data r.segments_ then closeIfGe r
  else
    let ms := mergeStore first_index data r.unassembled_bytes_ r.segments_
    let fl := flush r.output_ r.next_index_ (sumSizes ms.1) ms.1
    closeIfGe { r with output_ := fl.1, next_index_ := fl.2.1,
                       unassembled_bytes_ := fl.2.2.1, segments_ := fl.2.2.2 }

/-- Lines 44-131: the right edge of the window, the empty test and the rest,
the sum of line 51 taken in `ℕ` (`insertRight64` takes it on `uint64_t`). -/
def insertRight (r : Reassembler) (window_end first_index : Nat) (data : List Byte) :
    Reassembler :=
  if first_index ≥ window_end then closeIfEq r
  else
    let data1 :=
      if first_index + data.length > window_end then data.take (window_end - first_index)
      else data
    if data1.isEmpty then closeIfGe r
    else store r first_index data1

/-- `Reassembler::insert`, `reassembler.cc` lines 6-132, in exact arithmetic:
the sums of lines 21, 29, 32 and 51 and those of the merge steps are taken in
`ℕ`.  `insert64` is the same code on `uint64_t`; the two agree as long as no
sum reaches `2^64` (`insert64_eq`). -/
def insert (r0 : Reassembler) (first_index : Nat) (data : List Byte)
    (is_last_substring : Bool) : Reassembler :=
  let r := markEof r0 first_index data is_last_substring
  let available_cap := r.output_.available_capacity
  let window_start := r.next_index_
  let window_end := r.next_index_ + available_cap
  if first_index < window_start then
    if first_index + data.length ≤ window_start then closeIfEq r
    else
      let trim_size := window_start - first_index
      insertRight r window_end window_start (data.drop trim_size)
  else insertRight r window_end first_index data

/-- The reader's `pop` reached through `Reassembler::reader()`. -/
def pop (r : Reassembler) (len : Nat) : Reassembler :=
  { r with output_ := r.output_.pop len }

end Reassembler

/-! ## Runs and reachable states -/

/-- The calls a client can make on a `ByteStream` through its writer and reader. -/
inductive StreamOp where
  | push (data : List Byte)
  | close
  | pop (len : Nat)
deriving DecidableEq, Repr

/-- One client call on a stream. -/
def ByteStream.step (s : ByteStream) : StreamOp → ByteStream
  | .push data => s.push data
  | .close => s.close
  | .pop len => s.pop len

/-- A sequence of client calls, applied in order. -/
def ByteStream.run (s : ByteStream) (ops : List StreamOp) : ByteStream :=
  ops.foldl ByteStream.step s

/-- The arguments of one `insert` call. -/
structure Call where
  first_index : Nat
  data : List Byte
  is_last_substring : Bool
deriving DecidableEq, Repr

/-- A sequence of `insert` calls, applied in order with nothing in between. -/
def Reassembler.insertAll (r : Reassembler) (calls : List Call) : Reassembler :=
  calls.foldl (fun r c => r.insert c.first_index c.data c.is_last_substring) r

/-- The states of a `Reassembler` that a client can reach in exact arithmetic:
construction on a fresh stream of any capacity, then any sequence of `insert`
calls and reader pops (the writer is only exposed `const`, `reassembler.hh`
line 47). -/
inductive Reachable : Reassembler → Prop
  | init (capacity : Nat) : Reachable (Reassembler.new (ByteStream.new capacity))
  | insert {r : Reassembler} (first_index : Nat) (data : List Byte) (is_last_substring : Bool) :
      Reachable r → Reachable (r.insert first_index data is_last_substring)
  | pop {r : Reassembler} (len : Nat) : Reachable r → Reachable (r.pop len)

/-- The counters of a stream agree with its buffer and the buffer fits. -/
def ByteStream.Inv (s : ByteStream) : Prop :=
  s.buffer_.length + s.bytes_popped_ = s.bytes_pushed_ ∧ s.buffer_.length ≤ s.capacity_

/-- The pending segments are non-empty, in increasing order, pairwise disjoint,
start at or after `lo` and end at or before `hi`. -/
def SegsIn (lo hi : Nat) : Segments → Prop
  | [] => True
  | seg :: rest =>
    lo ≤ seg.1 ∧ 0 < seg.2.length ∧ seg.1 + seg.2.length ≤ hi ∧
      SegsIn (seg.1 + seg.2.length) hi rest

/-- The byte that the pending segments hold for absolute index `i`, if any. -/
def byteAt : Segments → Nat → Option Byte
  | [], _ => none
  | seg :: rest, i =>
    if seg.1 ≤ i ∧ i < seg.1 + seg.2.length then seg.2[i - seg.1]? else byteAt rest i

/-- The entries of the map that start before index `a`. -/
def startingBefore (a : Nat) (segs : Segments) : Segments :=
  segs.filter fun seg => decide (seg.1 < a)

/-- The entries of the map that start after index `a`. -/
def startingAfter (a : Nat) (segs : Segments) : Segments :=
  segs.filter fun seg => decide (a < seg.1)

/-- A recursive description of the map that `mergeStore` leaves, used in the
proofs: on a well-formed map both give the same result
(`mergeStore_eq_mergeRef`). -/
def mergeRef (a : Nat) (d : List Byte) : Segments → Segments
  | [] => [(a, d)]
  | seg :: rest =>
    if seg.1 < a then
      if seg.1 + seg.2.length ≤ a then seg :: mergeRef a d rest
      else
        let r := mergeNext seg.1 (seg.2 ++ d.drop (seg.1 + seg.2.length - a)) 0 rest
        (seg.1, r.1) :: r.2.2
    else if seg.1 = a then
      let r := mergeNext a d 0 rest
      (a, r.1) :: r.2.2
    else
      let r := mergeNext a d 0 (seg :: rest)
      (a, r.1) :: r.2.2

/-- The invariant of the reachable states of a `Reassembler`: the stream is
consistent; the pending segments are well formed, start strictly after
`next_index_` and end inside the current window; `unassembled_bytes_` is their
total size; `next_index_` is `bytes_pushed_` as long as the stream is open and
never behind it. -/
structure Reassembler.Inv (r : Reassembler) : Prop where
  stream : r.output_.Inv
  segs : SegsIn (r.next_index_ + 1) (r.next_index_ + r.output_.available_capacity) r.segments_
  pending : r.unassembled_bytes_ = sumSizes r.segments_
  synced : r.output_.closed_ = false → r.next_index_ = r.output_.bytes_pushed_
  ahead : r.output_.bytes_pushed_ ≤ r.next_index_

/-- The start of the range that `insert` keeps after trimming against the
left edge of the window (lines 31-44). -/
def Reassembler.trimStart (r : Reassembler) (first_index : Nat) : Nat :=
  max first_index r.next_index_

/-- The bytes that `insert` keeps after trimming against both edges of the
window (lines 31-54). -/
def Reassembler.trimData (r : Reassembler) (first_index : Nat) (data : List Byte) : List Byte :=
  (data.drop (r.next_index_ - first_index)).take
    (r.next_index_ + r.output_.available_capacity - r.trimStart first_index)

/-- The state that lines 75-111 leave when the trimmed range `(a, d)` starts
after `next_index_` in a well-formed state: the map is merged, nothing is
flushed (`store_far`). -/
def Reassembler.merged (r : Reassembler) (a : Nat) (d : List Byte) : Reassembler :=
  { r with segments_ := mergeRef a d r.segments_,
           unassembled_bytes_ := sumSizes (mergeRef a d r.segments_) }

/-- The state that lines 75-126 leave when the trimmed range `d` starts at
`next_index_` in a well-formed state: the range and the successors it reaches
are pushed as one string (`store_near`). -/
def Reassembler.flushed (r : Reassembler) (d : List Byte) : Reassembler :=
  { r with output_ := r.output_.push (mergeNext r.next_index_ d 0 r.segments_).1,
           next_index_ := r.next_index_ + (mergeNext r.next_index_ d 0 r.segments_).1.length,
           unassembled_bytes_ := sumSizes (mergeNext r.next_index_ d 0 r.segments_).2.2,
           segments_ := (mergeNext r.next_index_ d 0 r.segments_).2.2 }

/-- `r1` agrees with `r` on the buffer and counters of the stream, on
`next_index_` and on the pending segments; the stream of `r1` is closed if that
of `r` is.  Only the EOF bookkeeping and the closed flag are left free. -/
def Reassembler.SameData (r r1 : Reassembler) : Prop :=
  r1.output_.buffer_ = r.output_.buffer_ ∧
  r1.output_.bytes_pushed = r.output_.bytes_pushed ∧
  r1.output_.bytes_popped = r.output_.bytes_popped ∧
  r1.output_.capacity_ = r.output_.capacity_ ∧
  r1.output_.error_ = r.output_.error_ ∧
  r1.next_index_ = r.next_index_ ∧
  r1.segments_ = r.segments_ ∧
  r1.count_bytes_pending = r.count_bytes_pending ∧
  (r.output_.is_closed = true → r1.output_.is_closed = true)

/-- The byte that the Reassembler and its stream hold for absolute index `i`:
below `next_index_` the byte of the stream buffer at that index (if it has not
been popped), from `next_index_` on the byte of the pending segments. -/
def Reassembler.heldAt (r : Reassembler) (i : Nat) : Option Byte :=
  if i < r.next_index_ then
    if r.output_.bytes_popped_ ≤ i then r.output_.buffer_[i - r.output_.bytes_popped_]? else none
  else byteAt r.segments_ i

/-- Index `i` is known to the Reassembler: it lies below `next_index_` or in a
pending segment. -/
def Reassembler.Covered (r : Reassembler) (i : Nat) : Prop :=
  i < r.next_index_ ∨ (byteAt r.segments_ i).isSome = true

/-- The state of a Reassembler follows the byte string `s` when no byte has been
popped: the buffer is the prefix of `s` up to `next_index_`, every pending byte
is the byte of `s` at its index, a recorded EOF index is the length of `s`, and
the stream has not been closed before all of `s` was written. -/
structure Reassembler.Tracks (s : List Byte) (r : Reassembler) : Prop where
  inv : r.Inv
  fits : s.length ≤ r.output_.capacity_
  popped : r.output_.bytes_popped_ = 0
  buffer : r.output_.buffer_ = s.take r.next_index_
  pushed : r.output_.bytes_pushed_ = r.next_index_
  within : r.next_index_ ≤ s.length
  agree : ∀ i b, byteAt r.segments_ i = some b → s[i]? = some b
  eof : r.eof_received_ = true → r.eof_index_ = s.length
  early : r.output_.closed_ = true → r.next_index_ = s.length ∧ r.segments_ = []

/-- The closure test has been applied: a state with the EOF recorded, nothing
pending and `next_index_` at the end of `s` has a closed stream. -/
def Reassembler.Settled (s : List Byte) (r : Reassembler) : Prop :=
  r.eof_received_ = true → r.unassembled_bytes_ = 0 → r.next_index_ = s.length →
    r.output_.closed_ = true

/-- Every `push` that the flush loop of lines 119-126 makes, started on
stream `out` with `next_index_ = next`, is given a string no longer than
`available_capacity()` at that moment. -/
def FlushFits (out : ByteStream) (next : Nat) : Segments → Prop
  | [] => True
  | seg :: rest =>
    seg.1 = next →
      seg.2.length ≤ out.available_capacity ∧ FlushFits (out.push seg.2) (next + seg.2.length) rest

/-! ### `insert` with its partial operations made explicit

The same code as above, with `std::string::substr( pos )` returning `none`
where the C++ function throws `std::out_of_range` (`pos > size()`), and every
unsigned subtraction returning `none` where it would wrap around. -/

/-- `std::string::substr( pos )`; `none` stands for `std::out_of_range`. -/
def substrFrom (s : List Byte) (pos : Nat) : Option (List Byte) :=
  if pos ≤ s.length then some (s.drop pos) else none

/-- Unsigned `a - b`; `none` when the subtraction would wrap. -/
def subChecked (a b : Nat) : Option Nat :=
  if b ≤ a then some (a - b) else none

/-- The loop of lines 94-103 with its `substr` and subtractions checked. -/
def mergeNextChecked (first_index : Nat) :
    List Byte → Nat → Segments → Option (List Byte × Nat × Segments)
  | data, un, [] => some (data, un, [])
  | data, un, nx :: rest =>
    if first_index + data.length ≥ nx.1 then
      (if first_index + data.length < nx.1 + nx.2.length then
          (subChecked (first_index + data.length) nx.1).bind fun overlap_size =>
            (substrFrom nx.2 overlap_size).map fun tail => data ++ tail
        else some data).bind fun data1 =>
      (subChecked un nx.2.length).bind fun un1 =>
      mergeNextChecked first_index data1 un1 rest
    else some (data, un, nx :: rest)

/-- Lines 76-91 with their `substr` and subtractions checked. -/
def mergePrevChecked (first_index : Nat) (data : List Byte) (un : Nat) (segs : Segments) :
    Option (Segments × Nat × List Byte × Nat) :=
  let lt := segs.takeWhile fun seg => decide (seg.1 < first_index)
  let ge := segs.dropWhile fun seg => decide (seg.1 < first_index)
  match lt.getLast? with
  | some prev =>
    if prev.1 + prev.2.length > first_index then
      (subChecked un prev.2.length).bind fun un1 =>
      (subChecked (prev.1 + prev.2.length) first_index).bind fun overlap_size =>
      (substrFrom data overlap_size).map fun tail =>
        (lt.dropLast ++ (prev.1, prev.2 ++ tail) :: ge, prev.1, prev.2 ++ tail,
          un1 + (prev.2 ++ tail).length)
    else some (segs, first_index, data, un)
  | none => some (segs, first_index, data, un)

/-- Lines 75-106 with their `substr` and subtractions checked. -/
def mergeStoreChecked (first_index : Nat) (data : List Byte) (un : Nat) (segs : Segments) :
    Option (Segments × Nat) :=
  (mergePrevChecked first_index data un segs).bind fun st =>
  (mergeNextChecked st.2.1 st.2.2.1 st.2.2.2
      (st.1.dropWhile fun seg => decide (seg.1 ≤ st.2.1))).map fun r =>
    (mapAssign st.2.1 r.1 ((st.1.takeWhile fun seg => decide (seg.1 ≤ st.2.1)) ++ r.2.2), r.2.1)

/-- The flush loop of lines 119-126 with its subtraction checked. -/
def flushChecked (out : ByteStream) (next_index un : Nat) :
    Segments → Option (ByteStream × Nat × Nat × Segments)
  | [] => some (out, next_index, un, [])
  | seg :: rest =>
    if seg.1 = next_index then
      (subChecked un seg.2.length).bind fun un1 =>
      flushChecked (out.push seg.2) (next_index + seg.2.length) un1 rest
    else some (out, next_index, un, seg :: rest)

/-- Lines 62-131 with their partial operations checked. -/
def Reassembler.storeChecked (r : Reassembler) (first_index : Nat) (data : List Byte) :
    Option Reassembler :=
  if containedIn first_index data r.segments_ then some (Reassembler.closeIfGe r)
  else
    (mergeStoreChecked first_index data r.unassembled_bytes_ r.segments_).bind fun ms =>
    (flushChecked r.output_ r.next_index_ (sumSizes ms.1) ms.1).map fun fl =>
      Reassembler.closeIfGe { r with output_ := fl.1, next_index_ := fl.2.1,
                                     unassembled_bytes_ := fl.2.2.1, segments_ := fl.2.2.2 }

/-- Lines 44-131 with their partial operations checked. -/
def Reassembler.insertRightChecked (r : Reassembler) (window_end first_index : Nat)
    (data : List Byte) : Option Reassembler :=
  if first_index ≥ window_end then some (Reassembler.closeIfEq r)
  else
    (if first_index + data.length > window_end then
        (subChecked window_end first_index).map fun n => data.take n
      else some data).bind fun data1 =>
    if data1.isEmpty then some (Reassembler.closeIfGe r)
    else Reassembler.storeChecked r first_index data1

/-- `Reassembler::insert` with every `substr` and every unsigned subtraction
checked: `none` when one of them fails, otherwise the state at return. -/
def Reassembler.insertChecked (r0 : Reassembler) (first_index : Nat) (data : List Byte)
    (is_last_substring : Bool) : Option Reassembler :=
  let r := Reassembler.markEof r0 first_index data is_last_substring
  let available_cap := r.output_.available_capacity
  let window_start := r.next_index_
  let window_end := r.next_index_ + available_cap
  if first_index < window_start then
    if first_index + data.length ≤ window_start then some (Reassembler.closeIfEq r)
    else
      (subChecked window_start first_index).bind fun trim_size =>
      (substrFrom data trim_size).bind fun data1 =>
      Reassembler.insertRightChecked r window_end window_start data1
  else Reassembler.insertRightChecked r window_end first_index data

/-! ## The same code on 64-bit words

Every `+`, `+=`, `-` and `-=` of the source on `uint64_t` / `size_t` values is
taken modulo `2^64`; the comparisons and the guarded subtractions of
`Writer::available_capacity` are as in the source; `std::string::substr( pos )`
is `substrFrom`, which is `none` where the C++ function throws. -/

/-- Addition of two `uint64_t` values. -/
def add64 (a b : Nat) : Nat := (a + b) % 2 ^ 64

/-- Subtraction of two `uint64_t` values. -/
def sub64 (a b : Nat) : Nat := (a + (2 ^ 64 - b % 2 ^ 64)) % 2 ^ 64

/-- `Writer::push`, lines 9-22, with the `+=` of line 18 on `uint64_t`. -/
def ByteStream.push64 (s : ByteStream) (data : List Byte) : ByteStream :=
  if s.is_closed || data.isEmpty then s
  else
    let to_write := min data.length s.available_capacity
    if to_write > 0 then
      { s with buffer_ := s.buffer_ ++ data.take to_write,
               bytes_pushed_ := add64 s.bytes_pushed_ to_write }
    else s

/-- `Reader::pop`, lines 55-63, with the `+=` of line 62 on `uint64_t`. -/
def ByteStream.pop64 (s : ByteStream) (len : Nat) : ByteStream :=
  if len > s.buffer_.length then s.set_error
  else { s with buffer_ := s.buffer_.drop len, bytes_popped_ := add64 s.bytes_popped_ len }

/-- The sum of lines 107-111 on `uint64_t`. -/
def sum64 (segs : Segments) : Nat :=
  segs.foldl (fun un seg => add64 un seg.2.length) 0

/-- The containment scan of lines 64-73 on `uint64_t`. -/
def containedIn64 (first_index : Nat) (data : List Byte) (segs : Segments) : Bool :=
  segs.any fun seg =>
    decide (seg.1 ≤ first_index) &&
      decide (add64 seg.1 seg.2.length ≥ add64 first_index data.length)

/-- The loop of lines 94-103 on `uint64_t`; `none` when `substr` throws. -/
def mergeNext64 (first_index : Nat) :
    List Byte → Nat → Segments → Option (List Byte × Nat × Segments)
  | data, un, [] => some (data, un, [])
  | data, un, nx :: rest =>
    if add64 first_index data.length ≥ nx.1 then
      (if add64 first_index data.length < add64 nx.1 nx.2.length then
          (substrFrom nx.2 (sub64 (add64 first_index data.length) nx.1)).map fun tail =>
            data ++ tail
        else some data).bind fun data1 =>
      mergeNext64 first_index data1 (sub64 un nx.2.length) rest
    else some (data, un, nx :: rest)

/-- Lines 76-91 on `uint64_t`; `none` when `substr` throws. -/
def mergePrev64 (first_index : Nat) (data : List Byte) (un : Nat) (segs : Segments) :
    Option (Segments × Nat × List Byte × Nat) :=
  let lt := segs.takeWhile fun seg => decide (seg.1 < first_index)
  let ge := segs.dropWhile fun seg => decide (seg.1 < first_index)
  match lt.getLast? with
  | some prev =>
    if add64 prev.1 prev.2.length > first_index then
      (substrFrom data (sub64 (add64 prev.1 prev.2.length) first_index)).map fun tail =>
        (lt.dropLast ++ (prev.1, prev.2 ++ tail) :: ge, prev.1, prev.2 ++ tail,
          add64 (sub64 un prev.2.length) (prev.2 ++ tail).length)
    else some (segs, first_index, data, un)
  | none => some (segs, first_index, data, un)

/-- Lines 75-106 on `uint64_t`; `none` when a `substr` throws. -/
def mergeStore64 (first_index : Nat) (data : List Byte) (un : Nat) (segs : Segments) :
    Option (Segments × Nat) :=
  (mergePrev64 first_index data un segs).bind fun st =>
  (mergeNext64 st.2.1 st.2.2.1 st.2.2.2
      (st.1.dropWhile fun seg => decide (seg.1 ≤ st.2.1))).map fun r =>
    (mapAssign st.2.1 r.1 ((st.1.takeWhile fun seg => decide (seg.1 ≤ st.2.1)) ++ r.2.2), r.2.1)

/-- The flush loop of lines 119-126 on `uint64_t`. -/
def flush64 (out : ByteStream) (next_index un : Nat) :
    Segments → ByteStream × Nat × Nat × Segments
  | [] => (out, next_index, un, [])
  | seg :: rest =>
    if seg.1 = next_index then
      flush64 (out.push64 seg.2) (add64 next_index seg.2.length) (sub64 un seg.2.length) rest
    else (out, next_index, un, seg :: rest)

namespace Reassembler

/-- Lines 17-22 on `uint64_t`. -/
def markEof64 (r : Reassembler) (first_index : Nat) (data : List Byte)
    (is_last_substring : Bool) : Reassembler :=
  if is_last_substring then
    { r with eof_received_ := true, eof_index_ := add64 first_index data.length }
  else r

/-- Lines 62-131 on `uint64_t`; `none` when a `substr` throws. -/
def store64 (r : Reassembler) (first_index : Nat) (data : List Byte) : Option Reassembler :=
  if containedIn64 first_index data r.segments_ then some (closeIfGe r)
  else
    (mergeStore64 first_index data r.unassembled_bytes_ r.segments_).map fun ms =>
      let fl := flush64 r.output_ r.next_index_ (sum64 ms.1) ms.1
      closeIfGe { r with output_ := fl.1, next_index_ := fl.2.1,
                         unassembled_bytes_ := fl.2.2.1, segments_ := fl.2.2.2 }

/-- Lines 44-131 on `uint64_t`; `none` when a `substr` throws. -/
def insertRight64 (r : Reassembler) (window_end first_index : Nat) (data : List Byte) :
    Option Reassembler :=
  if first_index ≥ window_end then some (closeIfEq r)
  else
    let data1 :=
      if add64 first_index data.length > window_end then
        data.take (sub64 window_end first_index)
      else data
    if data1.isEmpty then some (closeIfGe r)
    else store64 r first_index data1

/-- `Reassembler::insert`, `reassembler.cc` lines 6-132, on `uint64_t`: every
sum and difference of the source is taken modulo `2^64`, and the result is
`none` when a `substr` throws `std::out_of_range`. -/
def insert64 (r0 : Reassembler) (first_index : Nat) (data : List Byte)
    (is_last_substring : Bool) : Option Reassembler :=
  let r := markEof64 r0 first_index data is_last_substring
  let available_cap := r.output_.available_capacity
  let window_start := r.next_index_
  let window_end := add64 r.next_index_ available_cap
  if first_index < window_start then
    if add64 first_index data.length ≤ window_start then some (closeIfEq r)
    else
      (substrFrom data (sub64 window_start first_index)).bind fun data1 =>
        insertRight64 r window_end window_start data1
  else insertRight64 r window_end first_index data

/-- The reader's `pop` reached through `Reassembler::reader()`, on `uint64_t`. -/
def pop64 (r : Reassembler) (len : Nat) : Reassembler :=
  { r with output_ := r.output_.pop64 len }

end Reassembler

/-- One call of a client of the `Reassembler`: an `insert` or a reader `pop`. -/
inductive Op where
  | insert (first_index : Nat) (data : List Byte) (is_last_substring : Bool)
  | pop (len : Nat)
deriving DecidableEq, Repr

/-- The `is_last_substring` flag of a call; a `pop` has none. -/
def Op.is_last_substring : Op → Bool
  | .insert _ _ is_last_substring => is_last_substring
  | .pop _ => false

/-- One client call on the 64-bit program. -/
def Reassembler.step64 (r : Reassembler) : Op → Option Reassembler
  | .insert first_index data is_last_substring => r.insert64 first_index data is_last_substring
  | .pop len => some (r.pop64 len)

/-- A sequence of client calls on the 64-bit program, applied in order; `none`
when one of them throws. -/
def Reassembler.run64 : Reassembler → List Op → Option Reassembler
  | r, [] => some r
  | r, op :: ops => (r.step64 op).bind fun r1 => Reassembler.run64 r1 ops


/-- The states that the 64-bit program reaches without any index coming near
`2^64`: construction on a fresh stream of `capacity`, then `insert` calls with
`first_index + data.size() + capacity < 2^64` and reader pops. -/
inductive Reachable64 (capacity : Nat) : Reassembler → Prop
  | init : capacity < 2 ^ 64 → Reachable64 capacity (Reassembler.new (ByteStream.new capacity))
  | insert {r r1 : Reassembler} (first_index : Nat) (data : List Byte)
      (is_last_substring : Bool) : Reachable64 capacity r →
      first_index + data.length + capacity < 2 ^ 64 →
      r.insert64 first_index data is_last_substring = some r1 → Reachable64 capacity r1
  | pop {r : Reassembler} (len : Nat) : Reachable64 capacity r → Reachable64 capacity (r.pop64 len)

/-! ## Properties of the stream -/

namespace ByteStream

theorem available_capacity_of_inv {s : ByteStream} (h : s.Inv) :
    s.available_capacity = s.capacity_ - s.buffer_.length := by
  obtain ⟨h1, h2⟩ := h
  unfold available_capacity
  simp only []
  split_ifs <;> omega

theorem push_of_open {s : ByteStream} {d : List Byte} (hc : s.closed_ = false) :
    s.push d = { s with buffer_ := s.buffer_ ++ d.take (min d.length s.available_capacity),
                        bytes_pushed_ := s.bytes_pushed_ + min d.length s.available_capacity } := by
  obtain ⟨cap, buf, cl, pu, po, er⟩ := s
  simp only at hc
  subst hc
  cases d with
  | nil => simp [push, is_closed]
  | cons x xs =>
    simp only [push, is_closed, List.isEmpty_cons, Bool.or_self, Bool.false_eq_true, if_false]
    split_ifs with h
    · rfl
    · have h0 : min (x :: xs).length
          (available_capacity ⟨cap, buf, false, pu, po, er⟩) = 0 := by omega
      rw [h0]; simp

theorem push_of_closed {s : ByteStream} {d : List Byte} (hc : s.closed_ = true) :
    s.push d = s := by
  simp [push, is_closed, hc]

/-- Pushing a string that fits into an open stream appends all of it. -/
theorem push_fits {s : ByteStream} {d : List Byte}
    (hc : s.closed_ = false) (hfit : d.length ≤ s.available_capacity) :
    s.push d = { s with buffer_ := s.buffer_ ++ d, bytes_pushed_ := s.bytes_pushed_ + d.length } := by
  rw [push_of_open hc, Nat.min_eq_left hfit, List.take_length]

theorem push_inv {s : ByteStream} (d : List Byte) (h : s.Inv) : (s.push d).Inv := by
  cases hc : s.closed_ with
  | true => rw [push_of_closed hc]; exact h
  | false =>
    rw [push_of_open hc]
    have ha := available_capacity_of_inv h
    obtain ⟨h1, h2⟩ := h
    refine ⟨?_, ?_⟩
    · simp only [List.length_append, List.length_take]; omega
    · simp only [List.length_append, List.length_take]; omega

theorem close_inv {s : ByteStream} (h : s.Inv) : s.close.Inv := h

theorem pop_inv {s : ByteStream} (len : Nat) (h : s.Inv) : (s.pop len).Inv := by
  unfold pop
  split_ifs with hl
  · exact h
  · obtain ⟨h1, h2⟩ := h
    refine ⟨?_, ?_⟩
    · simp only [List.length_drop]; omega
    · simp only [List.length_drop]; omega

theorem step_inv {s : ByteStream} (op : StreamOp) (h : s.Inv) : (s.step op).Inv := by
  cases op with
  | push d => exact push_inv d h
  | close => exact close_inv h
  | pop len => exact pop_inv len h

theorem step_capacity (s : ByteStream) (op : StreamOp) : (s.step op).capacity_ = s.capacity_ := by
  cases op with
  | push d =>
    cases hc : s.closed_ with
    | true => simp only [step]; rw [push_of_closed hc]
    | false => simp only [step]; rw [push_of_open hc]
  | close => rfl
  | pop len => simp only [step, pop]; split_ifs <;> rfl

theorem run_inv (ops : List StreamOp) : ∀ {s : ByteStream}, s.Inv →
    (s.run ops).Inv ∧ (s.run ops).capacity_ = s.capacity_ := by
  induction ops with
  | nil => intro s h; exact ⟨h, rfl⟩
  | cons op ops ih =>
    intro s h
    have := ih (step_inv op h)
    simp only [run, List.foldl_cons] at this ⊢
    exact ⟨this.1, this.2.trans (step_capacity s op)⟩

/-- C4. `Writer::push` on any stream state and any string `d`: when the stream
is closed or `d` is empty nothing changes; otherwise exactly the first
`k = min(len d, available_capacity())` bytes of `d` are appended to the buffer,
`bytes_pushed` grows by `k`, and `bytes_popped`, the closed flag, the capacity,
the error flag and the bytes buffered before stay as they were. -/
theorem push_contract (s : ByteStream) (d : List Byte) :
    ((s.is_closed = true ∨ d = []) → s.push d = s) ∧
    (¬ (s.is_closed = true ∨ d = []) →
      (s.push d).buffer_ = s.buffer_ ++ d.take (min d.length s.available_capacity) ∧
      (s.push d).bytes_pushed = s.bytes_pushed + min d.length s.available_capacity ∧
      (s.push d).bytes_popped = s.bytes_popped ∧
      (s.push d).is_closed = s.is_closed ∧
      (s.push d).capacity_ = s.capacity_ ∧
      (s.push d).error_ = s.error_ ∧
      (s.push d).buffer_.take s.buffer_.length = s.buffer_) := by
  constructor
  · rintro (hc | hd)
    · exact push_of_closed hc
    · subst hd; simp [push]
  · intro h
    have hc : s.closed_ = false := by
      cases hcl : s.closed_ with
      | false => rfl
      | true => exact absurd (Or.inl hcl) h
    rw [push_of_open hc]
    simp [bytes_pushed, bytes_popped, is_closed]

/-- C5. `Reader::pop` on any stream state and any length: `set_error` is reached
exactly when `len > bytes_buffered()`, and then the buffer and both counters
are unchanged; when `len ≤ bytes_buffered()` exactly the first `len` bytes leave
the buffer (the rest keeps its order), `bytes_popped` grows by `len`, and the
error flag is left as it was. -/
theorem pop_contract (s : ByteStream) (len : Nat) :
    (s.pop len).error_ = (s.error_ || decide (len > s.bytes_buffered)) ∧
    (len > s.bytes_buffered →
      (s.pop len).error_ = true ∧ (s.pop len).buffer_ = s.buffer_ ∧
      (s.pop len).bytes_popped = s.bytes_popped ∧ (s.pop len).bytes_pushed = s.bytes_pushed ∧
      (s.pop len).is_closed = s.is_closed) ∧
    (len ≤ s.bytes_buffered →
      (s.pop len).buffer_ = s.buffer_.drop len ∧
      s.buffer_ = s.buffer_.take len ++ (s.pop len).buffer_ ∧
      (s.pop len).bytes_popped = s.bytes_popped + len ∧
      (s.pop len).bytes_pushed = s.bytes_pushed ∧
      (s.pop len).error_ = s.error_ ∧ (s.pop len).is_closed = s.is_closed) := by
  unfold pop bytes_buffered
  by_cases h : len > s.buffer_.length
  · simp [h, set_error, bytes_popped, bytes_pushed, is_closed]
  · simp [h, bytes_popped, bytes_pushed, is_closed]

/-- C6. In every stream state reached from construction with capacity `c` by
any sequence of `push`, `close` and `pop` calls: the buffer holds
`bytes_pushed - bytes_popped` bytes (and `bytes_popped ≤ bytes_pushed`),
`bytes_buffered() ≤ c`, and `available_capacity() + bytes_buffered() = c`, with
`available_capacity()` equal to the unclamped `c - (bytes_pushed - bytes_popped)`. -/
theorem capacity_invariant (c : Nat) (ops : List StreamOp) :
    ((ByteStream.new c).run ops).buffer_.length =
      ((ByteStream.new c).run ops).bytes_pushed - ((ByteStream.new c).run ops).bytes_popped ∧
    ((ByteStream.new c).run ops).bytes_popped ≤ ((ByteStream.new c).run ops).bytes_pushed ∧
    ((ByteStream.new c).run ops).bytes_buffered ≤ c ∧
    ((ByteStream.new c).run ops).available_capacity + ((ByteStream.new c).run ops).bytes_buffered = c ∧
    ((ByteStream.new c).run ops).bytes_pushed - ((ByteStream.new c).run ops).bytes_popped ≤ c ∧
    ((ByteStream.new c).run ops).available_capacity =
      c - (((ByteStream.new c).run ops).bytes_pushed - ((ByteStream.new c).run ops).bytes_popped) := by
  have h0 : (ByteStream.new c).Inv := by simp [ByteStream.new, Inv]
  obtain ⟨hi, hcap⟩ := run_inv ops h0
  have ha := available_capacity_of_inv hi
  obtain ⟨h1, h2⟩ := hi
  have hc : ((ByteStream.new c).run ops).capacity_ = c := hcap
  simp only [bytes_pushed, bytes_popped, bytes_buffered]
  omega

end ByteStream

/-! ## Well-formed segment maps -/

theorem SegsIn.mono {lo lo1 hi hi1 : Nat} : ∀ (m : Segments), SegsIn lo hi m → lo1 ≤ lo → hi ≤ hi1 →
    SegsIn lo1 hi1 m
  | [], _, _, _ => trivial
  | _ :: rest, ⟨h1, h2, h3, h4⟩, hl, hh =>
    ⟨le_trans hl h1, h2, le_trans h3 hh, SegsIn.mono rest h4 le_rfl hh⟩

theorem byteAt_eq_none_of_lt {lo hi : Nat} : ∀ (m : Segments), SegsIn lo hi m → ∀ (i : Nat), i < lo →
    byteAt m i = none
  | [], _, _, _ => rfl
  | seg :: rest, ⟨h1, h2, h3, h4⟩, i, hi => by
    have hrest : byteAt rest i = none := byteAt_eq_none_of_lt rest h4 i (by omega)
    simp only [byteAt]
    rw [if_neg (by omega)]
    exact hrest

theorem byteAt_eq_none_of_ge {lo hi : Nat} : ∀ (m : Segments), SegsIn lo hi m → ∀ (i : Nat), hi ≤ i →
    byteAt m i = none
  | [], _, _, _ => rfl
  | seg :: rest, ⟨h1, h2, h3, h4⟩, i, hi => by
    have hrest : byteAt rest i = none := byteAt_eq_none_of_ge rest h4 i hi
    simp only [byteAt]
    rw [if_neg (by omega)]
    exact hrest

theorem sumSizes_le {lo hi : Nat} : ∀ (m : Segments), SegsIn lo hi m → lo ≤ hi →
    lo + sumSizes m ≤ hi
  | [], _, h => by simpa [sumSizes] using h
  | seg :: rest, ⟨h1, h2, h3, h4⟩, _ => by
    have := sumSizes_le rest h4 (by omega)
    simp only [sumSizes]
    omega

theorem segs_eq_nil_of_sumSizes {lo hi : Nat} {m : Segments} (h : SegsIn lo hi m)
    (h0 : sumSizes m = 0) : m = [] := by
  cases m with
  | nil => rfl
  | cons seg rest =>
    obtain ⟨_, h2, _, _⟩ := h
    simp only [sumSizes] at h0
    omega

theorem segs_eq_nil_of_le {lo hi : Nat} {m : Segments} (h : SegsIn lo hi m) (hle : hi ≤ lo) :
    m = [] := by
  cases m with
  | nil => rfl
  | cons seg rest =>
    obtain ⟨h1, h2, h3, _⟩ := h
    omega

theorem mergeNext_un (fi : Nat) : ∀ (m : Segments) (data : List Byte) (un un1 : Nat),
    (mergeNext fi data un m).1 = (mergeNext fi data un1 m).1 ∧
    (mergeNext fi data un m).2.2 = (mergeNext fi data un1 m).2.2
  | [], _, _, _ => ⟨rfl, rfl⟩
  | nx :: rest, data, un, un1 => by
    simp only [mergeNext]
    split_ifs <;> first | exact mergeNext_un fi rest _ _ _ | exact ⟨rfl, rfl⟩

/-- What the successor loop returns on a well-formed list of successors: the
data is extended at its end, by bytes taken from the absorbed segments; the
segments left over start strictly after the end of the extended data. -/
theorem mergeNext_spec (fi hi : Nat) : ∀ (m : Segments) (data : List Byte) (un lo : Nat),
    SegsIn lo hi m → fi + data.length ≤ hi →
    (∃ t, (mergeNext fi data un m).1 = data ++ t) ∧
    fi + (mergeNext fi data un m).1.length ≤ hi ∧
    SegsIn (fi + (mergeNext fi data un m).1.length + 1) hi (mergeNext fi data un m).2.2 ∧
    (∀ i, fi + data.length ≤ i → i < fi + (mergeNext fi data un m).1.length →
      (mergeNext fi data un m).1[i - fi]? = byteAt m i) ∧
    (∀ i, fi + (mergeNext fi data un m).1.length ≤ i →
      byteAt (mergeNext fi data un m).2.2 i = byteAt m i)
  | [], data, un, lo, _, hd => by
    simp only [mergeNext]
    exact ⟨⟨[], by simp⟩, hd, trivial, fun i h1 h2 => by omega, fun i _ => trivial⟩
  | nx :: rest, data, un, lo, ⟨h1, h2, h3, h4⟩, hd => by
    simp only [mergeNext]
    by_cases hc : fi + data.length ≥ nx.1
    · rw [if_pos hc]
      by_cases he : fi + data.length < nx.1 + nx.2.length
      · rw [if_pos he]
        have hlen : (data ++ nx.2.drop (fi + data.length - nx.1)).length
            = nx.1 + nx.2.length - fi := by
          simp only [List.length_append, List.length_drop]; omega
        obtain ⟨⟨t, ht⟩, ih2, ih3, ih4, ih5⟩ :=
          mergeNext_spec fi hi rest (data ++ nx.2.drop (fi + data.length - nx.1))
            (un - nx.2.length) _ h4 (by rw [hlen]; omega)
        refine ⟨⟨nx.2.drop (fi + data.length - nx.1) ++ t, by rw [ht, List.append_assoc]⟩,
          ih2, ih3, ?_, ?_⟩
        · intro i hi1 hi2
          by_cases hin : i < nx.1 + nx.2.length
          · simp only [byteAt]
            rw [if_pos ⟨by omega, hin⟩, ht, List.getElem?_append_left (by rw [hlen]; omega),
              List.getElem?_append_right (by omega), List.getElem?_drop]
            congr 1; omega
          · rw [ih4 i (by rw [hlen]; omega) hi2]
            simp only [byteAt]
            rw [if_neg (by omega)]
        · intro i hi1
          rw [ih5 i hi1]
          have : nx.1 + nx.2.length ≤ i := by
            have := congrArg List.length ht
            rw [List.length_append, hlen] at this
            omega
          simp only [byteAt]
          rw [if_neg (by omega)]
      · rw [if_neg he]
        obtain ⟨ih1, ih2, ih3, ih4, ih5⟩ :=
          mergeNext_spec fi hi rest data (un - nx.2.length) _ h4 hd
        refine ⟨ih1, ih2, ih3, ?_, ?_⟩
        · intro i hi1 hi2
          rw [ih4 i hi1 hi2]
          simp only [byteAt]
          rw [if_neg (by omega)]
        · intro i hi1
          rw [ih5 i hi1]
          obtain ⟨t, ht⟩ := ih1
          have : nx.1 + nx.2.length ≤ i := by
            have := congrArg List.length ht
            rw [List.length_append] at this
            omega
          simp only [byteAt]
          rw [if_neg (by omega)]
    · rw [if_neg hc]
      dsimp only
      refine ⟨⟨[], by simp⟩, hd, ⟨by omega, h2, h3, h4⟩, fun i h1 h2 => by omega, fun i _ => rfl⟩


theorem takeWhile_lt_of_segsIn {lo hi a : Nat} {m : Segments} (h : SegsIn lo hi m) (ha : a ≤ lo) :
    m.takeWhile (fun seg => decide (seg.1 < a)) = [] ∧
    m.dropWhile (fun seg => decide (seg.1 < a)) = m := by
  cases m with
  | nil => exact ⟨rfl, rfl⟩
  | cons seg rest =>
    obtain ⟨h1, _⟩ := h
    have : ¬ seg.1 < a := by omega
    simp [List.takeWhile_cons, List.dropWhile_cons, this]

theorem takeWhile_le_of_segsIn {lo hi a : Nat} {m : Segments} (h : SegsIn lo hi m) (ha : a < lo) :
    m.takeWhile (fun seg => decide (seg.1 ≤ a)) = [] ∧
    m.dropWhile (fun seg => decide (seg.1 ≤ a)) = m := by
  cases m with
  | nil => exact ⟨rfl, rfl⟩
  | cons seg rest =>
    obtain ⟨h1, _⟩ := h
    have : ¬ seg.1 ≤ a := by omega
    simp [List.takeWhile_cons, List.dropWhile_cons, this]

theorem mapAssign_of_segsIn {lo hi k : Nat} (v : List Byte) {m : Segments} (h : SegsIn lo hi m)
    (hk : k < lo) : mapAssign k v m = (k, v) :: m := by
  cases m with
  | nil => rfl
  | cons seg rest =>
    obtain ⟨h1, _⟩ := h
    simp only [mapAssign]
    rw [if_pos (by omega)]

theorem mergePrev_nil (a : Nat) (d : List Byte) (un : Nat) :
    mergePrev a d un [] = ([], a, d, un) := rfl

theorem mergePrev_of_ge {lo hi a : Nat} (d : List Byte) (un : Nat) {m : Segments}
    (h : SegsIn lo hi m) (ha : a ≤ lo) : mergePrev a d un m = (m, a, d, un) := by
  unfold mergePrev
  simp only [(takeWhile_lt_of_segsIn h ha).1, List.getLast?_nil]

/-- The predecessor step on a map whose first entry starts before `a`. -/
theorem mergePrev_cons {lo hi a : Nat} (d : List Byte) (un : Nat) {seg : Nat × List Byte}
    {rest : Segments} (h : SegsIn lo hi (seg :: rest)) (hlt : seg.1 < a) :
    (a < seg.1 + seg.2.length →
      mergePrev a d un (seg :: rest) =
        ((seg.1, seg.2 ++ d.drop (seg.1 + seg.2.length - a)) :: rest, seg.1,
          seg.2 ++ d.drop (seg.1 + seg.2.length - a),
          un - seg.2.length + (seg.2 ++ d.drop (seg.1 + seg.2.length - a)).length)) ∧
    (seg.1 + seg.2.length ≤ a →
      mergePrev a d un (seg :: rest) =
        (seg :: (mergePrev a d un rest).1, (mergePrev a d un rest).2)) := by
  obtain ⟨h1, h2, h3, h4⟩ := h
  constructor
  · intro hov
    obtain ⟨ht, hd⟩ := takeWhile_lt_of_segsIn h4 (le_of_lt hov)
    unfold mergePrev
    simp only [List.takeWhile_cons, List.dropWhile_cons, hlt, decide_True, if_true, ht, hd,
      List.getLast?_singleton, List.dropLast_single, List.nil_append]
    rw [if_pos (by omega)]
  · intro hno
    unfold mergePrev
    simp only [List.takeWhile_cons, List.dropWhile_cons, hlt, decide_True, if_true]
    rcases List.eq_nil_or_concat (rest.takeWhile fun seg => decide (seg.1 < a)) with hnil | ⟨L, p, hL⟩
    · simp only [hnil, List.getLast?_singleton, List.getLast?_nil]
      rw [if_neg (by omega)]
    · rw [List.concat_eq_append] at hL
      simp only [hL, List.getLast?_concat]
      have hcons : (seg :: (L ++ [p])).getLast? = some p := by
        rw [← List.cons_append, List.getLast?_concat]
      have hdl : (seg :: (L ++ [p])).dropLast = seg :: L := by
        rw [← List.cons_append, List.dropLast_concat]
      rw [hcons, hdl, List.dropLast_concat]
      dsimp only
      split_ifs <;> rfl


theorem SegsIn.head_lo {lo hi : Nat} {seg : Nat × List Byte} {rest : Segments}
    (h : SegsIn lo hi (seg :: rest)) : SegsIn seg.1 hi (seg :: rest) :=
  ⟨le_rfl, h.2.1, h.2.2.1, h.2.2.2⟩

theorem mergePrev_key {hi a : Nat} (d : List Byte) (un : Nat) : ∀ (m : Segments) (lo : Nat),
    SegsIn lo hi m → lo ≤ a →
    lo ≤ (mergePrev a d un m).2.1 ∧ (mergePrev a d un m).2.1 ≤ a
  | [], lo, _, hlo => ⟨hlo, le_rfl⟩
  | seg :: rest, lo, h, hlo => by
    by_cases hlt : seg.1 < a
    · by_cases hov : a < seg.1 + seg.2.length
      · rw [(mergePrev_cons d un h hlt).1 hov]
        exact ⟨h.1, le_of_lt hlt⟩
      · rw [(mergePrev_cons d un h hlt).2 (by omega)]
        have := mergePrev_key d un rest _ h.2.2.2 (by omega : seg.1 + seg.2.length ≤ a)
        have h1 := h.1
        dsimp only
        omega
    · rw [mergePrev_of_ge d un (SegsIn.head_lo h) (by omega)]
      exact ⟨hlo, le_rfl⟩

theorem mergeStore_cons_before {lo hi a : Nat} (d : List Byte) (un : Nat)
    {seg : Nat × List Byte} {rest : Segments} (h : SegsIn lo hi (seg :: rest))
    (hno : seg.1 + seg.2.length ≤ a) :
    (mergeStore a d un (seg :: rest)).1 = seg :: (mergeStore a d un rest).1 := by
  have h2 := h.2.1
  have hlt : seg.1 < a := by omega
  have hk := mergePrev_key d un rest _ h.2.2.2 hno
  unfold mergeStore
  rw [(mergePrev_cons d un h hlt).2 hno]
  dsimp only
  have hle : seg.1 ≤ (mergePrev a d un rest).2.1 := by omega
  simp only [List.takeWhile_cons, List.dropWhile_cons, hle, decide_True, if_true,
    List.cons_append, mapAssign]
  rw [if_neg (by omega), if_neg (by omega)]

/-- On a well-formed map the map operations of lines 75-106 compute `mergeRef`. -/
theorem mergeStore_eq_mergeRef {hi a : Nat} (d : List Byte) (un : Nat) : ∀ (m : Segments) (lo : Nat),
    SegsIn lo hi m → (mergeStore a d un m).1 = mergeRef a d m
  | [], _, _ => rfl
  | seg :: rest, lo, h => by
    obtain ⟨h1, h2, h3, h4⟩ := h
    have h' : SegsIn lo hi (seg :: rest) := ⟨h1, h2, h3, h4⟩
    simp only [mergeRef]
    by_cases hlt : seg.1 < a
    · rw [if_pos hlt]
      by_cases hno : seg.1 + seg.2.length ≤ a
      · rw [if_pos hno, mergeStore_cons_before d un h' hno,
          mergeStore_eq_mergeRef d un rest _ h4]
      · rw [if_neg hno]
        unfold mergeStore
        rw [(mergePrev_cons d un h' hlt).1 (by omega)]
        dsimp only
        obtain ⟨ht, hd⟩ := takeWhile_le_of_segsIn h4 (by omega : seg.1 < seg.1 + seg.2.length)
        simp only [List.takeWhile_cons, List.dropWhile_cons, le_refl, decide_True, if_true, ht, hd,
          List.cons_append, List.nil_append, mapAssign, lt_self_iff_false, if_false]
        obtain ⟨e1, e2⟩ := mergeNext_un seg.1 rest (seg.2 ++ d.drop (seg.1 + seg.2.length - a))
          (un - seg.2.length + (seg.2 ++ d.drop (seg.1 + seg.2.length - a)).length) 0
        rw [e1, e2]
    · rw [if_neg hlt]
      have hst := mergePrev_of_ge d un (SegsIn.head_lo h') (by omega : a ≤ seg.1)
      by_cases heq : seg.1 = a
      · rw [if_pos heq]
        unfold mergeStore
        rw [hst]
        dsimp only
        obtain ⟨ht, hd⟩ := takeWhile_le_of_segsIn h4 (by omega : a < seg.1 + seg.2.length)
        have hle : seg.1 ≤ a := by omega
        simp only [List.takeWhile_cons, List.dropWhile_cons, hle, decide_True, if_true, ht, hd,
          List.cons_append, List.nil_append, mapAssign]
        rw [if_neg (by omega), if_pos heq.symm]
        obtain ⟨e1, e2⟩ := mergeNext_un a rest d un 0
        rw [e1, e2]
      · rw [if_neg heq]
        unfold mergeStore
        rw [hst]
        dsimp only
        obtain ⟨ht, hd⟩ := takeWhile_le_of_segsIn (SegsIn.head_lo h') (by omega : a < seg.1)
        rw [ht, hd, List.nil_append]
        obtain ⟨_, _, hrest, _, _⟩ := mergeNext_spec a (hi + (a + d.length)) (seg :: rest) d un _
          (SegsIn.mono _ h' le_rfl (Nat.le_add_right _ _)) (Nat.le_add_left _ _)
        rw [mapAssign_of_segsIn _ hrest (by omega)]
        obtain ⟨e1, e2⟩ := mergeNext_un a (seg :: rest) d un 0
        rw [e1, e2]

theorem startingBefore_of_segsIn {lo hi a : Nat} : ∀ (m : Segments), SegsIn lo hi m → a ≤ lo →
    startingBefore a m = []
  | [], _, _ => rfl
  | seg :: rest, ⟨h1, h2, h3, h4⟩, ha => by
    have ih := startingBefore_of_segsIn (a := a) rest h4 (by omega)
    unfold startingBefore at ih ⊢
    rw [List.filter_cons_of_neg (by simp; omega)]
    exact ih

theorem containedIn_cons (a : Nat) (d : List Byte) (seg : Nat × List Byte) (rest : Segments) :
    containedIn a d (seg :: rest) =
      (decide (seg.1 ≤ a) && decide (seg.1 + seg.2.length ≥ a + d.length) || containedIn a d rest) := by
  simp [containedIn]

/-- The stored segment and what follows it, when the merge loop starts from
`(fi, data)` with the well-formed successors `m`. -/
theorem mergeNext_cons_spec {hi lo : Nat} {m : Segments} (fi : Nat) (data : List Byte)
    (h : SegsIn lo hi m) (hlo : fi ≤ lo) (hd : fi + data.length ≤ hi) (hpos : 0 < data.length) :
    SegsIn fi hi ((fi, (mergeNext fi data 0 m).1) :: (mergeNext fi data 0 m).2.2) ∧
    SegsIn (fi + (mergeNext fi data 0 m).1.length + 1) hi (mergeNext fi data 0 m).2.2 ∧
    data.length ≤ (mergeNext fi data 0 m).1.length ∧
    (∃ t, (mergeNext fi data 0 m).1 = data ++ t) ∧
    ∀ i, byteAt ((fi, (mergeNext fi data 0 m).1) :: (mergeNext fi data 0 m).2.2) i =
      if fi ≤ i ∧ i < fi + data.length then data[i - fi]? else byteAt m i := by
  obtain ⟨⟨t, ht⟩, s2, s3, s4, s5⟩ := mergeNext_spec fi hi m data 0 lo h hd
  have hlen : data.length ≤ (mergeNext fi data 0 m).1.length := by
    rw [ht, List.length_append]; omega
  refine ⟨⟨le_rfl, by dsimp only; omega, s2, SegsIn.mono _ s3 (by dsimp only; omega) le_rfl⟩,
    s3, hlen, ⟨t, ht⟩, ?_⟩
  intro i
  simp only [byteAt]
  by_cases h1 : fi ≤ i
  · by_cases h2 : i < fi + data.length
    · rw [if_pos ⟨h1, by omega⟩, if_pos ⟨h1, h2⟩, ht, List.getElem?_append_left (by omega)]
    · rw [if_neg (by omega : ¬ (fi ≤ i ∧ i < fi + data.length))]
      by_cases h3 : i < fi + (mergeNext fi data 0 m).1.length
      · rw [if_pos ⟨h1, h3⟩]
        exact s4 i (by omega) h3
      · rw [if_neg (by omega)]
        exact s5 i (by omega)
  · rw [if_neg (by omega), if_neg (by omega)]
    rw [byteAt_eq_none_of_lt _ s3 i (by omega), byteAt_eq_none_of_lt _ h i (by omega)]

theorem mergeRef_of_after {hi a : Nat} (d : List Byte) {m : Segments} (h : SegsIn (a + 1) hi m) :
    mergeRef a d m = (a, (mergeNext a d 0 m).1) :: (mergeNext a d 0 m).2.2 := by
  cases m with
  | nil => rfl
  | cons seg rest =>
    have h1 := h.1
    simp only [mergeRef]
    rw [if_neg (by omega), if_neg (by omega)]

/-- The map after lines 75-106, for a non-empty range inside `[lo, hi)` that no
stored segment contains: it is well formed, one of its segments contains the
range, and byte by byte it holds the old bytes of the segments that start
before `a`, then the new bytes on the rest of the range, and the old bytes
outside the range. -/
theorem mergeRef_spec {hi a : Nat} {d : List Byte} (hpos : 0 < d.length) (hhi : a + d.length ≤ hi) :
    ∀ (m : Segments) (lo : Nat), SegsIn lo hi m → lo ≤ a → containedIn a d m = false →
    SegsIn lo hi (mergeRef a d m) ∧
    containedIn a d (mergeRef a d m) = true ∧
    ∀ i, byteAt (mergeRef a d m) i =
      if a ≤ i ∧ i < a + d.length then (byteAt (startingBefore a m) i).or d[i - a]?
      else byteAt m i
  | [], lo, _, hlo, _ => by
    refine ⟨⟨hlo, hpos, hhi, trivial⟩, by simp [mergeRef, containedIn], ?_⟩
    intro i
    simp only [mergeRef, byteAt, startingBefore, List.filter_nil, Option.none_or]
  | seg :: rest, lo, ⟨h1, h2, h3, h4⟩, hlo, hc => by
    rw [containedIn_cons, Bool.or_eq_false_iff] at hc
    obtain ⟨hc1, hc2⟩ := hc
    have hc1' : ¬ (seg.1 ≤ a ∧ seg.1 + seg.2.length ≥ a + d.length) := by
      intro hx
      simp [hx.1, hx.2] at hc1
    by_cases hlt : seg.1 < a
    · by_cases hno : seg.1 + seg.2.length ≤ a
      · obtain ⟨i1, i2, i3⟩ := mergeRef_spec hpos hhi rest _ h4 hno hc2
        have hm : mergeRef a d (seg :: rest) = seg :: mergeRef a d rest := by
          simp only [mergeRef]; rw [if_pos hlt, if_pos hno]
        rw [hm]
        refine ⟨⟨h1, h2, h3, i1⟩, by rw [containedIn_cons, i2, Bool.or_true], ?_⟩
        intro i
        have hsb : startingBefore a (seg :: rest) = seg :: startingBefore a rest := by
          unfold startingBefore
          rw [List.filter_cons_of_pos (by simpa using hlt)]
        rw [hsb]
        simp only [byteAt]
        by_cases hin : seg.1 ≤ i ∧ i < seg.1 + seg.2.length
        · rw [if_pos hin, if_neg (by omega), if_pos hin]
        · rw [if_neg hin, i3 i, if_neg hin, if_neg hin]
      · have hm : mergeRef a d (seg :: rest) =
            (seg.1, (mergeNext seg.1 (seg.2 ++ d.drop (seg.1 + seg.2.length - a)) 0 rest).1) ::
              (mergeNext seg.1 (seg.2 ++ d.drop (seg.1 + seg.2.length - a)) 0 rest).2.2 := by
          simp only [mergeRef]; rw [if_pos hlt, if_neg hno]
        have hlen : (seg.2 ++ d.drop (seg.1 + seg.2.length - a)).length
            = a + d.length - seg.1 := by
          simp only [List.length_append, List.length_drop]; omega
        obtain ⟨s1, s2, s3, s4, s5⟩ :=
          mergeNext_cons_spec seg.1 (seg.2 ++ d.drop (seg.1 + seg.2.length - a))
            h4 (by omega) (by rw [hlen]; omega) (by rw [hlen]; omega)
        rw [hm]
        refine ⟨SegsIn.mono _ s1 h1 le_rfl, ?_, ?_⟩
        · rw [containedIn_cons]
          have : seg.1 ≤ a ∧ seg.1 + (mergeNext seg.1
              (seg.2 ++ d.drop (seg.1 + seg.2.length - a)) 0 rest).1.length ≥ a + d.length := by
            rw [hlen] at s3; omega
          simp [this.1, this.2]
        · intro i
          rw [s5 i, hlen]
          have hsb : startingBefore a (seg :: rest) = [seg] := by
            have := startingBefore_of_segsIn (a := a) rest h4 (by omega)
            unfold startingBefore at this ⊢
            rw [List.filter_cons_of_pos (by simpa using hlt), this]
          rw [hsb]
          simp only [byteAt]
          by_cases hin : seg.1 ≤ i ∧ i < seg.1 + seg.2.length
          · rw [if_pos (by omega), List.getElem?_append_left (by omega), if_pos hin, if_pos hin]
            by_cases hia : a ≤ i ∧ i < a + d.length
            · rw [if_pos hia]
              cases hsome : seg.2[i - seg.1]? with
              | none => rw [List.getElem?_eq_none_iff] at hsome; omega
              | some b => rfl
            · rw [if_neg hia]
          · rw [if_neg hin, if_neg hin]
            by_cases hia : a ≤ i ∧ i < a + d.length
            · rw [if_pos (by omega), if_pos hia, List.getElem?_append_right (by omega),
                List.getElem?_drop, Option.none_or]
              congr 1; omega
            · rw [if_neg (by omega), if_neg hia]
    · have hsb : startingBefore a (seg :: rest) = [] :=
        startingBefore_of_segsIn _ (SegsIn.head_lo ⟨h1, h2, h3, h4⟩) (by omega)
      by_cases heq : seg.1 = a
      · have hm : mergeRef a d (seg :: rest) =
            (a, (mergeNext a d 0 rest).1) :: (mergeNext a d 0 rest).2.2 := by
          simp only [mergeRef]; rw [if_neg hlt, if_pos heq]
        obtain ⟨s1, s2, s3, s4, s5⟩ :=
          mergeNext_cons_spec a d h4 (by omega) hhi hpos
        rw [hm]
        refine ⟨SegsIn.mono _ s1 hlo le_rfl, by simp [containedIn_cons, s3], ?_⟩
        intro i
        rw [s5 i, hsb]
        simp only [byteAt, Option.none_or]
        by_cases hia : a ≤ i ∧ i < a + d.length
        · rw [if_pos hia, if_pos hia]
        · rw [if_neg hia, if_neg hia, if_neg (by omega)]
      · have hm : mergeRef a d (seg :: rest) =
            (a, (mergeNext a d 0 (seg :: rest)).1) :: (mergeNext a d 0 (seg :: rest)).2.2 := by
          simp only [mergeRef]; rw [if_neg hlt, if_neg heq]
        obtain ⟨s1, s2, s3, s4, s5⟩ :=
          mergeNext_cons_spec a d (m := seg :: rest)
            (SegsIn.head_lo ⟨h1, h2, h3, h4⟩) (by omega) hhi hpos
        rw [hm]
        refine ⟨SegsIn.mono _ s1 hlo le_rfl, by simp [containedIn_cons, s3], ?_⟩
        intro i
        rw [s5 i, hsb]
        simp only [byteAt, Option.none_or]

/-! ## The positions passed to `substr` -/

/-- Line 85: when the containment scan of lines 64-73 has found nothing and the
previous block reaches past `first_index`, the position `overlap_size` passed
to `data.substr` is smaller than `data.size()`. -/
theorem overlap_size_lt_of_prev {a : Nat} {d : List Byte} {segs : Segments}
    {prev : Nat × List Byte} (hc : containedIn a d segs = false)
    (hp : (segs.takeWhile fun seg => decide (seg.1 < a)).getLast? = some prev)
    (hov : prev.1 + prev.2.length > a) : prev.1 + prev.2.length - a < d.length := by
  have hm := List.mem_of_getLast?_eq_some hp
  have hlt : prev.1 < a := by simpa using List.mem_takeWhile_imp hm
  have hmem : prev ∈ segs := (List.takeWhile_sublist _).subset hm
  unfold containedIn at hc
  have hnot := (List.any_eq_false.mp hc) prev hmem
  simp only [Bool.and_eq_true, decide_eq_true_eq, not_and, not_le] at hnot
  have := hnot (le_of_lt hlt)
  omega

/-- Lines 31-54: the positions passed to `substr` while trimming are at most
`data.size()`. -/
theorem trim_size_le {first_index window_start : Nat} {data : List Byte}
    (h1 : first_index < window_start) (h2 : ¬ first_index + data.length ≤ window_start) :
    window_start - first_index ≤ data.length := by
  omega

/-- Lines 95-98: inside the merge loop the position passed to `substr` is at
most the size of the following block. -/
theorem overlap_size_le_of_next {first_index : Nat} {data : List Byte} {nx : Nat × List Byte}
    (h2 : first_index + data.length < nx.1 + nx.2.length) :
    first_index + data.length - nx.1 ≤ nx.2.length := by
  omega


/-! ## The shape of `insert` -/

namespace Reassembler

@[simp] theorem markEof_output (r : Reassembler) (fi : Nat) (data : List Byte) (l : Bool) :
    (markEof r fi data l).output_ = r.output_ := by
  unfold markEof; split_ifs <;> rfl

@[simp] theorem markEof_segments (r : Reassembler) (fi : Nat) (data : List Byte) (l : Bool) :
    (markEof r fi data l).segments_ = r.segments_ := by
  unfold markEof; split_ifs <;> rfl

@[simp] theorem markEof_next (r : Reassembler) (fi : Nat) (data : List Byte) (l : Bool) :
    (markEof r fi data l).next_index_ = r.next_index_ := by
  unfold markEof; split_ifs <;> rfl

@[simp] theorem markEof_unassembled (r : Reassembler) (fi : Nat) (data : List Byte) (l : Bool) :
    (markEof r fi data l).unassembled_bytes_ = r.unassembled_bytes_ := by
  unfold markEof; split_ifs <;> rfl

@[simp] theorem markEof_trimStart (r : Reassembler) (fi : Nat) (data : List Byte) (l : Bool)
    (k : Nat) : (markEof r fi data l).trimStart k = r.trimStart k := by
  simp [trimStart]

@[simp] theorem markEof_trimData (r : Reassembler) (fi : Nat) (data : List Byte) (l : Bool)
    (k : Nat) (d : List Byte) : (markEof r fi data l).trimData k d = r.trimData k d := by
  simp [trimData]

/-- A closure test leaves everything but the closed flag of the stream alone. -/
theorem closeIfEq_cases (r : Reassembler) :
    closeIfEq r = r ∨ closeIfEq r = { r with output_ := r.output_.close } := by
  unfold closeIfEq; split_ifs
  · exact Or.inr rfl
  · exact Or.inl rfl

theorem closeIfGe_cases (r : Reassembler) :
    closeIfGe r = r ∨ closeIfGe r = { r with output_ := r.output_.close } := by
  unfold closeIfGe; split_ifs
  · exact Or.inr rfl
  · exact Or.inl rfl

/-- The four ways through `insert`: the two discards (closure test with `==`),
the empty remainder (closure test with `>=`), and `store` on the trimmed range. -/
theorem insert_eq (r0 : Reassembler) (fi : Nat) (data : List Byte) (l : Bool) :
    insert r0 fi data l =
      if fi < r0.next_index_ ∧ fi + data.length ≤ r0.next_index_ then
        closeIfEq (markEof r0 fi data l)
      else if r0.next_index_ + r0.output_.available_capacity ≤ r0.trimStart fi then
        closeIfEq (markEof r0 fi data l)
      else if r0.trimData fi data = [] then closeIfGe (markEof r0 fi data l)
      else store (markEof r0 fi data l) (r0.trimStart fi) (r0.trimData fi data) := by
  unfold insert
  simp only [markEof_next, markEof_output]
  by_cases h1 : fi < r0.next_index_
  · rw [if_pos h1]
    by_cases h2 : fi + data.length ≤ r0.next_index_
    · rw [if_pos h2, if_pos ⟨h1, h2⟩]
    · rw [if_neg h2, if_neg (by tauto)]
      have hts : r0.trimStart fi = r0.next_index_ := by unfold trimStart; omega
      unfold insertRight
      rw [hts]
      by_cases h3 : r0.next_index_ ≥ r0.next_index_ + r0.output_.available_capacity
      · rw [if_pos h3, if_pos h3]
      · rw [if_neg h3, if_neg h3]
        have htd : (if r0.next_index_ + (data.drop (r0.next_index_ - fi)).length >
              r0.next_index_ + r0.output_.available_capacity then
            (data.drop (r0.next_index_ - fi)).take
              (r0.next_index_ + r0.output_.available_capacity - r0.next_index_)
            else data.drop (r0.next_index_ - fi)) = r0.trimData fi data := by
          unfold trimData
          rw [hts]
          split_ifs with h4
          · rfl
          · rw [List.take_of_length_le (by omega)]
        simp only [htd, List.isEmpty_iff]
  · rw [if_neg h1, if_neg (by tauto)]
    have hts : r0.trimStart fi = fi := by unfold trimStart; omega
    unfold insertRight
    rw [hts]
    by_cases h3 : fi ≥ r0.next_index_ + r0.output_.available_capacity
    · rw [if_pos h3, if_pos h3]
    · rw [if_neg h3, if_neg h3]
      have htd : (if fi + data.length > r0.next_index_ + r0.output_.available_capacity then
            data.take (r0.next_index_ + r0.output_.available_capacity - fi)
          else data) = r0.trimData fi data := by
        unfold trimData
        rw [hts, (by omega : r0.next_index_ - fi = 0), List.drop_zero]
        split_ifs with h4
        · rfl
        · rw [List.take_of_length_le (by omega)]
      simp only [htd, List.isEmpty_iff]

/-- The trimmed range lies inside the window. -/
theorem trim_bounds (r : Reassembler) (fi : Nat) (data : List Byte)
    (h : ¬ r.next_index_ + r.output_.available_capacity ≤ r.trimStart fi) :
    r.next_index_ ≤ r.trimStart fi ∧
    r.trimStart fi + (r.trimData fi data).length ≤ r.next_index_ + r.output_.available_capacity ∧
    (r.trimData fi data).length ≤ data.length ∧
    r.trimStart fi + (r.trimData fi data).length ≤ max (fi + data.length) (r.trimStart fi) := by
  unfold trimData
  simp only [List.length_take, List.length_drop]
  unfold trimStart at h ⊢
  omega

end Reassembler

/-! ## The flush loop -/

theorem flush_of_gt {hi next : Nat} (out : ByteStream) (un : Nat) {m : Segments}
    (h : SegsIn (next + 1) hi m) : flush out next un m = (out, next, un, m) := by
  cases m with
  | nil => rfl
  | cons seg rest =>
    have := h.1
    simp only [flush]
    rw [if_neg (by omega)]

theorem flush_head {hi next : Nat} (out : ByteStream) (un : Nat) (d : List Byte) {rest : Segments}
    (h : SegsIn (next + d.length + 1) hi rest) :
    flush out next un ((next, d) :: rest) =
      (out.push d, next + d.length, un - d.length, rest) := by
  simp only [flush, if_true]
  exact flush_of_gt _ _ h


/-! ## The invariant of the reachable states -/

theorem containedIn_of_after {hi a : Nat} (d : List Byte) : ∀ (m : Segments), SegsIn (a + 1) hi m →
    containedIn a d m = false
  | [], _ => rfl
  | seg :: rest, ⟨h1, h2, h3, h4⟩ => by
    rw [containedIn_cons, containedIn_of_after d rest (SegsIn.mono _ h4 (by omega) le_rfl)]
    simp
    omega

namespace Reassembler

theorem Inv.close {r : Reassembler} (h : r.Inv) :
    Inv { r with output_ := r.output_.close } :=
  ⟨h.stream, h.segs, h.pending, fun hc => by simp [ByteStream.close] at hc, h.ahead⟩

theorem Inv.closeIfEq {r : Reassembler} (h : r.Inv) : (closeIfEq r).Inv := by
  rcases closeIfEq_cases r with e | e <;> rw [e]
  · exact h
  · exact h.close

theorem Inv.closeIfGe {r : Reassembler} (h : r.Inv) : (closeIfGe r).Inv := by
  rcases closeIfGe_cases r with e | e <;> rw [e]
  · exact h
  · exact h.close

theorem Inv.markEof {r : Reassembler} (h : r.Inv) (fi : Nat) (data : List Byte) (l : Bool) :
    (markEof r fi data l).Inv := by
  unfold Reassembler.markEof; split_ifs
  · exact ⟨h.stream, h.segs, h.pending, h.synced, h.ahead⟩
  · exact h

/-- `store` when the range starts after `next_index_`: the map is merged and
nothing is flushed. -/
theorem store_far {r : Reassembler} {a hi : Nat} {d : List Byte}
    (hs : SegsIn (r.next_index_ + 1) hi r.segments_) (ha : r.next_index_ < a)
    (hpos : 0 < d.length) (hhi : a + d.length ≤ hi) (hc : containedIn a d r.segments_ = false) :
    store r a d = closeIfGe (r.merged a d) := by
  obtain ⟨m1, _, _⟩ := mergeRef_spec hpos hhi _ _ hs ha hc
  unfold store merged
  rw [hc]
  simp only [Bool.false_eq_true, if_false]
  rw [mergeStore_eq_mergeRef d _ _ _ hs, flush_of_gt _ _ m1]

/-- `store` when the range starts at `next_index_`: the range, extended by the
successors it reaches, is pushed at once and nothing else is flushed. -/
theorem store_near {r : Reassembler} {hi : Nat} {d : List Byte}
    (hs : SegsIn (r.next_index_ + 1) hi r.segments_)
    (hpos : 0 < d.length) (hhi : r.next_index_ + d.length ≤ hi) :
    store r r.next_index_ d = closeIfGe (r.flushed d) := by
  obtain ⟨_, s2, _, _, _⟩ := mergeNext_cons_spec r.next_index_ d hs
    (by omega) hhi hpos
  unfold store flushed
  rw [containedIn_of_after d _ hs]
  simp only [Bool.false_eq_true, if_false]
  rw [mergeStore_eq_mergeRef d _ _ _ hs, mergeRef_of_after d hs, flush_head _ _ _ s2]
  simp only [sumSizes, Nat.add_sub_cancel_left]

theorem merged_inv {r : Reassembler} (h : r.Inv) {a : Nat} {d : List Byte}
    (ha : r.next_index_ < a) (hpos : 0 < d.length)
    (hhi : a + d.length ≤ r.next_index_ + r.output_.available_capacity)
    (hc : containedIn a d r.segments_ = false) : (r.merged a d).Inv :=
  ⟨h.stream, (mergeRef_spec hpos hhi _ _ h.segs ha hc).1, rfl, h.synced, h.ahead⟩

theorem flushed_inv {r : Reassembler} (h : r.Inv) {d : List Byte} (hpos : 0 < d.length)
    (hhi : r.next_index_ + d.length ≤ r.next_index_ + r.output_.available_capacity) :
    (r.flushed d).Inv ∧
    SegsIn (r.next_index_ + (mergeNext r.next_index_ d 0 r.segments_).1.length + 1)
      (r.next_index_ + r.output_.available_capacity) (r.flushed d).segments_ := by
  obtain ⟨_, s2, s3, _, _⟩ := mergeNext_cons_spec r.next_index_ d h.segs
    (by omega) hhi hpos
  obtain ⟨_, sle, _⟩ := mergeNext_spec r.next_index_ _ r.segments_ d 0 _ h.segs hhi
  have hav := ByteStream.available_capacity_of_inv h.stream
  have hst := h.stream
  refine ⟨?_, s2⟩
  unfold flushed
  cases hcl : r.output_.closed_ with
  | true =>
    rw [ByteStream.push_of_closed hcl]
    exact ⟨h.stream, SegsIn.mono _ s2 le_rfl (by dsimp only; omega), rfl,
      fun hx => by simp [hcl] at hx, by have := h.ahead; dsimp only; omega⟩
  | false =>
    have hsync := h.synced hcl
    rw [ByteStream.push_fits hcl (by omega)]
    have hst1 : ByteStream.Inv { r.output_ with
        buffer_ := r.output_.buffer_ ++ (mergeNext r.next_index_ d 0 r.segments_).1,
        bytes_pushed_ := r.output_.bytes_pushed_ +
          (mergeNext r.next_index_ d 0 r.segments_).1.length } := by
      obtain ⟨i1, i2⟩ := hst
      refine ⟨?_, ?_⟩
      · simp only [List.length_append]; omega
      · simp only [List.length_append]; omega
    have hav1 := ByteStream.available_capacity_of_inv hst1
    refine ⟨hst1, ?_, rfl, fun _ => by dsimp only; omega, by dsimp only; omega⟩
    refine SegsIn.mono _ s2 le_rfl ?_
    dsimp only at hav1 ⊢
    rw [hav1]
    simp only [List.length_append]
    obtain ⟨i1, i2⟩ := hst
    omega

theorem closeIfGe_segments (r : Reassembler) : (closeIfGe r).segments_ = r.segments_ := by
  rcases closeIfGe_cases r with e | e <;> rw [e]

theorem closeIfEq_segments (r : Reassembler) : (closeIfEq r).segments_ = r.segments_ := by
  rcases closeIfEq_cases r with e | e <;> rw [e]

/-- `store` on a trimmed range keeps the invariant, and every segment it
leaves lies inside the window `[next_index_, hi)` of the call. -/
theorem store_inv {r : Reassembler} (h : r.Inv) {a : Nat} {d : List Byte}
    (ha : r.next_index_ ≤ a) (hpos : 0 < d.length)
    (hhi : a + d.length ≤ r.next_index_ + r.output_.available_capacity) :
    (store r a d).Inv ∧
    SegsIn r.next_index_ (r.next_index_ + r.output_.available_capacity) (store r a d).segments_ := by
  by_cases hc : containedIn a d r.segments_ = true
  · have : store r a d = closeIfGe r := by unfold store; rw [if_pos hc]
    rw [this, closeIfGe_segments]
    exact ⟨h.closeIfGe, SegsIn.mono _ h.segs (by omega) le_rfl⟩
  · rw [Bool.not_eq_true] at hc
    rcases Nat.lt_or_ge r.next_index_ a with hlt | hge
    · rw [store_far h.segs hlt hpos hhi hc, closeIfGe_segments]
      have hinv := merged_inv h hlt hpos hhi hc
      exact ⟨hinv.closeIfGe, SegsIn.mono _ hinv.segs (by simp [merged]) le_rfl⟩
    · have hea : a = r.next_index_ := by omega
      subst hea
      rw [store_near h.segs hpos hhi, closeIfGe_segments]
      obtain ⟨hinv, hs⟩ := flushed_inv h hpos hhi
      exact ⟨hinv.closeIfGe, SegsIn.mono _ hs (by omega) le_rfl⟩

/-- One `insert` keeps the invariant, and every segment pending afterwards lies
inside the window computed at the start of the call. -/
theorem insert_inv {r : Reassembler} (h : r.Inv) (fi : Nat) (data : List Byte) (l : Bool) :
    (insert r fi data l).Inv ∧
    SegsIn r.next_index_ (r.next_index_ + r.output_.available_capacity)
      (insert r fi data l).segments_ := by
  have hm := h.markEof fi data l
  have hsegs : SegsIn r.next_index_ (r.next_index_ + r.output_.available_capacity)
      (markEof r fi data l).segments_ := by
    rw [markEof_segments]; exact SegsIn.mono _ h.segs (by omega) le_rfl
  have hEq : SegsIn r.next_index_ (r.next_index_ + r.output_.available_capacity)
      (closeIfEq (markEof r fi data l)).segments_ := by
    rw [closeIfEq_segments]; exact hsegs
  have hGe : SegsIn r.next_index_ (r.next_index_ + r.output_.available_capacity)
      (closeIfGe (markEof r fi data l)).segments_ := by
    rw [closeIfGe_segments]; exact hsegs
  rw [insert_eq]
  split_ifs with h1 h2 h3
  · exact ⟨hm.closeIfEq, hEq⟩
  · exact ⟨hm.closeIfEq, hEq⟩
  · exact ⟨hm.closeIfGe, hGe⟩
  · obtain ⟨b1, b2, _, _⟩ := trim_bounds r fi data h2
    have hpos : 0 < (r.trimData fi data).length := List.length_pos.mpr h3
    have := store_inv hm (a := r.trimStart fi) (d := r.trimData fi data)
      (by rw [markEof_next]; exact b1) hpos (by rw [markEof_next, markEof_output]; exact b2)
    rw [markEof_next, markEof_output] at this
    exact this

theorem inv_pop {r : Reassembler} (h : r.Inv) (len : Nat) : (r.pop len).Inv := by
  have hst := h.stream
  have hav := ByteStream.available_capacity_of_inv hst
  have hst1 := ByteStream.pop_inv len hst
  have hav1 := ByteStream.available_capacity_of_inv hst1
  unfold Reassembler.pop
  unfold ByteStream.pop at hst1 hav1 ⊢
  split_ifs with hl
  · exact ⟨h.stream, h.segs, h.pending, h.synced, h.ahead⟩
  · rw [if_neg hl] at hst1 hav1
    refine ⟨hst1, SegsIn.mono _ h.segs le_rfl ?_, h.pending, h.synced, h.ahead⟩
    dsimp only at hav1 ⊢
    rw [hav1, hav]
    simp only [List.length_drop]
    omega

theorem new_inv (capacity : Nat) : (Reassembler.new (ByteStream.new capacity)).Inv :=
  ⟨by simp [ByteStream.new, ByteStream.Inv, Reassembler.new], trivial, rfl, fun _ => rfl, le_rfl⟩

end Reassembler

/-- Every reachable state satisfies the invariant. -/
theorem Reachable.inv {r : Reassembler} (h : Reachable r) : r.Inv := by
  induction h with
  | init capacity => exact Reassembler.new_inv capacity
  | insert fi data l _ ih => exact (Reassembler.insert_inv ih fi data l).1
  | pop len _ ih => exact Reassembler.inv_pop ih len


/-! ## Discards, in-order inserts and the memory bound -/

theorem sumSizes_le_sub {lo hi : Nat} {m : Segments} (h : SegsIn lo hi m) :
    sumSizes m ≤ hi - lo := by
  rcases Nat.lt_or_ge hi lo with hlt | hge
  · rw [segs_eq_nil_of_le h (le_of_lt hlt)]; simp [sumSizes]
  · have := sumSizes_le _ h hge
    omega

namespace Reassembler

theorem SameData.refl (r : Reassembler) : r.SameData r :=
  ⟨rfl, rfl, rfl, rfl, rfl, rfl, rfl, rfl, fun h => h⟩

theorem SameData.trans {r r1 r2 : Reassembler} (h1 : r.SameData r1) (h2 : r1.SameData r2) :
    r.SameData r2 := by
  obtain ⟨a1, a2, a3, a4, a5, a6, a7, a8, a9⟩ := h1
  obtain ⟨b1, b2, b3, b4, b5, b6, b7, b8, b9⟩ := h2
  exact ⟨b1.trans a1, b2.trans a2, b3.trans a3, b4.trans a4, b5.trans a5, b6.trans a6,
    b7.trans a7, b8.trans a8, fun h => b9 (a9 h)⟩

theorem sameData_markEof (r : Reassembler) (fi : Nat) (data : List Byte) (l : Bool) :
    r.SameData (markEof r fi data l) := by
  unfold markEof; split_ifs
  · exact ⟨rfl, rfl, rfl, rfl, rfl, rfl, rfl, rfl, fun h => h⟩
  · exact SameData.refl r

theorem sameData_close (r : Reassembler) : r.SameData { r with output_ := r.output_.close } :=
  ⟨rfl, rfl, rfl, rfl, rfl, rfl, rfl, rfl, fun _ => rfl⟩

theorem sameData_closeIfEq (r : Reassembler) : r.SameData (closeIfEq r) := by
  rcases closeIfEq_cases r with e | e <;> rw [e]
  · exact SameData.refl r
  · exact sameData_close r

theorem sameData_closeIfGe (r : Reassembler) : r.SameData (closeIfGe r) := by
  rcases closeIfGe_cases r with e | e <;> rw [e]
  · exact SameData.refl r
  · exact sameData_close r

end Reassembler

/-- The memory bound in exact arithmetic.  In every state reachable there the
bytes pending in the Reassembler and the bytes buffered in the stream together
fit the capacity; and after an `insert` no pending segment holds a byte at or
beyond `next_index_ + available_capacity()` as computed when the call started. -/
theorem pending_within_capacity {r : Reassembler} (hr : Reachable r) (first_index : Nat)
    (data : List Byte) (is_last_substring : Bool) :
    r.count_bytes_pending + r.output_.bytes_buffered ≤ r.output_.capacity_ ∧
    ∀ i, r.next_index_ + r.output_.available_capacity ≤ i →
      byteAt (r.insert first_index data is_last_substring).segments_ i = none := by
  have h := hr.inv
  constructor
  · have h1 := sumSizes_le_sub h.segs
    have h2 := ByteStream.available_capacity_of_inv h.stream
    have h3 := h.pending
    have h4 := h.stream.2
    simp only [Reassembler.count_bytes_pending, ByteStream.bytes_buffered]
    omega
  · intro i hi
    exact byteAt_eq_none_of_ge _ (Reassembler.insert_inv h first_index data is_last_substring).2 i hi

/-- C9. An `insert` whose range ends at or before `next_index_`, or starts at or
after `next_index_ + available_capacity()`, leaves the buffer, `bytes_pushed`,
`bytes_popped`, `next_index_`, the pending segments and `count_bytes_pending()`
unchanged (in every state, reachable or not); a closed stream stays closed. -/
theorem out_of_window_discarded (r : Reassembler) (first_index : Nat) (data : List Byte)
    (is_last_substring : Bool)
    (h : first_index + data.length ≤ r.next_index_ ∨
         r.next_index_ + r.output_.available_capacity ≤ first_index) :
    r.SameData (r.insert first_index data is_last_substring) := by
  have hm := Reassembler.sameData_markEof r first_index data is_last_substring
  rw [Reassembler.insert_eq]
  split_ifs with h1 h2 h3
  · exact hm.trans (Reassembler.sameData_closeIfEq _)
  · exact hm.trans (Reassembler.sameData_closeIfEq _)
  · exact hm.trans (Reassembler.sameData_closeIfGe _)
  · exfalso
    have hpos : 0 < (r.trimData first_index data).length := List.length_pos.mpr h3
    unfold Reassembler.trimData at hpos
    simp only [List.length_take, List.length_drop] at hpos
    unfold Reassembler.trimStart at h2 hpos
    omega

/-- C9, at concrete inputs: capacity 2 with "ab" buffered (window `[2, 2)`);
`insert(0, "ab", false)` lies left of the window and `insert(2, "c", true)` at
its right edge. -/
theorem out_of_window_discarded_witness :
    ((Reassembler.new (ByteStream.new 2)).insert 0 ['a', 'b'] false).SameData
      (((Reassembler.new (ByteStream.new 2)).insert 0 ['a', 'b'] false).insert 0 ['a', 'b'] false) ∧
    ((Reassembler.new (ByteStream.new 2)).insert 0 ['a', 'b'] false).SameData
      (((Reassembler.new (ByteStream.new 2)).insert 0 ['a', 'b'] false).insert 2 ['c'] true) :=
  ⟨out_of_window_discarded _ 0 ['a', 'b'] false (Or.inl (by decide)),
   out_of_window_discarded _ 2 ['c'] true (Or.inr (by decide))⟩


/-- In-order inserts in exact arithmetic.  In a state reachable there, with an
open stream and no pending segment, an `insert` that starts at or before
`next_index_` appends to the buffer exactly
the bytes of `data` from offset `next_index_ - first_index` on, cut to
`available_capacity()` bytes; `next_index_` and `bytes_pushed` advance by the
number of bytes appended; nothing is left pending. -/
theorem in_order_insert {r : Reassembler} (hr : Reachable r)
    (hopen : r.output_.is_closed = false) (hnone : r.segments_ = [])
    (first_index : Nat) (data : List Byte) (is_last_substring : Bool)
    (hfi : first_index ≤ r.next_index_) :
    (r.insert first_index data is_last_substring).output_.buffer_ =
      r.output_.buffer_ ++
        (data.drop (r.next_index_ - first_index)).take r.output_.available_capacity ∧
    (r.insert first_index data is_last_substring).next_index_ =
      r.next_index_ +
        ((data.drop (r.next_index_ - first_index)).take r.output_.available_capacity).length ∧
    (r.insert first_index data is_last_substring).output_.bytes_pushed =
      r.output_.bytes_pushed +
        ((data.drop (r.next_index_ - first_index)).take r.output_.available_capacity).length ∧
    (r.insert first_index data is_last_substring).output_.bytes_popped = r.output_.bytes_popped ∧
    r.count_bytes_pending = 0 ∧
    (r.insert first_index data is_last_substring).count_bytes_pending = 0 ∧
    (r.insert first_index data is_last_substring).segments_ = [] := by
  have h := hr.inv
  have hun : r.unassembled_bytes_ = 0 := by rw [h.pending, hnone]; rfl
  have hts : r.trimStart first_index = r.next_index_ := by
    unfold Reassembler.trimStart; omega
  have htd : r.trimData first_index data =
      (data.drop (r.next_index_ - first_index)).take r.output_.available_capacity := by
    unfold Reassembler.trimData
    rw [hts, Nat.add_sub_cancel_left]
  have hm := Reassembler.sameData_markEof r first_index data is_last_substring
  have hkeep : ∀ r1 : Reassembler, r.SameData r1 →
      (data.drop (r.next_index_ - first_index)).take r.output_.available_capacity = [] →
      r1.output_.buffer_ = r.output_.buffer_ ++
        (data.drop (r.next_index_ - first_index)).take r.output_.available_capacity ∧
      r1.next_index_ = r.next_index_ +
        ((data.drop (r.next_index_ - first_index)).take r.output_.available_capacity).length ∧
      r1.output_.bytes_pushed = r.output_.bytes_pushed +
        ((data.drop (r.next_index_ - first_index)).take r.output_.available_capacity).length ∧
      r1.output_.bytes_popped = r.output_.bytes_popped ∧
      r.count_bytes_pending = 0 ∧ r1.count_bytes_pending = 0 ∧ r1.segments_ = [] := by
    intro r1 hs he
    obtain ⟨a1, a2, a3, _, _, a6, a7, a8, _⟩ := hs
    rw [he]
    simp only [List.append_nil, List.length_nil, Nat.add_zero]
    exact ⟨a1, a6, a2, a3, hun, a8.trans hun, a7.trans hnone⟩
  rw [Reassembler.insert_eq]
  split_ifs with h1 h2 h3
  · refine hkeep _ (hm.trans (Reassembler.sameData_closeIfEq _)) ?_
    rw [List.take_eq_nil_iff]; right
    rw [List.drop_eq_nil_iff]; omega
  · refine hkeep _ (hm.trans (Reassembler.sameData_closeIfEq _)) ?_
    rw [hts] at h2
    rw [List.take_eq_nil_iff]; left; omega
  · exact hkeep _ (hm.trans (Reassembler.sameData_closeIfGe _)) (htd ▸ h3)
  · rw [hts, htd] at *
    have hpos : 0 < ((data.drop (r.next_index_ - first_index)).take
        r.output_.available_capacity).length := List.length_pos.mpr h3
    have hfit : ((data.drop (r.next_index_ - first_index)).take
        r.output_.available_capacity).length ≤ r.output_.available_capacity := by
      rw [List.length_take]; omega
    have hmseg : (Reassembler.markEof r first_index data is_last_substring).segments_ = [] := by
      rw [Reassembler.markEof_segments, hnone]
    have hseg0 : SegsIn ((Reassembler.markEof r first_index data is_last_substring).next_index_ + 1)
        (r.next_index_ + r.output_.available_capacity)
        (Reassembler.markEof r first_index data is_last_substring).segments_ := by
      rw [hmseg]; trivial
    have hnear := Reassembler.store_near hseg0 hpos (by rw [Reassembler.markEof_next]; omega)
    rw [Reassembler.markEof_next] at hnear
    rw [hnear]
    obtain ⟨a1, a2, a3, _, _, a6, a7, a8, _⟩ := Reassembler.sameData_closeIfGe
      ((Reassembler.markEof r first_index data is_last_substring).flushed
        ((data.drop (r.next_index_ - first_index)).take r.output_.available_capacity))
    rw [a1, a2, a3, a6, a7, a8]
    have hcl : r.output_.closed_ = false := hopen
    simp only [Reassembler.flushed, Reassembler.markEof_output, Reassembler.markEof_next,
      hmseg, mergeNext, Reassembler.count_bytes_pending, sumSizes]
    rw [ByteStream.push_fits hcl hfit]
    simp [hun, ByteStream.bytes_pushed, ByteStream.bytes_popped]

/-- C10, evaluated on the code.  Capacity 10: after `insert(0, "abc", false)`
the call `insert(0, "ab", true)` is discarded left of the window and returns
with `eof_received_` set, nothing pending and `next_index_ = 3 ≥ eof_index_ = 2`,
yet the stream is open (the test of lines 34 and 48 is `==`); a following
`insert(100, "z", false)`, discarded right of the window, leaves it open too;
a following `insert(3, "", false)`, through the empty-data test with `>=`,
closes it.  On the store-and-flush path the test is `>=`: `insert(3, "de",
false)` then `insert(0, "abc", true)` leaves "abcde" readable and the stream
closed. -/
theorem closure_check_missed_on_discard :
    ((((Reassembler.new (ByteStream.new 10)).insert 0 ['a', 'b', 'c'] false).insert 0 ['a', 'b'] true).eof_received_ = true ∧
     (((Reassembler.new (ByteStream.new 10)).insert 0 ['a', 'b', 'c'] false).insert 0 ['a', 'b'] true).count_bytes_pending = 0 ∧
     (((Reassembler.new (ByteStream.new 10)).insert 0 ['a', 'b', 'c'] false).insert 0 ['a', 'b'] true).eof_index_ ≤
       (((Reassembler.new (ByteStream.new 10)).insert 0 ['a', 'b', 'c'] false).insert 0 ['a', 'b'] true).next_index_ ∧
     (((Reassembler.new (ByteStream.new 10)).insert 0 ['a', 'b', 'c'] false).insert 0 ['a', 'b'] true).output_.is_closed
       = false) ∧
    (((((Reassembler.new (ByteStream.new 10)).insert 0 ['a', 'b', 'c'] false).insert 0 ['a', 'b'] true).insert 100 ['z'] false).eof_received_
       = true ∧
     ((((Reassembler.new (ByteStream.new 10)).insert 0 ['a', 'b', 'c'] false).insert 0 ['a', 'b'] true).insert 100 ['z'] false).count_bytes_pending
       = 0 ∧
     ((((Reassembler.new (ByteStream.new 10)).insert 0 ['a', 'b', 'c'] false).insert 0 ['a', 'b'] true).insert 100 ['z'] false).eof_index_ ≤
       ((((Reassembler.new (ByteStream.new 10)).insert 0 ['a', 'b', 'c'] false).insert 0 ['a', 'b'] true).insert 100 ['z'] false).next_index_ ∧
     ((((Reassembler.new (ByteStream.new 10)).insert 0 ['a', 'b', 'c'] false).insert 0 ['a', 'b'] true).insert 100 ['z'] false).output_.is_closed
       = false) ∧
    (((((Reassembler.new (ByteStream.new 10)).insert 0 ['a', 'b', 'c'] false).insert 0 ['a', 'b'] true).insert 100 ['z'] false).insert 3 [] false).output_.is_closed
       = true ∧
    ((((Reassembler.new (ByteStream.new 10)).insert 3 ['d', 'e'] false).insert 0 ['a', 'b', 'c'] true).output_.peek
       = ['a', 'b', 'c', 'd', 'e'] ∧
     (((Reassembler.new (ByteStream.new 10)).insert 3 ['d', 'e'] false).insert 0 ['a', 'b', 'c'] true).output_.is_closed
       = true) := by
  decide

/-! ## Which bytes win where ranges overlap -/

theorem SegsIn.of_mem {lo hi : Nat} {seg : Nat × List Byte} : ∀ (m : Segments), SegsIn lo hi m →
    seg ∈ m → lo ≤ seg.1 ∧ 0 < seg.2.length ∧ seg.1 + seg.2.length ≤ hi
  | [], _, hm => by simp at hm
  | s :: rest, ⟨h1, h2, h3, h4⟩, hm => by
    rcases List.mem_cons.mp hm with e | e
    · subst e; exact ⟨h1, h2, h3⟩
    · have := SegsIn.of_mem rest h4 e
      omega

theorem byteAt_startingBefore_of_mem {lo hi a i : Nat} {seg : Nat × List Byte} :
    ∀ (m : Segments), SegsIn lo hi m → seg ∈ m → seg.1 ≤ i → i < seg.1 + seg.2.length →
    (seg.1 < a → byteAt (startingBefore a m) i = seg.2[i - seg.1]?) ∧
    (a ≤ seg.1 → byteAt (startingBefore a m) i = none)
  | [], _, hm, _, _ => by simp at hm
  | s :: rest, ⟨h1, h2, h3, h4⟩, hm, hi1, hi2 => by
    by_cases hs : s.1 < a
    · have hsb : startingBefore a (s :: rest) = s :: startingBefore a rest := by
        unfold startingBefore
        rw [List.filter_cons_of_pos (by simpa using hs)]
      rw [hsb]
      simp only [byteAt]
      rcases List.mem_cons.mp hm with e | e
      · subst e
        rw [if_pos ⟨hi1, hi2⟩]
        exact ⟨fun _ => rfl, fun h => by omega⟩
      · have hb := SegsIn.of_mem rest h4 e
        rw [if_neg (by omega)]
        exact byteAt_startingBefore_of_mem rest h4 e hi1 hi2
    · have hsb : startingBefore a (s :: rest) = [] :=
        startingBefore_of_segsIn _ (SegsIn.head_lo ⟨h1, h2, h3, h4⟩) (by omega)
      rw [hsb]
      refine ⟨fun hlt => ?_, fun _ => rfl⟩
      rcases List.mem_cons.mp hm with e | e
      · subst e; omega
      · have hb := SegsIn.of_mem rest h4 e
        omega

theorem byteAt_of_mem {lo hi i : Nat} {seg : Nat × List Byte} :
    ∀ (m : Segments), SegsIn lo hi m → seg ∈ m → seg.1 ≤ i → i < seg.1 + seg.2.length →
    byteAt m i = seg.2[i - seg.1]?
  | [], _, hm, _, _ => by simp at hm
  | s :: rest, ⟨h1, h2, h3, h4⟩, hm, hi1, hi2 => by
    simp only [byteAt]
    rcases List.mem_cons.mp hm with e | e
    · subst e
      rw [if_pos ⟨hi1, hi2⟩]
    · have hb := SegsIn.of_mem rest h4 e
      rw [if_neg (by omega)]
      exact byteAt_of_mem rest h4 e hi1 hi2

theorem not_containedIn_of_mem_after {lo hi a : Nat} {d : List Byte} {seg : Nat × List Byte} :
    ∀ (m : Segments), SegsIn lo hi m → seg ∈ m → a < seg.1 → seg.1 < a + d.length →
    containedIn a d m = false
  | [], _, hm, _, _ => by simp at hm
  | s :: rest, ⟨h1, h2, h3, h4⟩, hm, ha, hb => by
    rw [containedIn_cons]
    rcases List.mem_cons.mp hm with e | e
    · subst e
      rw [containedIn_of_after d rest (SegsIn.mono _ h4 (by omega) le_rfl)]
      simp
      omega
    · have hbnd := SegsIn.of_mem rest h4 e
      rw [not_containedIn_of_mem_after rest h4 e ha hb]
      simp
      omega

namespace Reassembler

theorem trimData_getElem (r : Reassembler) (fi : Nat) (data : List Byte) {i : Nat}
    (h3 : r.trimStart fi ≤ i) (h4 : i < r.trimStart fi + (r.trimData fi data).length) :
    (r.trimData fi data)[i - r.trimStart fi]? = data[i - fi]? := by
  unfold trimData at h4 ⊢
  rw [List.length_take] at h4
  rw [List.getElem?_take_of_lt (by omega), List.getElem?_drop]
  unfold trimStart at h3 h4 ⊢
  congr 1
  omega

theorem heldAt_closeIfGe (r : Reassembler) (i : Nat) : (closeIfGe r).heldAt i = r.heldAt i := by
  rcases closeIfGe_cases r with e | e <;> rw [e]
  rfl

/-- Which bytes a range keeps where it overlaps a pending segment, in exact
arithmetic.  Take a state that satisfies the invariant, an `insert` whose
trimmed range `[a, a + len d)` is non-empty, a pending segment `seg` and an
index `i` that lies both in `seg` and in the trimmed range.  If `seg` starts
before `a` (the previous block), the pending byte at `i` after the call is
still the byte of `seg`.  If `seg` starts after `a` (a following block), the
byte at `i` is the byte of the new `data`: pending after the call when `a` is
beyond `next_index_`, and in the buffer of the stream when `a` is `next_index_`
(the merged segment is flushed in the same call) and the stream is open. -/
theorem overlap_bytes {r : Reassembler} (h : r.Inv) (first_index : Nat)
    (data : List Byte) (is_last_substring : Bool) {seg : Nat × List Byte}
    (hseg : seg ∈ r.segments_) {i : Nat} (h1 : seg.1 ≤ i) (h2 : i < seg.1 + seg.2.length)
    (h3 : r.trimStart first_index ≤ i)
    (h4 : i < r.trimStart first_index + (r.trimData first_index data).length) :
    (seg.1 < r.trimStart first_index →
      byteAt (r.insert first_index data is_last_substring).segments_ i = seg.2[i - seg.1]?) ∧
    (r.trimStart first_index < seg.1 → r.next_index_ < r.trimStart first_index →
      byteAt (r.insert first_index data is_last_substring).segments_ i
        = data[i - first_index]?) ∧
    (r.trimStart first_index < seg.1 → r.trimStart first_index = r.next_index_ →
      r.output_.is_closed = false →
      i < (r.insert first_index data is_last_substring).next_index_ ∧
      (r.insert first_index data is_last_substring).output_.bytes_popped_ ≤ i ∧
      (r.insert first_index data is_last_substring).output_.buffer_[i -
          (r.insert first_index data is_last_substring).output_.bytes_popped_]?
        = data[i - first_index]?) := by
  have hsegb := SegsIn.of_mem _ h.segs hseg
  have hlen : (r.trimData first_index data).length ≤
      r.next_index_ + r.output_.available_capacity - r.trimStart first_index := by
    unfold trimData; rw [List.length_take]; omega
  have hge : r.next_index_ ≤ r.trimStart first_index := by unfold trimStart; omega
  have hpos : 0 < (r.trimData first_index data).length := by omega
  have hhi : r.trimStart first_index + (r.trimData first_index data).length ≤
      r.next_index_ + r.output_.available_capacity := by omega
  have hkey := byteAt_startingBefore_of_mem (a := r.trimStart first_index) _ h.segs hseg h1 h2
  have hold : byteAt r.segments_ i = seg.2[i - seg.1]? := byteAt_of_mem _ h.segs hseg h1 h2
  have hd := trimData_getElem r first_index data h3 h4
  have hne : r.trimData first_index data ≠ [] := List.length_pos.mp hpos
  have hsome : ∃ b, seg.2[i - seg.1]? = some b := by
    cases hx : seg.2[i - seg.1]? with
    | none => rw [List.getElem?_eq_none_iff] at hx; omega
    | some b => exact ⟨b, rfl⟩
  have hp1 : ¬ (first_index < r.next_index_ ∧ first_index + data.length ≤ r.next_index_) := by
    rintro ⟨_, hb⟩
    have : (r.trimData first_index data).length = 0 := by
      unfold trimData
      rw [List.length_take, List.length_drop]
      omega
    omega
  have hsegs1 : SegsIn ((markEof r first_index data is_last_substring).next_index_ + 1)
      (r.next_index_ + r.output_.available_capacity)
      (markEof r first_index data is_last_substring).segments_ := by
    rw [markEof_next, markEof_segments]; exact h.segs
  rw [insert_eq, if_neg hp1, if_neg (by omega), if_neg hne]
  by_cases hc : containedIn (r.trimStart first_index) (r.trimData first_index data)
      r.segments_ = true
  · have hst : store (markEof r first_index data is_last_substring) (r.trimStart first_index)
        (r.trimData first_index data) = closeIfGe (markEof r first_index data is_last_substring) := by
      unfold store; rw [markEof_segments, if_pos hc]
    rw [hst, closeIfGe_segments, markEof_segments, hold]
    refine ⟨fun _ => rfl, fun hlt _ => ?_, fun hlt _ _ => ?_⟩
    · rw [not_containedIn_of_mem_after _ h.segs hseg hlt (by omega)] at hc
      exact absurd hc (by simp)
    · rw [not_containedIn_of_mem_after _ h.segs hseg hlt (by omega)] at hc
      exact absurd hc (by simp)
  · rw [Bool.not_eq_true] at hc
    obtain ⟨_, _, hbytes⟩ := mergeRef_spec hpos hhi _ _
      (SegsIn.mono _ h.segs (Nat.le_succ _) le_rfl) hge hc
    rcases Nat.lt_or_ge r.next_index_ (r.trimStart first_index) with hlt | hge2
    · rw [store_far hsegs1 (by rw [markEof_next]; exact hlt) hpos hhi
        (by rw [markEof_segments]; exact hc), closeIfGe_segments]
      have hsegs : ((markEof r first_index data is_last_substring).merged
          (r.trimStart first_index) (r.trimData first_index data)).segments_ =
          mergeRef (r.trimStart first_index) (r.trimData first_index data) r.segments_ := by
        unfold merged
        simp only [markEof_segments]
      rw [hsegs, hbytes i, if_pos ⟨h3, h4⟩]
      refine ⟨fun hs => ?_, fun hs _ => ?_, fun _ he _ => by omega⟩
      · rw [hkey.1 hs]
        obtain ⟨b, hb⟩ := hsome
        rw [hb]; rfl
      · rw [hkey.2 (le_of_lt hs), Option.none_or, hd]
    · have hea : r.trimStart first_index = r.next_index_ := by omega
      refine ⟨fun hs => by omega, fun _ hs => by omega, fun hs _ hopen => ?_⟩
      have hstore := store_near hsegs1 hpos
        (by rw [markEof_next]; omega : (markEof r first_index data is_last_substring).next_index_ +
          (r.trimData first_index data).length ≤ r.next_index_ + r.output_.available_capacity)
      rw [markEof_next] at hstore
      rw [hea, hstore]
      obtain ⟨_, sle, _⟩ := mergeNext_spec r.next_index_ _ r.segments_
        (r.trimData first_index data) 0 _ h.segs (by omega)
      obtain ⟨⟨t, ht⟩, _⟩ := mergeNext_spec r.next_index_ _ r.segments_
        (r.trimData first_index data) 0 _ h.segs (by omega : r.next_index_ +
          (r.trimData first_index data).length ≤ r.next_index_ + r.output_.available_capacity)
      have hcl : r.output_.closed_ = false := hopen
      have hsync := h.synced hcl
      obtain ⟨i1, i2⟩ := h.stream
      have hlen2 := congrArg List.length ht
      rw [List.length_append] at hlen2
      have hfl : ∀ X : Reassembler, X = (markEof r first_index data is_last_substring).flushed
            (r.trimData first_index data) ∨
          X = { (markEof r first_index data is_last_substring).flushed
                  (r.trimData first_index data) with
                output_ := ((markEof r first_index data is_last_substring).flushed
                  (r.trimData first_index data)).output_.close } →
          i < X.next_index_ ∧ X.output_.bytes_popped_ ≤ i ∧
            X.output_.buffer_[i - X.output_.bytes_popped_]? = data[i - first_index]? := by
        intro X hX
        have hX1 : X.next_index_ = r.next_index_ +
            (mergeNext r.next_index_ (r.trimData first_index data) 0 r.segments_).1.length := by
          rcases hX with e | e <;> rw [e] <;> simp [flushed]
        have hX2 : X.output_.bytes_popped_ = r.output_.bytes_popped_ := by
          rcases hX with e | e <;> rw [e] <;>
            simp [flushed, ByteStream.close, ByteStream.push_fits hcl
              (by omega : (mergeNext r.next_index_ (r.trimData first_index data) 0
                r.segments_).1.length ≤ r.output_.available_capacity)]
        have hX3 : X.output_.buffer_ = r.output_.buffer_ ++
            (mergeNext r.next_index_ (r.trimData first_index data) 0 r.segments_).1 := by
          rcases hX with e | e <;> rw [e] <;>
            simp [flushed, ByteStream.close, ByteStream.push_fits hcl
              (by omega : (mergeNext r.next_index_ (r.trimData first_index data) 0
                r.segments_).1.length ≤ r.output_.available_capacity)]
        rw [hX1, hX2, hX3]
        refine ⟨by omega, by omega, ?_⟩
        rw [List.getElem?_append_right (by omega), ht,
          List.getElem?_append_left (by omega), ← hd, hea]
        congr 1
        omega
      exact hfl _ (closeIfGe_cases _)

end Reassembler

/-- C3 fails as stated.  Capacity 10.  `insert(2, "bc")` leaves 'b' pending at
index 2; `insert(1, "XY")` overlaps that segment from the left, and afterwards
the pending byte at index 2 is the newer 'Y'; `insert(0, "a")` then flushes
"aXYc" to the stream.  Likewise for the same start index: `insert(1, "ab")`
leaves 'a' pending at index 1, and `insert(1, "xyz")` replaces the segment by
"xyz".  The next three lines are the same runs on the 64-bit program.  The
bytes flushed later need not be those of the earlier call even for a previous
block: `insert(3, "cd")`, `insert(4, "YZ")` keeps 'd' pending at index 4, and
`insert(0, "abcXX")` then flushes "abcXXZ", with 'X' at index 4.  And on a
closed stream nothing is flushed: after `insert(0, "", true)` and
`insert(5, "x")`, the call `insert(0, "abcdefg")` absorbs the pending segment
and the stream takes no byte. -/
theorem overlap_newer_bytes_win :
    byteAt ((Reassembler.new (ByteStream.new 10)).insert 2 ['b', 'c'] false).segments_ 2 = some 'b' ∧
    byteAt (((Reassembler.new (ByteStream.new 10)).insert 2 ['b', 'c'] false).insert
      1 ['X', 'Y'] false).segments_ 2 = some 'Y' ∧
    ((((Reassembler.new (ByteStream.new 10)).insert 2 ['b', 'c'] false).insert
      1 ['X', 'Y'] false).insert 0 ['a'] false).output_.peek = ['a', 'X', 'Y', 'c'] ∧
    byteAt ((Reassembler.new (ByteStream.new 10)).insert 1 ['a', 'b'] false).segments_ 1 = some 'a' ∧
    (((Reassembler.new (ByteStream.new 10)).insert 1 ['a', 'b'] false).insert
      1 ['x', 'y', 'z'] false).segments_ = [(1, ['x', 'y', 'z'])] ∧
    ((Reassembler.new (ByteStream.new 10)).run64
        [.insert 2 ['b', 'c'] false, .insert 1 ['X', 'Y'] false]).map
        (fun r => r.segments_) = some [(1, ['X', 'Y', 'c'])] ∧
    ((Reassembler.new (ByteStream.new 10)).run64
        [.insert 2 ['b', 'c'] false, .insert 1 ['X', 'Y'] false, .insert 0 ['a'] false]).map
        (fun r => r.output_.peek) = some ['a', 'X', 'Y', 'c'] ∧
    ((Reassembler.new (ByteStream.new 10)).run64
        [.insert 1 ['a', 'b'] false, .insert 1 ['x', 'y', 'z'] false]).map
        (fun r => r.segments_) = some [(1, ['x', 'y', 'z'])] ∧
    ((Reassembler.new (ByteStream.new 10)).run64
        [.insert 3 ['c', 'd'] false, .insert 4 ['Y', 'Z'] false]).map
        (fun r => r.segments_) = some [(3, ['c', 'd', 'Z'])] ∧
    ((Reassembler.new (ByteStream.new 10)).run64
        [.insert 3 ['c', 'd'] false, .insert 4 ['Y', 'Z'] false,
         .insert 0 ['a', 'b', 'c', 'X', 'X'] false]).map
        (fun r => r.output_.peek) = some ['a', 'b', 'c', 'X', 'X', 'Z'] ∧
    ((Reassembler.new (ByteStream.new 10)).run64
        [.insert 0 [] true, .insert 5 ['x'] false,
         .insert 0 ['a', 'b', 'c', 'd', 'e', 'f', 'g'] false]).map
        (fun r => (r.output_.is_closed, r.output_.peek, r.segments_)) = some (true, [], []) := by
  decide


/-! ## Inserting the same range twice -/

namespace Reassembler

theorem closeIfEq_idem (r : Reassembler) : closeIfEq (closeIfEq r) = closeIfEq r := by
  unfold closeIfEq
  split_ifs <;> rfl

theorem closeIfGe_idem (r : Reassembler) : closeIfGe (closeIfGe r) = closeIfGe r := by
  unfold closeIfGe
  split_ifs <;> rfl

theorem closeIfEq_closeIfGe (r : Reassembler) : closeIfEq (closeIfGe r) = closeIfGe r := by
  unfold closeIfEq closeIfGe
  split_ifs with h1 h2 h2
  · rfl
  · rfl
  · exfalso
    simp only [Bool.and_eq_true, beq_iff_eq, decide_eq_true_eq] at h1 h2
    exact h1 ⟨h2.1, by omega⟩
  · rfl

theorem closeIfEq_eof (r : Reassembler) : (closeIfEq r).eof_received_ = r.eof_received_ ∧
    (closeIfEq r).eof_index_ = r.eof_index_ := by
  rcases closeIfEq_cases r with e | e <;> rw [e] <;> exact ⟨rfl, rfl⟩

theorem closeIfGe_eof (r : Reassembler) : (closeIfGe r).eof_received_ = r.eof_received_ ∧
    (closeIfGe r).eof_index_ = r.eof_index_ := by
  rcases closeIfGe_cases r with e | e <;> rw [e] <;> exact ⟨rfl, rfl⟩

theorem closeIfGe_next (r : Reassembler) : (closeIfGe r).next_index_ = r.next_index_ := by
  rcases closeIfGe_cases r with e | e <;> rw [e]

theorem closeIfEq_next (r : Reassembler) : (closeIfEq r).next_index_ = r.next_index_ := by
  rcases closeIfEq_cases r with e | e <;> rw [e]

theorem closeIfGe_unassembled (r : Reassembler) :
    (closeIfGe r).unassembled_bytes_ = r.unassembled_bytes_ := by
  rcases closeIfGe_cases r with e | e <;> rw [e]

theorem closeIfEq_unassembled (r : Reassembler) :
    (closeIfEq r).unassembled_bytes_ = r.unassembled_bytes_ := by
  rcases closeIfEq_cases r with e | e <;> rw [e]

theorem closeIfGe_available (r : Reassembler) :
    (closeIfGe r).output_.available_capacity = r.output_.available_capacity := by
  rcases closeIfGe_cases r with e | e <;> rw [e]
  rfl

theorem closeIfEq_available (r : Reassembler) :
    (closeIfEq r).output_.available_capacity = r.output_.available_capacity := by
  rcases closeIfEq_cases r with e | e <;> rw [e]
  rfl

/-- A closure test on a closed stream changes nothing in the stream. -/
theorem closeIfGe_output_of_closed {r : Reassembler} (h : r.output_.closed_ = true) :
    (closeIfGe r).output_ = r.output_ := by
  rcases closeIfGe_cases r with e | e <;> rw [e]
  obtain ⟨o, _, _, _, _, _⟩ := r
  obtain ⟨_, _, c, _, _, _⟩ := o
  simp only at h
  subst h
  rfl

theorem closeIfEq_output_of_closed {r : Reassembler} (h : r.output_.closed_ = true) :
    (closeIfEq r).output_ = r.output_ := by
  rcases closeIfEq_cases r with e | e <;> rw [e]
  obtain ⟨o, _, _, _, _, _⟩ := r
  obtain ⟨_, _, c, _, _, _⟩ := o
  simp only at h
  subst h
  rfl

theorem markEof_eof (r r1 : Reassembler) (fi : Nat) (data : List Byte) (l : Bool)
    (h1 : r1.eof_received_ = (markEof r fi data l).eof_received_)
    (h2 : r1.eof_index_ = (markEof r fi data l).eof_index_) : markEof r1 fi data l = r1 := by
  unfold markEof at h1 h2 ⊢
  cases l with
  | false => rfl
  | true =>
    simp only [if_true] at h1 h2 ⊢
    obtain ⟨_, _, _, _, _, _⟩ := r1
    simp only at h1 h2
    subst h1 h2
    rfl

/-- `insert` on a state with the window of `r`, written with the tests of `r`. -/
theorem insert_same_window {r r1 : Reassembler} (fi : Nat) (data : List Byte) (l : Bool)
    (hn : r1.next_index_ = r.next_index_)
    (ha : r1.output_.available_capacity = r.output_.available_capacity)
    (he : markEof r1 fi data l = r1) :
    insert r1 fi data l =
      if fi < r.next_index_ ∧ fi + data.length ≤ r.next_index_ then closeIfEq r1
      else if r.next_index_ + r.output_.available_capacity ≤ r.trimStart fi then closeIfEq r1
      else if r.trimData fi data = [] then closeIfGe r1
      else store r1 (r.trimStart fi) (r.trimData fi data) := by
  have hts : r1.trimStart fi = r.trimStart fi := by unfold trimStart; rw [hn]
  have htd : r1.trimData fi data = r.trimData fi data := by unfold trimData; rw [hn, ha, hts]
  rw [insert_eq, he, hn, ha, hts, htd]

theorem store_eof (r : Reassembler) (a : Nat) (d : List Byte) :
    (store r a d).eof_received_ = r.eof_received_ ∧ (store r a d).eof_index_ = r.eof_index_ := by
  unfold store
  split_ifs
  · exact closeIfGe_eof r
  · exact closeIfGe_eof _

theorem insert_eof (r : Reassembler) (fi : Nat) (data : List Byte) (l : Bool) :
    (insert r fi data l).eof_received_ = (markEof r fi data l).eof_received_ ∧
    (insert r fi data l).eof_index_ = (markEof r fi data l).eof_index_ := by
  rw [insert_eq]
  split_ifs
  · exact closeIfEq_eof _
  · exact closeIfEq_eof _
  · exact closeIfGe_eof _
  · exact store_eof _ _ _

theorem flush_output_of_closed : ∀ (m : Segments) (out : ByteStream) (next un : Nat),
    out.closed_ = true → (flush out next un m).1 = out
  | [], _, _, _, _ => rfl
  | seg :: rest, out, next, un, h => by
    simp only [flush]
    split_ifs
    · rw [ByteStream.push_of_closed h]
      exact flush_output_of_closed rest out _ _ h
    · rfl

/-- On a closed stream `insert` changes nothing in the stream. -/
theorem insert_output_of_closed {r : Reassembler} (h : r.output_.closed_ = true) (fi : Nat)
    (data : List Byte) (l : Bool) : (insert r fi data l).output_ = r.output_ := by
  have hm : (markEof r fi data l).output_.closed_ = true := by rw [markEof_output]; exact h
  rw [insert_eq]
  split_ifs
  · rw [closeIfEq_output_of_closed hm, markEof_output]
  · rw [closeIfEq_output_of_closed hm, markEof_output]
  · rw [closeIfGe_output_of_closed hm, markEof_output]
  · unfold store
    split_ifs
    · rw [closeIfGe_output_of_closed hm, markEof_output]
    · rw [closeIfGe_output_of_closed (by
        simp only [markEof_output]
        rw [flush_output_of_closed _ _ _ _ h]; exact h)]
      simp only [markEof_output]
      exact flush_output_of_closed _ _ _ _ h

/-- With nothing pending, an `insert` that starts at or before `next_index_`
leaves nothing pending. -/
theorem insert_pending_of_empty {r : Reassembler} (hs : r.segments_ = [])
    (hu : r.unassembled_bytes_ = 0) (fi : Nat) (data : List Byte) (l : Bool)
    (hfi : fi ≤ r.next_index_) :
    (insert r fi data l).unassembled_bytes_ = 0 ∧ (insert r fi data l).segments_ = [] := by
  have hts : r.trimStart fi = r.next_index_ := by unfold trimStart; omega
  rw [insert_eq]
  split_ifs with h1 h2 h3
  · rw [closeIfEq_unassembled, closeIfEq_segments, markEof_unassembled, markEof_segments]
    exact ⟨hu, hs⟩
  · rw [closeIfEq_unassembled, closeIfEq_segments, markEof_unassembled, markEof_segments]
    exact ⟨hu, hs⟩
  · rw [closeIfGe_unassembled, closeIfGe_segments, markEof_unassembled, markEof_segments]
    exact ⟨hu, hs⟩
  · have hpos : 0 < (r.trimData fi data).length := List.length_pos.mpr h3
    have hseg0 : SegsIn ((markEof r fi data l).next_index_ + 1)
        ((markEof r fi data l).next_index_ + (r.trimData fi data).length)
        (markEof r fi data l).segments_ := by
      rw [markEof_segments, hs]; trivial
    have hnear := store_near hseg0 hpos le_rfl
    rw [markEof_next] at hnear
    rw [hts, hnear, closeIfGe_unassembled, closeIfGe_segments]
    simp only [flushed, markEof_segments, hs, mergeNext, sumSizes, and_self]

end Reassembler

namespace Reassembler

/-- After one `insert` in a state satisfying the invariant, the same call
again either changes nothing at all, or finds a closed stream with nothing
pending and a range that starts before `next_index_`. -/
theorem insert_twice {r : Reassembler} (h : r.Inv) (fi : Nat) (data : List Byte) (l : Bool) :
    insert (insert r fi data l) fi data l = insert r fi data l ∨
    ((insert r fi data l).output_.closed_ = true ∧ (insert r fi data l).segments_ = [] ∧
      (insert r fi data l).unassembled_bytes_ = 0 ∧ fi ≤ (insert r fi data l).next_index_) := by
  have hfix : ∀ X : Reassembler, X.eof_received_ = (markEof r fi data l).eof_received_ →
      X.eof_index_ = (markEof r fi data l).eof_index_ → markEof X fi data l = X :=
    fun X h1 h2 => markEof_eof r X fi data l h1 h2
  have hsegs1 : SegsIn ((markEof r fi data l).next_index_ + 1)
      (r.next_index_ + r.output_.available_capacity) (markEof r fi data l).segments_ := by
    rw [markEof_next, markEof_segments]; exact h.segs
  by_cases p1 : fi < r.next_index_ ∧ fi + data.length ≤ r.next_index_
  · left
    have e1 : insert r fi data l = closeIfEq (markEof r fi data l) := by
      rw [insert_eq, if_pos p1]
    rw [e1, insert_same_window fi data l ((closeIfEq_next _).trans (markEof_next _ _ _ _))
      ((closeIfEq_available _).trans (by rw [markEof_output]))
      (hfix _ (closeIfEq_eof _).1 (closeIfEq_eof _).2), if_pos p1, closeIfEq_idem]
  by_cases p2 : r.next_index_ + r.output_.available_capacity ≤ r.trimStart fi
  · left
    have e1 : insert r fi data l = closeIfEq (markEof r fi data l) := by
      rw [insert_eq, if_neg p1, if_pos p2]
    rw [e1, insert_same_window fi data l ((closeIfEq_next _).trans (markEof_next _ _ _ _))
      ((closeIfEq_available _).trans (by rw [markEof_output]))
      (hfix _ (closeIfEq_eof _).1 (closeIfEq_eof _).2), if_neg p1, if_pos p2, closeIfEq_idem]
  by_cases p3 : r.trimData fi data = []
  · left
    have e1 : insert r fi data l = closeIfGe (markEof r fi data l) := by
      rw [insert_eq, if_neg p1, if_neg p2, if_pos p3]
    rw [e1, insert_same_window fi data l ((closeIfGe_next _).trans (markEof_next _ _ _ _))
      ((closeIfGe_available _).trans (by rw [markEof_output]))
      (hfix _ (closeIfGe_eof _).1 (closeIfGe_eof _).2), if_neg p1, if_neg p2, if_pos p3,
      closeIfGe_idem]
  have e1 : insert r fi data l =
      store (markEof r fi data l) (r.trimStart fi) (r.trimData fi data) := by
    rw [insert_eq, if_neg p1, if_neg p2, if_neg p3]
  obtain ⟨b1, b2, _, _⟩ := trim_bounds r fi data p2
  have hpos : 0 < (r.trimData fi data).length := List.length_pos.mpr p3
  by_cases hc : containedIn (r.trimStart fi) (r.trimData fi data) r.segments_ = true
  · left
    have e2 : store (markEof r fi data l) (r.trimStart fi) (r.trimData fi data) =
        closeIfGe (markEof r fi data l) := by
      unfold store; rw [markEof_segments, if_pos hc]
    rw [e1, e2, insert_same_window fi data l ((closeIfGe_next _).trans (markEof_next _ _ _ _))
      ((closeIfGe_available _).trans (by rw [markEof_output]))
      (hfix _ (closeIfGe_eof _).1 (closeIfGe_eof _).2), if_neg p1, if_neg p2, if_neg p3]
    unfold store
    rw [closeIfGe_segments, markEof_segments, if_pos hc, closeIfGe_idem]
  rw [Bool.not_eq_true] at hc
  rcases Nat.lt_or_ge r.next_index_ (r.trimStart fi) with hlt | hge
  · left
    have e2 := store_far hsegs1 (by rw [markEof_next]; exact hlt) hpos b2
      (by rw [markEof_segments]; exact hc)
    obtain ⟨_, hcont, _⟩ := mergeRef_spec hpos b2 _ _ h.segs hlt hc
    have hn : (closeIfGe ((markEof r fi data l).merged (r.trimStart fi)
        (r.trimData fi data))).next_index_ = r.next_index_ := by
      rw [closeIfGe_next]; simp [merged]
    have ha : (closeIfGe ((markEof r fi data l).merged (r.trimStart fi)
        (r.trimData fi data))).output_.available_capacity = r.output_.available_capacity := by
      rw [closeIfGe_available]; simp [merged]
    rw [e1, e2, insert_same_window fi data l hn ha
      (hfix _ ((closeIfGe_eof _).1.trans rfl) ((closeIfGe_eof _).2.trans rfl)),
      if_neg p1, if_neg p2, if_neg p3]
    have hcont1 : containedIn (r.trimStart fi) (r.trimData fi data)
        (closeIfGe ((markEof r fi data l).merged (r.trimStart fi)
          (r.trimData fi data))).segments_ = true := by
      rw [closeIfGe_segments]
      simp only [merged, markEof_segments]
      exact hcont
    unfold store
    rw [if_pos hcont1, closeIfGe_idem]
  · have hea : r.trimStart fi = r.next_index_ := by omega
    have hfi : fi ≤ r.next_index_ := by unfold trimStart at hea; omega
    rw [hea] at b2
    have e2 := store_near hsegs1 hpos (by rw [markEof_next]; exact b2)
    rw [markEof_next] at e2
    rw [hea] at e1
    obtain ⟨hfinv, hfsegs⟩ := flushed_inv (h.markEof fi data l) hpos
      (by rw [markEof_next, markEof_output]; exact b2)
    simp only [markEof_next, markEof_output, markEof_segments] at hfsegs
    obtain ⟨⟨t, ht⟩, sle, srest, _⟩ := mergeNext_spec r.next_index_ _ r.segments_
      (r.trimData fi data) 0 _ h.segs b2
    have hL : (r.trimData fi data).length ≤
        (mergeNext r.next_index_ (r.trimData fi data) 0 r.segments_).1.length := by
      rw [ht, List.length_append]; omega
    have hnext : (insert r fi data l).next_index_ =
        r.next_index_ + (mergeNext r.next_index_ (r.trimData fi data) 0 r.segments_).1.length := by
      rw [e1, e2, closeIfGe_next]
      simp only [flushed, markEof_next, markEof_segments]
    have hself : markEof (insert r fi data l) fi data l = insert r fi data l :=
      hfix _ (insert_eof r fi data l).1 (insert_eof r fi data l).2
    by_cases hq : fi + data.length ≤ (insert r fi data l).next_index_
    · left
      have hstep : insert (insert r fi data l) fi data l = closeIfEq (insert r fi data l) := by
        rw [insert_eq, if_pos ⟨by omega, hq⟩, hself]
      rw [hstep, e1, e2, closeIfEq_closeIfGe]
    · have hwe : r.next_index_ + (mergeNext r.next_index_ (r.trimData fi data) 0
          r.segments_).1.length = r.next_index_ + r.output_.available_capacity := by
        have hlen : (r.trimData fi data).length =
            min (r.next_index_ + r.output_.available_capacity - r.trimStart fi)
              (data.length - (r.next_index_ - fi)) := by
          unfold trimData; rw [List.length_take, List.length_drop]
        rw [hea] at hlen
        omega
      cases hcl : r.output_.closed_ with
      | false =>
        left
        have hav : (insert r fi data l).output_.available_capacity = 0 := by
          rw [e1, e2, closeIfGe_available, ByteStream.available_capacity_of_inv hfinv.stream]
          have hsync := h.synced hcl
          have hst := h.stream
          have hav0 := ByteStream.available_capacity_of_inv hst
          simp only [flushed, markEof_next, markEof_segments, markEof_output]
          rw [ByteStream.push_fits hcl (by omega)]
          simp only [List.length_append]
          omega
        have hts : (insert r fi data l).trimStart fi = (insert r fi data l).next_index_ := by
          unfold trimStart; omega
        have hstep : insert (insert r fi data l) fi data l = closeIfEq (insert r fi data l) := by
          rw [insert_eq, if_neg (by omega), if_pos (by rw [hav, hts]; omega), hself]
        rw [hstep, e1, e2, closeIfEq_closeIfGe]
      | true =>
        right
        have hnil : (mergeNext r.next_index_ (r.trimData fi data) 0 r.segments_).2.2 = [] :=
          segs_eq_nil_of_le srest (by omega)
        refine ⟨?_, ?_, ?_, by omega⟩
        · rw [← insert_output_of_closed hcl fi data l] at hcl
          exact hcl
        · rw [e1, e2, closeIfGe_segments]
          simp only [flushed, markEof_segments, markEof_next]
          exact hnil
        · rw [e1, e2, closeIfGe_unassembled]
          simp only [flushed, markEof_segments, markEof_next]
          rw [hnil]; rfl

end Reassembler

/-- C2. In every reachable state, calling `insert` twice in a row with the same
arguments leaves the stream (so `peek()`, `bytes_pushed()`, `bytes_popped()`,
the closed flag and `is_finished()`), `count_bytes_pending()` and the pending
segments exactly as one call leaves them. -/
theorem insert_idempotent {r : Reassembler} (hr : Reachable r) (first_index : Nat)
    (data : List Byte) (is_last_substring : Bool) :
    ((r.insert first_index data is_last_substring).insert first_index data
        is_last_substring).output_.peek =
      (r.insert first_index data is_last_substring).output_.peek ∧
    ((r.insert first_index data is_last_substring).insert first_index data
        is_last_substring).output_.bytes_pushed =
      (r.insert first_index data is_last_substring).output_.bytes_pushed ∧
    ((r.insert first_index data is_last_substring).insert first_index data
        is_last_substring).output_.bytes_popped =
      (r.insert first_index data is_last_substring).output_.bytes_popped ∧
    ((r.insert first_index data is_last_substring).insert first_index data
        is_last_substring).output_.is_closed =
      (r.insert first_index data is_last_substring).output_.is_closed ∧
    ((r.insert first_index data is_last_substring).insert first_index data
        is_last_substring).output_.is_finished =
      (r.insert first_index data is_last_substring).output_.is_finished ∧
    ((r.insert first_index data is_last_substring).insert first_index data
        is_last_substring).count_bytes_pending =
      (r.insert first_index data is_last_substring).count_bytes_pending ∧
    ((r.insert first_index data is_last_substring).insert first_index data
        is_last_substring).output_ =
      (r.insert first_index data is_last_substring).output_ ∧
    ((r.insert first_index data is_last_substring).insert first_index data
        is_last_substring).segments_ =
      (r.insert first_index data is_last_substring).segments_ := by
  have key : ((r.insert first_index data is_last_substring).insert first_index data
        is_last_substring).output_ = (r.insert first_index data is_last_substring).output_ ∧
      ((r.insert first_index data is_last_substring).insert first_index data
        is_last_substring).unassembled_bytes_ =
        (r.insert first_index data is_last_substring).unassembled_bytes_ ∧
      ((r.insert first_index data is_last_substring).insert first_index data
        is_last_substring).segments_ =
        (r.insert first_index data is_last_substring).segments_ := by
    rcases Reassembler.insert_twice hr.inv first_index data is_last_substring with e | ⟨c1, c2, c3, c4⟩
    · rw [e]; exact ⟨rfl, rfl, rfl⟩
    · obtain ⟨u, s⟩ := Reassembler.insert_pending_of_empty c2 c3 first_index data
        is_last_substring c4
      exact ⟨Reassembler.insert_output_of_closed c1 _ _ _, u.trans c3.symm, s.trans c2.symm⟩
  obtain ⟨k1, k2, k3⟩ := key
  simp only [Reassembler.count_bytes_pending]
  rw [k1, k2, k3]
  simp



/-- C2 at a concrete state: capacity 4 with `(2, "cd")` pending;
`insert(0, "abcdef", true)` twice leaves the stream as one call does. -/
theorem insert_idempotent_witness :
    Reachable ((Reassembler.new (ByteStream.new 4)).insert 2 ['c', 'd'] false) ∧
    ((((Reassembler.new (ByteStream.new 4)).insert 2 ['c', 'd'] false).insert
        0 ['a', 'b', 'c', 'd', 'e', 'f'] true).insert 0 ['a', 'b', 'c', 'd', 'e', 'f'] true).output_.peek =
      (((Reassembler.new (ByteStream.new 4)).insert 2 ['c', 'd'] false).insert
        0 ['a', 'b', 'c', 'd', 'e', 'f'] true).output_.peek ∧
    (((Reassembler.new (ByteStream.new 4)).insert 2 ['c', 'd'] false).insert
        0 ['a', 'b', 'c', 'd', 'e', 'f'] true).output_.peek = ['a', 'b', 'c', 'd'] :=
  ⟨Reachable.insert 2 ['c', 'd'] false (Reachable.init 4),
   (insert_idempotent (Reachable.insert 2 ['c', 'd'] false (Reachable.init 4))
      0 ['a', 'b', 'c', 'd', 'e', 'f'] true).1,
   by decide⟩


/-! ## Coverage -/

theorem byteAt_some_mem {i : Nat} {b : Byte} : ∀ (m : Segments), byteAt m i = some b →
    ∃ seg ∈ m, seg.1 ≤ i ∧ i < seg.1 + seg.2.length ∧ seg.2[i - seg.1]? = some b
  | [], h => by simp [byteAt] at h
  | s :: rest, h => by
    simp only [byteAt] at h
    by_cases hin : s.1 ≤ i ∧ i < s.1 + s.2.length
    · rw [if_pos hin] at h
      exact ⟨s, List.mem_cons_self _ _, hin.1, hin.2, h⟩
    · rw [if_neg hin] at h
      obtain ⟨seg, hm, hx⟩ := byteAt_some_mem rest h
      exact ⟨seg, List.mem_cons_of_mem _ hm, hx⟩

theorem byteAt_isSome_of_mem {lo hi i : Nat} {seg : Nat × List Byte} {m : Segments}
    (h : SegsIn lo hi m) (hm : seg ∈ m) (h1 : seg.1 ≤ i) (h2 : i < seg.1 + seg.2.length) :
    (byteAt m i).isSome = true := by
  rw [byteAt_of_mem m h hm h1 h2]
  cases hx : seg.2[i - seg.1]? with
  | none => rw [List.getElem?_eq_none_iff] at hx; omega
  | some b => rfl

theorem byteAt_startingBefore_some {lo hi a i : Nat} {b : Byte} {m : Segments}
    (h : SegsIn lo hi m) (hb : byteAt (startingBefore a m) i = some b) : byteAt m i = some b := by
  obtain ⟨seg, hm, h1, h2, h3⟩ := byteAt_some_mem _ hb
  unfold startingBefore at hm
  rw [byteAt_of_mem m h (List.mem_filter.mp hm).1 h1 h2, h3]

theorem containedIn_mem {a : Nat} {d : List Byte} {m : Segments} (h : containedIn a d m = true) :
    ∃ seg ∈ m, seg.1 ≤ a ∧ a + d.length ≤ seg.1 + seg.2.length := by
  unfold containedIn at h
  rw [List.any_eq_true] at h
  obtain ⟨seg, hm, hx⟩ := h
  simp only [Bool.and_eq_true, decide_eq_true_eq] at hx
  exact ⟨seg, hm, hx.1, hx.2⟩

namespace Reassembler

theorem covered_closeIfGe (r : Reassembler) (i : Nat) : (closeIfGe r).Covered i ↔ r.Covered i := by
  unfold Covered; rw [closeIfGe_next, closeIfGe_segments]

theorem covered_closeIfEq (r : Reassembler) (i : Nat) : (closeIfEq r).Covered i ↔ r.Covered i := by
  unfold Covered; rw [closeIfEq_next, closeIfEq_segments]

theorem covered_markEof (r : Reassembler) (fi : Nat) (data : List Byte) (l : Bool) (i : Nat) :
    (markEof r fi data l).Covered i ↔ r.Covered i := by
  unfold Covered; rw [markEof_next, markEof_segments]

/-- `insert` loses no coverage and adds the trimmed range. -/
theorem covered_insert {r : Reassembler} (h : r.Inv) (fi : Nat) (data : List Byte) (l : Bool)
    {i : Nat}
    (hi : r.Covered i ∨
      (r.trimStart fi ≤ i ∧ i < r.trimStart fi + (r.trimData fi data).length)) :
    (insert r fi data l).Covered i := by
  have hsegs1 : SegsIn ((markEof r fi data l).next_index_ + 1)
      (r.next_index_ + r.output_.available_capacity) (markEof r fi data l).segments_ := by
    rw [markEof_next, markEof_segments]; exact h.segs
  have hlen : (r.trimData fi data).length =
      min (r.next_index_ + r.output_.available_capacity - r.trimStart fi)
        (data.length - (r.next_index_ - fi)) := by
    unfold trimData; rw [List.length_take, List.length_drop]
  have hts : r.trimStart fi = max fi r.next_index_ := rfl
  rw [insert_eq]
  split_ifs with p1 p2 p3
  · rw [covered_closeIfEq, covered_markEof]
    rcases hi with hc | hr
    · exact hc
    · omega
  · rw [covered_closeIfEq, covered_markEof]
    rcases hi with hc | hr
    · exact hc
    · omega
  · rw [covered_closeIfGe, covered_markEof]
    rcases hi with hc | hr
    · exact hc
    · rw [p3] at hr; simp at hr; omega
  · obtain ⟨b1, b2, _, _⟩ := trim_bounds r fi data p2
    have hpos : 0 < (r.trimData fi data).length := List.length_pos.mpr p3
    by_cases hc : containedIn (r.trimStart fi) (r.trimData fi data) r.segments_ = true
    · have e2 : store (markEof r fi data l) (r.trimStart fi) (r.trimData fi data) =
          closeIfGe (markEof r fi data l) := by
        unfold store; rw [markEof_segments, if_pos hc]
      rw [e2, covered_closeIfGe, covered_markEof]
      rcases hi with hc0 | hr
      · exact hc0
      · obtain ⟨seg, hm, s1, s2⟩ := containedIn_mem hc
        exact Or.inr (byteAt_isSome_of_mem h.segs hm (by omega) (by omega))
    · rw [Bool.not_eq_true] at hc
      rcases Nat.lt_or_ge r.next_index_ (r.trimStart fi) with hlt | hge
      · rw [store_far hsegs1 (by rw [markEof_next]; exact hlt) hpos b2
          (by rw [markEof_segments]; exact hc), covered_closeIfGe]
        obtain ⟨_, _, hbytes⟩ := mergeRef_spec hpos b2 _ _ h.segs hlt hc
        unfold Covered
        simp only [merged, markEof_next, markEof_segments]
        rw [hbytes i]
        by_cases hin : r.trimStart fi ≤ i ∧ i < r.trimStart fi + (r.trimData fi data).length
        · right
          rw [if_pos hin]
          cases hx : (r.trimData fi data)[i - r.trimStart fi]? with
          | none => rw [List.getElem?_eq_none_iff] at hx; omega
          | some b => cases byteAt (startingBefore (r.trimStart fi) r.segments_) i <;> rfl
        · rw [if_neg hin]
          rcases hi with hc0 | hr
          · exact hc0
          · exact absurd hr hin
      · have hea : r.trimStart fi = r.next_index_ := by omega
        rw [hea] at b2 hi
        have e2 := store_near hsegs1 hpos (by rw [markEof_next]; exact b2)
        rw [markEof_next] at e2
        rw [hea, e2, covered_closeIfGe]
        obtain ⟨⟨t, ht⟩, _, _, _, s5⟩ := mergeNext_spec r.next_index_ _ r.segments_
          (r.trimData fi data) 0 _ h.segs b2
        have hL := congrArg List.length ht
        rw [List.length_append] at hL
        unfold Covered
        simp only [flushed, markEof_next, markEof_segments]
        by_cases hlt2 : i < r.next_index_ + (mergeNext r.next_index_ (r.trimData fi data) 0
            r.segments_).1.length
        · exact Or.inl hlt2
        · right
          rw [s5 i (by omega)]
          rcases hi with hc0 | hr
          · rcases hc0 with hc1 | hc1
            · omega
            · exact hc1
          · omega

end Reassembler

/-! ## Following a byte string -/

theorem getElem?_of_eq_take_drop {s data : List Byte} {fi : Nat}
    (hdata : data = (s.drop fi).take data.length) {j : Nat} {b : Byte}
    (hj : data[j]? = some b) : s[fi + j]? = some b := by
  have hlt : j < data.length := by
    by_contra hge
    rw [List.getElem?_eq_none (by omega)] at hj
    exact absurd hj (by simp)
  have h1 : data[j]? = ((s.drop fi).take data.length)[j]? := congrArg (fun x => x[j]?) hdata
  rw [List.getElem?_take, if_pos hlt, List.getElem?_drop] at h1
  rw [← h1, hj]

theorem take_append_of_agree {s d : List Byte} {k : Nat} (hk : k ≤ s.length)
    (h : ∀ j b, d[j]? = some b → s[k + j]? = some b) :
    s.take k ++ d = s.take (k + d.length) ∧ k + d.length ≤ s.length := by
  have hle : k + d.length ≤ s.length := by
    rcases Nat.eq_zero_or_pos d.length with h0 | hpos
    · omega
    · cases hx : d[d.length - 1]? with
      | none => rw [List.getElem?_eq_none_iff] at hx; omega
      | some b =>
        have := h _ _ hx
        have hlt : k + (d.length - 1) < s.length := by
          by_contra hge
          rw [List.getElem?_eq_none (by omega)] at this
          exact absurd this (by simp)
        omega
  refine ⟨List.ext_getElem? fun n => ?_, hle⟩
  have hlk : (s.take k).length = k := by rw [List.length_take]; omega
  by_cases h1 : n < k
  · rw [List.getElem?_append_left (by omega), List.getElem?_take, if_pos h1, List.getElem?_take,
      if_pos (by omega)]
  · rw [List.getElem?_append_right (by omega), hlk]
    by_cases h2 : n < k + d.length
    · rw [List.getElem?_take, if_pos h2]
      cases hx : d[n - k]? with
      | none => rw [List.getElem?_eq_none_iff] at hx; omega
      | some b =>
        have := h _ _ hx
        rw [← this]; congr 1; omega
    · rw [List.getElem?_take, if_neg h2, List.getElem?_eq_none (by omega)]

namespace Reassembler

theorem tracks_new (s : List Byte) (capacity : Nat) (h : s.length ≤ capacity) :
    Tracks s (Reassembler.new (ByteStream.new capacity)) :=
  ⟨new_inv capacity, h, rfl, by simp [Reassembler.new, ByteStream.new], rfl, Nat.zero_le _,
    fun i b hb => by simp [Reassembler.new, byteAt] at hb,
    fun he => by simp [Reassembler.new] at he,
    fun hc => by simp [Reassembler.new, ByteStream.new] at hc⟩

theorem tracks_markEof {s : List Byte} {r : Reassembler} (h : Tracks s r) (fi : Nat)
    (data : List Byte) (l : Bool) (hl : l = true → fi + data.length = s.length) :
    Tracks s (markEof r fi data l) := by
  unfold Reassembler.markEof
  cases l with
  | false => exact h
  | true =>
    exact ⟨h.inv.markEof fi data true, h.fits, h.popped, h.buffer, h.pushed, h.within, h.agree,
      fun _ => hl rfl, h.early⟩

theorem tracks_close {s : List Byte} {r : Reassembler} (h : Tracks s r)
    (h1 : r.eof_received_ = true) (h2 : r.unassembled_bytes_ = 0)
    (h3 : r.eof_index_ ≤ r.next_index_) :
    Tracks s { r with output_ := r.output_.close } := by
  have hn : r.next_index_ = s.length := by
    have := h.eof h1; have := h.within; omega
  have hs : r.segments_ = [] :=
    segs_eq_nil_of_sumSizes h.inv.segs (by rw [← h.inv.pending]; exact h2)
  exact ⟨h.inv.close, h.fits, h.popped, h.buffer, h.pushed, h.within, h.agree, h.eof,
    fun _ => ⟨hn, hs⟩⟩

theorem tracks_closeIfGe {s : List Byte} {r : Reassembler} (h : Tracks s r) :
    Tracks s (closeIfGe r) ∧ Settled s (closeIfGe r) := by
  unfold Reassembler.closeIfGe
  split_ifs with hc
  · simp only [Bool.and_eq_true, beq_iff_eq, decide_eq_true_eq] at hc
    exact ⟨tracks_close h hc.1.1 hc.1.2 hc.2, fun _ _ _ => rfl⟩
  · refine ⟨h, fun e1 e2 e3 => ?_⟩
    exfalso
    apply hc
    simp only [Bool.and_eq_true, beq_iff_eq, decide_eq_true_eq]
    exact ⟨⟨e1, e2⟩, by rw [h.eof e1, e3]⟩

theorem tracks_closeIfEq {s : List Byte} {r : Reassembler} (h : Tracks s r) :
    Tracks s (closeIfEq r) ∧ Settled s (closeIfEq r) := by
  unfold Reassembler.closeIfEq
  split_ifs with hc
  · simp only [Bool.and_eq_true, beq_iff_eq] at hc
    exact ⟨tracks_close h hc.1.1 hc.1.2 (by omega), fun _ _ _ => rfl⟩
  · refine ⟨h, fun e1 e2 e3 => ?_⟩
    exfalso
    apply hc
    simp only [Bool.and_eq_true, beq_iff_eq]
    exact ⟨⟨e1, e2⟩, by rw [h.eof e1, e3]⟩

end Reassembler

namespace Reassembler

theorem tracks_store {s : List Byte} {r : Reassembler} (h : Tracks s r) {a : Nat} {d : List Byte}
    (ha : r.next_index_ ≤ a) (hpos : 0 < d.length)
    (hhi : a + d.length ≤ r.next_index_ + r.output_.available_capacity)
    (hd : ∀ j b, d[j]? = some b → s[a + j]? = some b) :
    Tracks s (store r a d) ∧ Settled s (store r a d) := by
  have hend : a + d.length ≤ s.length := by
    cases hx : d[d.length - 1]? with
    | none => rw [List.getElem?_eq_none_iff] at hx; omega
    | some b =>
      have := hd _ _ hx
      have hlt : a + (d.length - 1) < s.length := by
        by_contra hge
        rw [List.getElem?_eq_none (by omega)] at this
        exact absurd this (by simp)
      omega
  have hopen : r.output_.closed_ = false := by
    cases hc : r.output_.closed_ with
    | false => rfl
    | true => have := (h.early hc).1; omega
  by_cases hc : containedIn a d r.segments_ = true
  · have e : Reassembler.store r a d = Reassembler.closeIfGe r := by
      unfold Reassembler.store; rw [if_pos hc]
    rw [e]
    exact tracks_closeIfGe h
  · rw [Bool.not_eq_true] at hc
    rcases Nat.lt_or_ge r.next_index_ a with hlt | hge
    · rw [store_far h.inv.segs hlt hpos hhi hc]
      obtain ⟨_, _, hbytes⟩ := mergeRef_spec hpos hhi _ _ h.inv.segs hlt hc
      have hX : Tracks s (r.merged a d) := by
        refine ⟨merged_inv h.inv hlt hpos hhi hc, h.fits, h.popped, h.buffer, h.pushed, h.within,
          ?_, h.eof, fun hcl => ?_⟩
        · intro i b hb
          simp only [merged] at hb
          rw [hbytes i] at hb
          by_cases hin : a ≤ i ∧ i < a + d.length
          · rw [if_pos hin] at hb
            cases hsb : byteAt (startingBefore a r.segments_) i with
            | some b0 =>
              rw [hsb] at hb
              have hb0 : b0 = b := by simpa [Option.or] using hb
              subst hb0
              exact h.agree i b0 (byteAt_startingBefore_some h.inv.segs hsb)
            | none =>
              rw [hsb, Option.none_or] at hb
              have := hd _ _ hb
              rw [← this]; congr 1; omega
          · rw [if_neg hin] at hb
            exact h.agree i b hb
        · have hcl0 : r.output_.closed_ = true := hcl
          rw [hopen] at hcl0
          exact absurd hcl0 (by simp)
      exact tracks_closeIfGe hX
    · have hea : a = r.next_index_ := by omega
      subst hea
      rw [store_near h.inv.segs hpos hhi]
      obtain ⟨hfinv, _⟩ := flushed_inv h.inv hpos hhi
      obtain ⟨_, srest, _, _, s5⟩ := mergeNext_cons_spec r.next_index_ d h.inv.segs
        (Nat.le_succ _) hhi hpos
      obtain ⟨_, sle, _, _, s6⟩ := mergeNext_spec r.next_index_ _ r.segments_ d 0 _ h.inv.segs hhi
      have hagree : ∀ j b, (mergeNext r.next_index_ d 0 r.segments_).1[j]? = some b →
          s[r.next_index_ + j]? = some b := by
        intro j b hb
        have hjlt : j < (mergeNext r.next_index_ d 0 r.segments_).1.length := by
          by_contra hge2
          rw [List.getElem?_eq_none (by omega)] at hb
          exact absurd hb (by simp)
        have hs5 := s5 (r.next_index_ + j)
        simp only [byteAt] at hs5
        rw [if_pos ⟨by omega, by omega⟩, Nat.add_sub_cancel_left, hb] at hs5
        by_cases hjd : j < d.length
        · rw [if_pos ⟨by omega, by omega⟩] at hs5
          exact hd j b hs5.symm
        · rw [if_neg (by omega)] at hs5
          exact h.agree _ b hs5.symm
      obtain ⟨hbuf, hwithin⟩ := take_append_of_agree h.within hagree
      have hX : Tracks s (r.flushed d) := by
        have hfits : (mergeNext r.next_index_ d 0 r.segments_).1.length ≤
            r.output_.available_capacity := by omega
        refine ⟨hfinv, ?_, ?_, ?_, ?_, hwithin, ?_, h.eof, ?_⟩
        · simp only [flushed]; rw [ByteStream.push_fits hopen hfits]; exact h.fits
        · simp only [flushed]; rw [ByteStream.push_fits hopen hfits]; exact h.popped
        · simp only [flushed]; rw [ByteStream.push_fits hopen hfits]
          simp only []
          rw [h.buffer]; exact hbuf
        · simp only [flushed]; rw [ByteStream.push_fits hopen hfits]
          simp only []
          rw [h.pushed]
        · intro i b hb
          simp only [flushed] at hb
          by_cases hlt2 : i < r.next_index_ + (mergeNext r.next_index_ d 0 r.segments_).1.length
          · rw [byteAt_eq_none_of_lt _ srest i (by omega)] at hb
            exact absurd hb (by simp)
          · rw [s6 i (by omega)] at hb
            exact h.agree i b hb
        · intro hcl
          simp only [flushed] at hcl
          rw [ByteStream.push_fits hopen hfits] at hcl
          simp only [] at hcl
          rw [hopen] at hcl
          exact absurd hcl (by simp)
      exact tracks_closeIfGe hX

/-- One `insert` of bytes of `s` at their index keeps following `s`, and leaves
the closure test applied. -/
theorem tracks_insert {s : List Byte} {r : Reassembler} (h : Tracks s r) (fi : Nat)
    (data : List Byte) (l : Bool) (hdata : data = (s.drop fi).take data.length)
    (hl : l = true → fi + data.length = s.length) :
    Tracks s (insert r fi data l) ∧ Settled s (insert r fi data l) := by
  have hm := tracks_markEof h fi data l hl
  rw [insert_eq]
  split_ifs with p1 p2 p3
  · exact tracks_closeIfEq hm
  · exact tracks_closeIfEq hm
  · exact tracks_closeIfGe hm
  · obtain ⟨b1, b2, _, _⟩ := trim_bounds r fi data p2
    have hpos : 0 < (r.trimData fi data).length := List.length_pos.mpr p3
    refine tracks_store hm (by rw [markEof_next]; exact b1) hpos
      (by rw [markEof_next, markEof_output]; exact b2) ?_
    intro j b hb
    have hjlt : j < (r.trimData fi data).length := by
      by_contra hge
      rw [List.getElem?_eq_none (by omega)] at hb
      exact absurd hb (by simp)
    have hg := trimData_getElem r fi data (i := r.trimStart fi + j) (by omega) (by omega)
    rw [Nat.add_sub_cancel_left, hb] at hg
    have := getElem?_of_eq_take_drop hdata hg.symm
    rw [← this]
    congr 1
    have : fi ≤ r.trimStart fi := by unfold trimStart; omega
    omega

end Reassembler

namespace Reassembler

theorem insertAll_cons (r : Reassembler) (c : Call) (cs : List Call) :
    r.insertAll (c :: cs) = (r.insert c.first_index c.data c.is_last_substring).insertAll cs := rfl

theorem markEof_eof_received (r : Reassembler) (fi : Nat) (data : List Byte) (l : Bool) :
    (markEof r fi data l).eof_received_ = (l || r.eof_received_) := by
  unfold markEof
  cases l <;> simp

theorem tracks_insertAll {s : List Byte} : ∀ (calls : List Call) (r : Reassembler),
    Tracks s r → Settled s r →
    (∀ c ∈ calls, c.data = (s.drop c.first_index).take c.data.length) →
    (∀ c ∈ calls, c.is_last_substring = true → c.first_index + c.data.length = s.length) →
    Tracks s (r.insertAll calls) ∧ Settled s (r.insertAll calls)
  | [], _, h, hs, _, _ => ⟨h, hs⟩
  | c :: cs, r, h, _, hd, hl => by
    rw [insertAll_cons]
    obtain ⟨t1, t2⟩ := tracks_insert h c.first_index c.data c.is_last_substring
      (hd c (List.mem_cons_self _ _)) (hl c (List.mem_cons_self _ _))
    exact tracks_insertAll cs _ t1 t2 (fun x hx => hd x (List.mem_cons_of_mem _ hx))
      (fun x hx => hl x (List.mem_cons_of_mem _ hx))

theorem eof_insertAll : ∀ (calls : List Call) (r : Reassembler),
    (r.eof_received_ = true ∨ ∃ c ∈ calls, c.is_last_substring = true) →
    (r.insertAll calls).eof_received_ = true
  | [], r, h => by
    rcases h with h | ⟨c, hc, _⟩
    · exact h
    · simp at hc
  | c :: cs, r, h => by
    rw [insertAll_cons]
    apply eof_insertAll cs
    rcases h with h | ⟨x, hx, hlast⟩
    · left
      rw [(insert_eof r _ _ _).1, markEof_eof_received, h, Bool.or_true]
    · rcases List.mem_cons.mp hx with e | e
      · left
        subst e
        rw [(insert_eof r _ _ _).1, markEof_eof_received, hlast, Bool.true_or]
      · exact Or.inr ⟨x, e, hlast⟩

theorem covered_insertAll {s : List Byte} : ∀ (calls : List Call) (r : Reassembler),
    Tracks s r →
    (∀ c ∈ calls, c.data = (s.drop c.first_index).take c.data.length) →
    (∀ c ∈ calls, c.is_last_substring = true → c.first_index + c.data.length = s.length) →
    ∀ i, i < s.length →
      (r.Covered i ∨ ∃ c ∈ calls, c.first_index ≤ i ∧ i < c.first_index + c.data.length) →
      (r.insertAll calls).Covered i
  | [], r, _, _, _, i, _, hc => by
    rcases hc with h | ⟨c, hc, _⟩
    · exact h
    · simp at hc
  | c :: cs, r, h, hd, hl, i, hi, hc => by
    rw [insertAll_cons]
    obtain ⟨t1, _⟩ := tracks_insert h c.first_index c.data c.is_last_substring
      (hd c (List.mem_cons_self _ _)) (hl c (List.mem_cons_self _ _))
    apply covered_insertAll cs _ t1 (fun x hx => hd x (List.mem_cons_of_mem _ hx))
      (fun x hx => hl x (List.mem_cons_of_mem _ hx)) i hi
    have hstep : ∀ hyp : r.Covered i ∨ (r.trimStart c.first_index ≤ i ∧
        i < r.trimStart c.first_index + (r.trimData c.first_index c.data).length),
        (r.insert c.first_index c.data c.is_last_substring).Covered i :=
      fun hyp => covered_insert h.inv c.first_index c.data c.is_last_substring hyp
    rcases hc with hcov | ⟨x, hx, hx1, hx2⟩
    · exact Or.inl (hstep (Or.inl hcov))
    · rcases List.mem_cons.mp hx with e | e
      · subst e
        left
        apply hstep
        by_cases hlt : i < r.next_index_
        · exact Or.inl (Or.inl hlt)
        · right
          have hav := ByteStream.available_capacity_of_inv h.inv.stream
          have hbl : r.output_.buffer_.length = r.next_index_ := by
            rw [h.buffer, List.length_take]; have := h.within; omega
          have hfits := h.fits
          have hlen : (r.trimData x.first_index x.data).length =
              min (r.next_index_ + r.output_.available_capacity - r.trimStart x.first_index)
                (x.data.length - (r.next_index_ - x.first_index)) := by
            unfold trimData; rw [List.length_take, List.length_drop]
          have hts : r.trimStart x.first_index = max x.first_index r.next_index_ := rfl
          have hsf := h.inv.stream.2
          omega
      · exact Or.inr ⟨x, e, hx1, hx2⟩

end Reassembler

/-- C1.  Let `s` be a byte string, the Reassembler fresh on a stream of
capacity at least `len s`, and `calls` any finite sequence of `insert` calls,
applied in the order given with no pop in between, such that the data of each
call is `s[first_index, first_index + len data)`, the ranges of the calls cover
`[0, len s)`, exactly one call has `is_last_substring` set, and a call that has
it set ends at `len s`.  After all calls `peek()` is `s`, `bytes_pushed()` is
`len s`, nothing is pending, and after `pop(len s)` the stream is finished. -/
theorem eventual_consistency (s : List Byte) (capacity : Nat) (calls : List Call)
    (hcap : s.length ≤ capacity)
    (hdata : ∀ c ∈ calls, c.data = (s.drop c.first_index).take c.data.length)
    (hcover : ∀ i, i < s.length →
      ∃ c ∈ calls, c.first_index ≤ i ∧ i < c.first_index + c.data.length)
    (hone : (calls.filter fun c => c.is_last_substring).length = 1)
    (hend : ∀ c ∈ calls, c.is_last_substring = true → c.first_index + c.data.length = s.length) :
    ((Reassembler.new (ByteStream.new capacity)).insertAll calls).output_.peek = s ∧
    ((Reassembler.new (ByteStream.new capacity)).insertAll calls).output_.bytes_pushed = s.length ∧
    ((Reassembler.new (ByteStream.new capacity)).insertAll calls).count_bytes_pending = 0 ∧
    (((Reassembler.new (ByteStream.new capacity)).insertAll calls).pop s.length).output_.is_finished
      = true ∧
    ((Reassembler.new (ByteStream.new capacity)).insertAll calls).output_.is_closed = true := by
  have h0 := Reassembler.tracks_new s capacity hcap
  have hs0 : Reassembler.Settled s (Reassembler.new (ByteStream.new capacity)) :=
    fun he => by simp [Reassembler.new] at he
  obtain ⟨ht, hset⟩ := Reassembler.tracks_insertAll calls _ h0 hs0 hdata hend
  have hlastc : ∃ c ∈ calls, c.is_last_substring = true := by
    cases hf : calls.filter fun c => c.is_last_substring with
    | nil => rw [hf] at hone; simp at hone
    | cons c cs =>
      have hm : c ∈ calls.filter fun c => c.is_last_substring := by rw [hf]; exact List.mem_cons_self _ _
      rw [List.mem_filter] at hm
      exact ⟨c, hm.1, hm.2⟩
  have heof := Reassembler.eof_insertAll calls (Reassembler.new (ByteStream.new capacity))
    (Or.inr hlastc)
  have hcov := Reassembler.covered_insertAll calls _ h0 hdata hend
  generalize (Reassembler.new (ByteStream.new capacity)).insertAll calls = r at ht hset heof hcov
  have hn : r.next_index_ = s.length := by
    by_contra hne
    have hlt : r.next_index_ < s.length := by have := ht.within; omega
    rcases hcov _ hlt (Or.inr (hcover _ hlt)) with hc | hc
    · omega
    · rw [byteAt_eq_none_of_lt _ ht.inv.segs _ (Nat.lt_succ_self _)] at hc
      simp at hc
  have hsegs : r.segments_ = [] := by
    cases hsg : r.segments_ with
    | nil => rfl
    | cons seg rest =>
      exfalso
      have hin := ht.inv.segs
      rw [hsg] at hin
      obtain ⟨h1, h2, _, _⟩ := hin
      cases hx : seg.2[0]? with
      | none => rw [List.getElem?_eq_none_iff] at hx; omega
      | some b =>
        have hb : byteAt r.segments_ seg.1 = some b := by
          rw [hsg]; simp only [byteAt]
          rw [if_pos ⟨le_rfl, by omega⟩, Nat.sub_self, hx]
        have := ht.agree _ _ hb
        have hlt : seg.1 < s.length := by
          by_contra hge
          rw [List.getElem?_eq_none (by omega)] at this
          exact absurd this (by simp)
        omega
  have hun : r.unassembled_bytes_ = 0 := by rw [ht.inv.pending, hsegs]; rfl
  have hcl : r.output_.closed_ = true := hset heof hun hn
  have hbuf : r.output_.buffer_ = s := by
    rw [ht.buffer, hn, List.take_length]
  refine ⟨?_, ?_, hun, ?_, hcl⟩
  · unfold ByteStream.peek ByteStream.bytes_buffered
    rw [hbuf, List.take_length]
    cases s <;> simp
  · unfold ByteStream.bytes_pushed; rw [ht.pushed, hn]
  · unfold Reassembler.pop ByteStream.pop ByteStream.is_finished
    rw [hbuf, if_neg (by omega)]
    simp [hcl]

/-- C1 at a concrete input: `s = "abcde"`, capacity 5, the final segment
`insert(3, "de", true)` first and then the overlapping `insert(0, "abcd", false)`. -/
theorem eventual_consistency_witness :
    ((Reassembler.new (ByteStream.new 5)).insertAll
      [⟨3, ['d', 'e'], true⟩, ⟨0, ['a', 'b', 'c', 'd'], false⟩]).output_.peek
        = ['a', 'b', 'c', 'd', 'e'] ∧
    (((Reassembler.new (ByteStream.new 5)).insertAll
      [⟨3, ['d', 'e'], true⟩, ⟨0, ['a', 'b', 'c', 'd'], false⟩]).pop 5).output_.is_finished = true :=
  ⟨(eventual_consistency ['a', 'b', 'c', 'd', 'e'] 5
      [⟨3, ['d', 'e'], true⟩, ⟨0, ['a', 'b', 'c', 'd'], false⟩]
      (by decide) (by decide) (by decide) (by decide) (by decide)).1,
   (eventual_consistency ['a', 'b', 'c', 'd', 'e'] 5
      [⟨3, ['d', 'e'], true⟩, ⟨0, ['a', 'b', 'c', 'd'], false⟩]
      (by decide) (by decide) (by decide) (by decide) (by decide)).2.2.2.1⟩

/-! ## Closing the stream -/

namespace Reassembler

theorem flush_closed : ∀ (m : Segments) (out : ByteStream) (next un : Nat),
    (flush out next un m).1.closed_ = out.closed_
  | [], _, _, _ => rfl
  | seg :: rest, out, next, un => by
    simp only [flush]
    split_ifs
    · rw [flush_closed rest]
      cases hc : out.closed_ with
      | true => rw [ByteStream.push_of_closed hc]; exact hc
      | false => rw [ByteStream.push_of_open hc]; exact hc
    · rfl

/-- Every path of `insert` ends in one closure test, applied to a state whose
stream is closed exactly if it was closed before the call. -/
theorem insert_closure_form (r : Reassembler) (fi : Nat) (data : List Byte) (l : Bool) :
    ∃ X : Reassembler, (insert r fi data l = closeIfEq X ∨ insert r fi data l = closeIfGe X) ∧
      X.output_.closed_ = r.output_.closed_ := by
  rw [insert_eq]
  split_ifs
  · exact ⟨_, Or.inl rfl, by rw [markEof_output]⟩
  · exact ⟨_, Or.inl rfl, by rw [markEof_output]⟩
  · exact ⟨_, Or.inr rfl, by rw [markEof_output]⟩
  · unfold store
    split_ifs
    · exact ⟨_, Or.inr rfl, by rw [markEof_output]⟩
    · exact ⟨_, Or.inr rfl, by simp only [markEof_output]; exact flush_closed _ _ _ _⟩

theorem closeIfGe_newly_closed {r : Reassembler} (h0 : r.output_.closed_ = false)
    (h1 : (closeIfGe r).output_.closed_ = true) :
    (closeIfGe r).eof_received_ = true ∧ (closeIfGe r).unassembled_bytes_ = 0 ∧
    (closeIfGe r).eof_index_ ≤ (closeIfGe r).next_index_ := by
  unfold closeIfGe at h1 ⊢
  split_ifs at h1 ⊢ with hc
  · simp only [Bool.and_eq_true, beq_iff_eq, decide_eq_true_eq] at hc
    exact ⟨hc.1.1, hc.1.2, hc.2⟩
  · rw [h0] at h1; exact absurd h1 (by simp)

theorem closeIfEq_newly_closed {r : Reassembler} (h0 : r.output_.closed_ = false)
    (h1 : (closeIfEq r).output_.closed_ = true) :
    (closeIfEq r).eof_received_ = true ∧ (closeIfEq r).unassembled_bytes_ = 0 ∧
    (closeIfEq r).eof_index_ ≤ (closeIfEq r).next_index_ := by
  unfold closeIfEq at h1 ⊢
  split_ifs at h1 ⊢ with hc
  · simp only [Bool.and_eq_true, beq_iff_eq] at hc
    exact ⟨hc.1.1, hc.1.2, by dsimp only; omega⟩
  · rw [h0] at h1; exact absurd h1 (by simp)

theorem insertAll_open_of_no_last : ∀ (calls : List Call) (r : Reassembler),
    r.eof_received_ = false → r.output_.closed_ = false →
    (∀ c ∈ calls, c.is_last_substring = false) →
    (r.insertAll calls).eof_received_ = false ∧ (r.insertAll calls).output_.closed_ = false
  | [], _, h1, h2, _ => ⟨h1, h2⟩
  | c :: cs, r, h1, h2, hl => by
    rw [insertAll_cons]
    have hc := hl c (List.mem_cons_self _ _)
    have he : (r.insert c.first_index c.data c.is_last_substring).eof_received_ = false := by
      rw [(insert_eof r _ _ _).1, markEof_eof_received, hc, h1]; rfl
    have ho : (r.insert c.first_index c.data c.is_last_substring).output_.closed_ = false := by
      cases hx : (r.insert c.first_index c.data c.is_last_substring).output_.closed_ with
      | false => rfl
      | true =>
        exfalso
        obtain ⟨X, hform, hX⟩ := insert_closure_form r c.first_index c.data c.is_last_substring
        rw [h2] at hX
        rcases hform with e | e
        · rw [e] at hx he
          rw [(closeIfEq_newly_closed hX hx).1] at he
          exact absurd he (by simp)
        · rw [e] at hx he
          rw [(closeIfGe_newly_closed hX hx).1] at he
          exact absurd he (by simp)
    exact insertAll_open_of_no_last cs _ he ho (fun x hx => hl x (List.mem_cons_of_mem _ hx))

end Reassembler

/-- C11.  In every state with `count_bytes_pending() = 0` (whatever the
capacity and `available_capacity()`), `insert(next_index_, "", true)` closes
the stream and leaves the buffer, `bytes_pushed` and `bytes_popped` as they
were; on a fresh Reassembler of any capacity `insert(0, "", true)` makes
`is_finished()` true. -/
theorem empty_final_insert_closes :
    (∀ r : Reassembler, r.count_bytes_pending = 0 →
      (r.insert r.next_index_ [] true).output_.is_closed = true ∧
      (r.insert r.next_index_ [] true).output_.buffer_ = r.output_.buffer_ ∧
      (r.insert r.next_index_ [] true).output_.bytes_pushed = r.output_.bytes_pushed ∧
      (r.insert r.next_index_ [] true).output_.bytes_popped = r.output_.bytes_popped ∧
      (r.insert r.next_index_ [] true).count_bytes_pending = 0) ∧
    (∀ capacity : Nat,
      ((Reassembler.new (ByteStream.new capacity)).insert 0 [] true).output_.is_finished = true) := by
  have key : ∀ r : Reassembler, r.unassembled_bytes_ = 0 →
      (r.insert r.next_index_ [] true).output_ = r.output_.close ∧
      (r.insert r.next_index_ [] true).unassembled_bytes_ = 0 := by
    intro r hun
    have hts : r.trimStart r.next_index_ = r.next_index_ := by
      unfold Reassembler.trimStart; omega
    have htd : r.trimData r.next_index_ [] = [] := by
      unfold Reassembler.trimData; simp
    have hEq : Reassembler.closeIfEq (Reassembler.markEof r r.next_index_ [] true) =
        { Reassembler.markEof r r.next_index_ [] true with output_ := r.output_.close } := by
      unfold Reassembler.closeIfEq Reassembler.markEof
      simp [hun]
    have hGe : Reassembler.closeIfGe (Reassembler.markEof r r.next_index_ [] true) =
        { Reassembler.markEof r r.next_index_ [] true with output_ := r.output_.close } := by
      unfold Reassembler.closeIfGe Reassembler.markEof
      simp [hun]
    rw [Reassembler.insert_eq, if_neg (by omega), hts, if_pos htd, hEq, hGe]
    split_ifs <;> exact ⟨rfl, hun⟩
  constructor
  · intro r hun
    obtain ⟨k1, k2⟩ := key r hun
    simp only [Reassembler.count_bytes_pending, ByteStream.bytes_pushed, ByteStream.bytes_popped]
    rw [k1]
    exact ⟨rfl, rfl, rfl, rfl, k2⟩
  · intro capacity
    have := (key (Reassembler.new (ByteStream.new capacity)) rfl).1
    have h0 : (Reassembler.new (ByteStream.new capacity)).next_index_ = 0 := rfl
    rw [h0] at this
    unfold ByteStream.is_finished
    rw [this]
    rfl

/-- C11 on scenario D of the specification (capacity 1000), and with capacity 2
after "ab" has filled the window. -/
theorem empty_final_insert_closes_witness :
    ((Reassembler.new (ByteStream.new 1000)).insert 0 [] true).output_.is_finished = true ∧
    (((Reassembler.new (ByteStream.new 2)).insert 0 ['a', 'b'] false).insert 2 [] true).output_.is_closed
      = true :=
  ⟨empty_final_insert_closes.2 1000,
   (empty_final_insert_closes.1 ((Reassembler.new (ByteStream.new 2)).insert 0 ['a', 'b'] false)
      (by decide)).1⟩

/-- Closure in exact arithmetic.  When an `insert` call turns the stream from
open to closed, the state it returns has the EOF recorded, nothing pending and
`next_index_ ≥ eof_index_` (in every state, reachable or not); and a sequence
of `insert` calls on a fresh Reassembler, none with `is_last_substring` set,
leaves the stream open. -/
theorem never_closed_early :
    (∀ (r : Reassembler) (first_index : Nat) (data : List Byte) (is_last_substring : Bool),
      r.output_.is_closed = false →
      (r.insert first_index data is_last_substring).output_.is_closed = true →
      (r.insert first_index data is_last_substring).eof_received_ = true ∧
      (r.insert first_index data is_last_substring).count_bytes_pending = 0 ∧
      (r.insert first_index data is_last_substring).eof_index_ ≤
        (r.insert first_index data is_last_substring).next_index_) ∧
    (∀ (capacity : Nat) (calls : List Call), (∀ c ∈ calls, c.is_last_substring = false) →
      ((Reassembler.new (ByteStream.new capacity)).insertAll calls).output_.is_closed = false) := by
  constructor
  · intro r fi data l h0 h1
    obtain ⟨X, hform, hX⟩ := Reassembler.insert_closure_form r fi data l
    have h0c : r.output_.closed_ = false := h0
    rw [h0c] at hX
    have h1c : (r.insert fi data l).output_.closed_ = true := h1
    rcases hform with e | e
    · rw [e] at h1c ⊢
      exact Reassembler.closeIfEq_newly_closed hX h1c
    · rw [e] at h1c ⊢
      exact Reassembler.closeIfGe_newly_closed hX h1c
  · intro capacity calls hl
    exact (Reassembler.insertAll_open_of_no_last calls _ rfl rfl hl).2

/-! ## The pending map in reachable states -/

theorem SegsIn.disjoint_of_mem {lo hi : Nat} {s1 s2 : Nat × List Byte} : ∀ (m : Segments),
    SegsIn lo hi m → s1 ∈ m → s2 ∈ m → s1 ≠ s2 →
    s1.1 + s1.2.length ≤ s2.1 ∨ s2.1 + s2.2.length ≤ s1.1
  | [], _, h1, _, _ => by simp at h1
  | s :: rest, ⟨_, _, _, h4⟩, h1, h2, hne => by
    rcases List.mem_cons.mp h1 with e1 | e1
    · rcases List.mem_cons.mp h2 with e2 | e2
      · exact absurd (e1.trans e2.symm) hne
      · subst e1
        exact Or.inl (SegsIn.of_mem rest h4 e2).1
    · rcases List.mem_cons.mp h2 with e2 | e2
      · subst e2
        exact Or.inr (SegsIn.of_mem rest h4 e1).1
      · exact SegsIn.disjoint_of_mem rest h4 e1 e2 hne

/-- C13.  In every reachable state, and so on every return path of `insert`,
`count_bytes_pending()` is the sum of the sizes of the segments in the pending
map. -/
theorem count_bytes_pending_exact {r : Reassembler} (hr : Reachable r) (first_index : Nat)
    (data : List Byte) (is_last_substring : Bool) :
    r.count_bytes_pending = sumSizes r.segments_ ∧
    (r.insert first_index data is_last_substring).count_bytes_pending =
      sumSizes (r.insert first_index data is_last_substring).segments_ :=
  ⟨hr.inv.pending, (Reassembler.insert_inv hr.inv first_index data is_last_substring).1.pending⟩

/-- C13 at a concrete state: capacity 10, `insert(3, "de")` then `insert(6, "g")`
leaves 3 bytes pending in two segments. -/
theorem count_bytes_pending_exact_witness :
    Reachable ((Reassembler.new (ByteStream.new 10)).insert 3 ['d', 'e'] false) ∧
    (((Reassembler.new (ByteStream.new 10)).insert 3 ['d', 'e'] false).insert 6 ['g'] false).count_bytes_pending
      = sumSizes (((Reassembler.new (ByteStream.new 10)).insert 3 ['d', 'e'] false).insert
          6 ['g'] false).segments_ ∧
    (((Reassembler.new (ByteStream.new 10)).insert 3 ['d', 'e'] false).insert 6 ['g'] false).count_bytes_pending
      = 3 :=
  ⟨Reachable.insert 3 ['d', 'e'] false (Reachable.init 10),
   (count_bytes_pending_exact (Reachable.insert 3 ['d', 'e'] false (Reachable.init 10))
      6 ['g'] false).2,
   by decide⟩

/-- C14.  After an `insert` call in a reachable state every pending segment
starts strictly after `next_index_`, and the pending map holds no byte for
`next_index_`. -/
theorem eager_flush {r : Reassembler} (hr : Reachable r) (first_index : Nat)
    (data : List Byte) (is_last_substring : Bool) :
    (∀ seg ∈ (r.insert first_index data is_last_substring).segments_,
      (r.insert first_index data is_last_substring).next_index_ < seg.1) ∧
    byteAt (r.insert first_index data is_last_substring).segments_
      (r.insert first_index data is_last_substring).next_index_ = none := by
  have h := (Reassembler.insert_inv hr.inv first_index data is_last_substring).1
  exact ⟨fun seg hm => (SegsIn.of_mem _ h.segs hm).1, byteAt_eq_none_of_lt _ h.segs _ (Nat.lt_succ_self _)⟩

/-- C14 at a concrete state: capacity 10 with `(1, "b")` and `(3, "d")` pending;
`insert(0, "a")` flushes "ab" and leaves `(3, "d")` pending behind
`next_index_ = 2`. -/
theorem eager_flush_witness :
    Reachable (((Reassembler.new (ByteStream.new 10)).insert 1 ['b'] false).insert 3 ['d'] false) ∧
    ((((Reassembler.new (ByteStream.new 10)).insert 1 ['b'] false).insert 3 ['d'] false).insert
      0 ['a'] false).next_index_ = 2 ∧
    ∀ seg ∈ ((((Reassembler.new (ByteStream.new 10)).insert 1 ['b'] false).insert 3 ['d'] false).insert
        0 ['a'] false).segments_,
      ((((Reassembler.new (ByteStream.new 10)).insert 1 ['b'] false).insert 3 ['d'] false).insert
        0 ['a'] false).next_index_ < seg.1 :=
  ⟨Reachable.insert 3 ['d'] false (Reachable.insert 1 ['b'] false (Reachable.init 10)),
   by decide,
   (eager_flush (Reachable.insert 3 ['d'] false (Reachable.insert 1 ['b'] false (Reachable.init 10)))
      0 ['a'] false).1⟩

/-- The pending map in exact arithmetic.  In every state reachable there every
pending segment is non-empty, starts after `next_index_` and ends at or before
`next_index_ + available_capacity()`, and two distinct pending segments cover
disjoint index ranges. -/
theorem pending_segments_invariant {r : Reassembler} (hr : Reachable r) :
    (∀ seg ∈ r.segments_, 0 < seg.2.length ∧ r.next_index_ ≤ seg.1 ∧ r.next_index_ < seg.1 ∧
      seg.1 + seg.2.length ≤ r.next_index_ + r.output_.available_capacity) ∧
    (∀ s1 ∈ r.segments_, ∀ s2 ∈ r.segments_, s1 ≠ s2 →
      s1.1 + s1.2.length ≤ s2.1 ∨ s2.1 + s2.2.length ≤ s1.1) := by
  have h := hr.inv
  constructor
  · intro seg hm
    obtain ⟨h1, h2, h3⟩ := SegsIn.of_mem _ h.segs hm
    exact ⟨h2, by omega, by omega, h3⟩
  · intro s1 h1 s2 h2 hne
    exact SegsIn.disjoint_of_mem _ h.segs h1 h2 hne

/-! ## `insert` never fails -/

theorem subChecked_of_le {a b : Nat} (h : b ≤ a) : subChecked a b = some (a - b) := by
  unfold subChecked; rw [if_pos h]

theorem substrFrom_of_le {s : List Byte} {pos : Nat} (h : pos ≤ s.length) :
    substrFrom s pos = some (s.drop pos) := by
  unfold substrFrom; rw [if_pos h]

theorem sumSizes_append : ∀ (m1 m2 : Segments), sumSizes (m1 ++ m2) = sumSizes m1 + sumSizes m2
  | [], m2 => by simp [sumSizes]
  | s :: rest, m2 => by
    rw [List.cons_append]
    simp only [sumSizes]
    rw [sumSizes_append rest m2]
    omega

theorem sumSizes_dropWhile_le (p : Nat × List Byte → Bool) (m : Segments) :
    sumSizes (m.dropWhile p) ≤ sumSizes m := by
  have h := congrArg sumSizes (List.takeWhile_append_dropWhile p m)
  rw [sumSizes_append] at h
  omega

theorem mergeNextChecked_eq (fi : Nat) : ∀ (m : Segments) (data : List Byte) (un : Nat),
    sumSizes m ≤ un → mergeNextChecked fi data un m = some (mergeNext fi data un m)
  | [], _, _, _ => rfl
  | nx :: rest, data, un, h => by
    simp only [sumSizes] at h
    simp only [mergeNextChecked, mergeNext]
    by_cases hc : fi + data.length ≥ nx.1
    · rw [if_pos hc, if_pos hc]
      by_cases he : fi + data.length < nx.1 + nx.2.length
      · rw [if_pos he, if_pos he, subChecked_of_le hc, Option.some_bind,
          substrFrom_of_le (by omega), Option.map_some', Option.some_bind,
          subChecked_of_le (by omega), Option.some_bind]
        exact mergeNextChecked_eq fi rest _ _ (by omega)
      · rw [if_neg he, if_neg he, Option.some_bind, subChecked_of_le (by omega),
          Option.some_bind]
        exact mergeNextChecked_eq fi rest _ _ (by omega)
    · rw [if_neg hc, if_neg hc]

theorem flushChecked_eq : ∀ (m : Segments) (out : ByteStream) (next un : Nat),
    sumSizes m ≤ un → flushChecked out next un m = some (flush out next un m)
  | [], _, _, _, _ => rfl
  | seg :: rest, out, next, un, h => by
    simp only [sumSizes] at h
    simp only [flushChecked, flush]
    split_ifs
    · rw [subChecked_of_le (by omega), Option.some_bind]
      exact flushChecked_eq rest _ _ _ (by omega)
    · rfl

theorem length_le_sumSizes_of_mem {seg : Nat × List Byte} : ∀ (m : Segments), seg ∈ m →
    seg.2.length ≤ sumSizes m
  | [], h => by simp at h
  | s :: rest, h => by
    simp only [sumSizes]
    rcases List.mem_cons.mp h with e | e
    · subst e; omega
    · have := length_le_sumSizes_of_mem rest e
      omega

/-- The predecessor step succeeds, and the running count it leaves still
bounds the sizes in the map it leaves. -/
theorem mergePrevChecked_eq {a : Nat} {d : List Byte} {un : Nat} {segs : Segments}
    (hc : containedIn a d segs = false) (hun : sumSizes segs ≤ un) :
    mergePrevChecked a d un segs = some (mergePrev a d un segs) ∧
    sumSizes (mergePrev a d un segs).1 ≤ (mergePrev a d un segs).2.2.2 := by
  unfold mergePrevChecked mergePrev
  dsimp only
  cases hp : (segs.takeWhile fun seg => decide (seg.1 < a)).getLast? with
  | none => exact ⟨rfl, hun⟩
  | some prev =>
    dsimp only
    by_cases hov : prev.1 + prev.2.length > a
    · rw [if_pos hov, if_pos hov]
      have hm := List.mem_of_getLast?_eq_some hp
      have hmem : prev ∈ segs := (List.takeWhile_sublist _).subset hm
      have hsz := length_le_sumSizes_of_mem segs hmem
      have hlt := overlap_size_lt_of_prev hc hp hov
      have hsplit : (segs.takeWhile fun seg => decide (seg.1 < a)).dropLast ++ [prev] =
          segs.takeWhile fun seg => decide (seg.1 < a) :=
        List.dropLast_append_getLast? prev (by rw [hp]; rfl)
      have hsum : sumSizes segs =
          sumSizes (segs.takeWhile fun seg => decide (seg.1 < a)).dropLast + prev.2.length +
            sumSizes (segs.dropWhile fun seg => decide (seg.1 < a)) := by
        have h := congrArg sumSizes
          (List.takeWhile_append_dropWhile (fun seg : Nat × List Byte => decide (seg.1 < a)) segs)
        rw [sumSizes_append, ← hsplit, sumSizes_append] at h
        simp only [sumSizes] at h
        omega
      refine ⟨?_, ?_⟩
      · rw [subChecked_of_le (by omega), Option.some_bind, subChecked_of_le (le_of_lt hov),
          Option.some_bind, substrFrom_of_le (le_of_lt hlt), Option.map_some']
      · dsimp only
        rw [sumSizes_append]
        simp only [sumSizes]
        omega
    · rw [if_neg hov, if_neg hov]
      exact ⟨rfl, hun⟩

theorem mergeStoreChecked_eq {a : Nat} {d : List Byte} {un : Nat} {segs : Segments}
    (hc : containedIn a d segs = false) (hun : sumSizes segs ≤ un) :
    mergeStoreChecked a d un segs = some (mergeStore a d un segs) := by
  obtain ⟨h1, h2⟩ := mergePrevChecked_eq (d := d) hc hun
  unfold mergeStoreChecked mergeStore
  rw [h1, Option.some_bind,
    mergeNextChecked_eq _ _ _ _ (le_trans (sumSizes_dropWhile_le _ _) h2), Option.map_some']

namespace Reassembler

theorem storeChecked_eq {r : Reassembler} (hun : sumSizes r.segments_ ≤ r.unassembled_bytes_)
    (a : Nat) (d : List Byte) : storeChecked r a d = some (store r a d) := by
  unfold storeChecked store
  by_cases hc : containedIn a d r.segments_ = true
  · rw [if_pos hc, if_pos hc]
  · rw [if_neg hc, if_neg hc]
    rw [Bool.not_eq_true] at hc
    rw [mergeStoreChecked_eq hc hun, Option.some_bind, flushChecked_eq _ _ _ _ le_rfl,
      Option.map_some']

theorem insertRightChecked_eq {r : Reassembler} (hun : sumSizes r.segments_ ≤ r.unassembled_bytes_)
    (we fi : Nat) (data : List Byte) :
    insertRightChecked r we fi data = some (insertRight r we fi data) := by
  unfold insertRightChecked insertRight
  by_cases h1 : fi ≥ we
  · rw [if_pos h1, if_pos h1]
  · rw [if_neg h1, if_neg h1]
    by_cases h2 : fi + data.length > we
    · rw [if_pos h2, if_pos h2, subChecked_of_le (by omega), Option.map_some', Option.some_bind]
      dsimp only
      split_ifs
      · rfl
      · exact storeChecked_eq hun _ _
    · rw [if_neg h2, if_neg h2, Option.some_bind]
      dsimp only
      split_ifs
      · rfl
      · exact storeChecked_eq hun _ _

/-- In a state whose `unassembled_bytes_` is at least the total size of the
pending map, no `substr` of `insert` is out of range and no subtraction wraps. -/
theorem insertChecked_eq {r : Reassembler} (hun : sumSizes r.segments_ ≤ r.unassembled_bytes_)
    (fi : Nat) (data : List Byte) (l : Bool) :
    insertChecked r fi data l = some (insert r fi data l) := by
  have hm : sumSizes (markEof r fi data l).segments_ ≤ (markEof r fi data l).unassembled_bytes_ := by
    rw [markEof_segments, markEof_unassembled]; exact hun
  unfold insertChecked insert
  dsimp only
  by_cases h1 : fi < (markEof r fi data l).next_index_
  · rw [if_pos h1, if_pos h1]
    by_cases h2 : fi + data.length ≤ (markEof r fi data l).next_index_
    · rw [if_pos h2, if_pos h2]
    · rw [if_neg h2, if_neg h2, subChecked_of_le (le_of_lt h1), Option.some_bind,
        substrFrom_of_le (by omega), Option.some_bind]
      exact insertRightChecked_eq hm _ _ _
  · rw [if_neg h1, if_neg h1]
    exact insertRightChecked_eq hm _ _ _

end Reassembler

/-- The checks are not vacuous: in the (unreachable) state with `(2, "c")`
stored but `unassembled_bytes_ = 0`, the decrement of line 101 wraps. -/
theorem insertChecked_can_fail :
    Reassembler.insertChecked
      { Reassembler.new (ByteStream.new 6) with segments_ := [(2, ['c'])] } 1 ['b', 'c'] false
      = none := by
  decide

/-- C15.  In every reachable state and for every input, `insert` with each
`substr` (left trim, right trim, previous-block merge, following-block merge)
and each unsigned subtraction (`trim_size`, both `overlap_size`, the window
cut, the three decrements of `unassembled_bytes_`) checked returns a state, the
one `insert` computes: no `substr` position exceeds the length of its string
and no subtraction wraps.  The two loops are recursions on the finite list of
map entries, one entry erased per iteration, so they terminate.  Indices are
natural numbers here, so the bound `first_index + len(data) < 2^64` that keeps
the additions of the source exact is not a hypothesis. -/
theorem insert_never_fails {r : Reassembler} (hr : Reachable r) (first_index : Nat)
    (data : List Byte) (is_last_substring : Bool) :
    r.insertChecked first_index data is_last_substring =
      some (r.insert first_index data is_last_substring) :=
  Reassembler.insertChecked_eq (le_of_eq hr.inv.pending.symm) first_index data is_last_substring

/-- C15 at a concrete state: capacity 6 with `(2, "cd")` and `(5, "f")` pending;
`insert(0, "abcdefgh", true)` is trimmed on the right, absorbs both segments
and is flushed, with every checked operation succeeding. -/
theorem insert_never_fails_witness :
    Reachable (((Reassembler.new (ByteStream.new 6)).insert 2 ['c', 'd'] false).insert 5 ['f'] false) ∧
    ((((Reassembler.new (ByteStream.new 6)).insert 2 ['c', 'd'] false).insert 5 ['f'] false).insertChecked
        0 ['a', 'b', 'c', 'd', 'e', 'f', 'g', 'h'] true).isSome = true ∧
    ((((Reassembler.new (ByteStream.new 6)).insert 2 ['c', 'd'] false).insert 5 ['f'] false).insert
        0 ['a', 'b', 'c', 'd', 'e', 'f', 'g', 'h'] true).output_.peek
      = ['a', 'b', 'c', 'd', 'e', 'f'] :=
  ⟨Reachable.insert 5 ['f'] false (Reachable.insert 2 ['c', 'd'] false (Reachable.init 6)),
   by rw [insert_never_fails
        (Reachable.insert 5 ['f'] false (Reachable.insert 2 ['c', 'd'] false (Reachable.init 6)))
        0 ['a', 'b', 'c', 'd', 'e', 'f', 'g', 'h'] true]; rfl,
   by decide⟩


/-! ## `next_index_` and `bytes_pushed` -/

theorem flushFits_of_segsIn : ∀ (m : Segments) (out : ByteStream) (next : Nat),
    out.Inv → out.closed_ = false → SegsIn next (next + out.available_capacity) m →
    FlushFits out next m
  | [], _, _, _, _, _ => trivial
  | seg :: rest, out, next, hinv, hopen, ⟨_, h2, h3, h4⟩ => by
    intro heq
    have hfit : seg.2.length ≤ out.available_capacity := by omega
    refine ⟨hfit, ?_⟩
    have hav := ByteStream.available_capacity_of_inv hinv
    have hinv1 := ByteStream.push_inv seg.2 hinv
    have hav1 := ByteStream.available_capacity_of_inv hinv1
    have hpush := ByteStream.push_fits hopen hfit
    apply flushFits_of_segsIn rest _ _ hinv1 (by rw [hpush]; exact hopen)
    refine SegsIn.mono _ h4 (by omega) ?_
    rw [hav1, hpush]
    simp only [List.length_append]
    have := hinv.2
    omega

namespace Reassembler

/-- From an open stream, `insert` leaves `next_index_` equal to `bytes_pushed`,
and the buffer has grown by exactly the advance of `next_index_`. -/
theorem insert_synced {r : Reassembler} (h : r.Inv) (hopen : r.output_.closed_ = false)
    (fi : Nat) (data : List Byte) (l : Bool) :
    (insert r fi data l).next_index_ = (insert r fi data l).output_.bytes_pushed_ ∧
    r.next_index_ ≤ (insert r fi data l).next_index_ ∧
    (insert r fi data l).output_.buffer_.length =
      r.output_.buffer_.length + ((insert r fi data l).next_index_ - r.next_index_) := by
  have hsync := h.synced hopen
  have hkeep : ∀ r1 : Reassembler, r.SameData r1 →
      r1.next_index_ = r1.output_.bytes_pushed_ ∧ r.next_index_ ≤ r1.next_index_ ∧
      r1.output_.buffer_.length = r.output_.buffer_.length + (r1.next_index_ - r.next_index_) := by
    intro r1 hs
    obtain ⟨a1, a2, _, _, _, a6, _, _, _⟩ := hs
    have a2' : r1.output_.bytes_pushed_ = r.output_.bytes_pushed_ := a2
    rw [a1, a6, a2']
    exact ⟨hsync, le_rfl, by omega⟩
  have hm := sameData_markEof r fi data l
  have hsegs1 : SegsIn ((markEof r fi data l).next_index_ + 1)
      (r.next_index_ + r.output_.available_capacity) (markEof r fi data l).segments_ := by
    rw [markEof_next, markEof_segments]; exact h.segs
  rw [insert_eq]
  split_ifs with p1 p2 p3
  · exact hkeep _ (hm.trans (sameData_closeIfEq _))
  · exact hkeep _ (hm.trans (sameData_closeIfEq _))
  · exact hkeep _ (hm.trans (sameData_closeIfGe _))
  · obtain ⟨b1, b2, _, _⟩ := trim_bounds r fi data p2
    have hpos : 0 < (r.trimData fi data).length := List.length_pos.mpr p3
    by_cases hc : containedIn (r.trimStart fi) (r.trimData fi data) r.segments_ = true
    · have e2 : store (markEof r fi data l) (r.trimStart fi) (r.trimData fi data) =
          closeIfGe (markEof r fi data l) := by
        unfold store; rw [markEof_segments, if_pos hc]
      rw [e2]
      exact hkeep _ (hm.trans (sameData_closeIfGe _))
    · rw [Bool.not_eq_true] at hc
      rcases Nat.lt_or_ge r.next_index_ (r.trimStart fi) with hlt | hge
      · rw [store_far hsegs1 (by rw [markEof_next]; exact hlt) hpos b2
          (by rw [markEof_segments]; exact hc)]
        obtain ⟨a1, a2, _, _, _, a6, _, _, _⟩ := sameData_closeIfGe
          ((markEof r fi data l).merged (r.trimStart fi) (r.trimData fi data))
        have a2' : (closeIfGe ((markEof r fi data l).merged (r.trimStart fi)
            (r.trimData fi data))).output_.bytes_pushed_ =
            ((markEof r fi data l).merged (r.trimStart fi)
              (r.trimData fi data)).output_.bytes_pushed_ := a2
        rw [a1, a6, a2']
        simp only [merged, markEof_next, markEof_output]
        exact ⟨hsync, le_rfl, by omega⟩
      · have hea : r.trimStart fi = r.next_index_ := by omega
        rw [hea] at b2
        have e2 := store_near hsegs1 hpos (by rw [markEof_next]; exact b2)
        rw [markEof_next] at e2
        rw [hea, e2]
        obtain ⟨_, sle, _⟩ := mergeNext_spec r.next_index_ _ r.segments_
          (r.trimData fi data) 0 _ h.segs b2
        obtain ⟨a1, a2, _, _, _, a6, _, _, _⟩ := sameData_closeIfGe
          ((markEof r fi data l).flushed (r.trimData fi data))
        have a2' : (closeIfGe ((markEof r fi data l).flushed
            (r.trimData fi data))).output_.bytes_pushed_ =
            ((markEof r fi data l).flushed (r.trimData fi data)).output_.bytes_pushed_ := a2
        rw [a1, a6, a2']
        simp only [flushed, markEof_next, markEof_output, markEof_segments]
        rw [ByteStream.push_fits hopen (by omega)]
        simp only [List.length_append]
        exact ⟨by omega, by omega, by omega⟩

end Reassembler

/-- C18 fails as stated.  Capacity 10: `insert(0, "", true)` closes the stream
at once; `insert(0, "a", false)` is then stored and flushed, `Writer::push`
ignores it on the closed stream, and the reachable state has
`next_index_ = 1` with `bytes_pushed() = 0`. -/
theorem next_index_ahead_after_close :
    Reachable (((Reassembler.new (ByteStream.new 10)).insert 0 [] true).insert 0 ['a'] false) ∧
    (((Reassembler.new (ByteStream.new 10)).insert 0 [] true).insert 0 ['a'] false).next_index_ = 1 ∧
    (((Reassembler.new (ByteStream.new 10)).insert 0 [] true).insert
      0 ['a'] false).output_.bytes_pushed = 0 ∧
    ((Reassembler.new (ByteStream.new 10)).insert 0 [] true).output_.is_closed = true :=
  ⟨Reachable.insert 0 ['a'] false (Reachable.insert 0 [] true (Reachable.init 10)),
   by decide, by decide, by decide⟩

/-- C18, as the code has it.  In every reachable state `bytes_pushed() ≤
next_index_`, with equality as long as the stream is open; on a closed stream
an `insert` leaves the whole stream, `bytes_pushed` included, as it was. -/
theorem next_index_tracks_open_stream {r : Reassembler} (hr : Reachable r) :
    r.output_.bytes_pushed ≤ r.next_index_ ∧
    (r.output_.is_closed = false → r.next_index_ = r.output_.bytes_pushed) ∧
    (r.output_.is_closed = true → ∀ (first_index : Nat) (data : List Byte)
      (is_last_substring : Bool),
      (r.insert first_index data is_last_substring).output_ = r.output_) :=
  ⟨hr.inv.ahead, hr.inv.synced,
   fun hc fi data l => Reassembler.insert_output_of_closed hc fi data l⟩

/-- C18 at concrete states: capacity 10, open after `insert(0, "ab", false)`
(`next_index_ = bytes_pushed = 2`), closed after `insert(0, "", true)`. -/
theorem next_index_tracks_open_stream_witness :
    Reachable ((Reassembler.new (ByteStream.new 10)).insert 0 ['a', 'b'] false) ∧
    ((Reassembler.new (ByteStream.new 10)).insert 0 ['a', 'b'] false).next_index_ =
      ((Reassembler.new (ByteStream.new 10)).insert 0 ['a', 'b'] false).output_.bytes_pushed ∧
    ((Reassembler.new (ByteStream.new 10)).insert 0 ['a', 'b'] false).next_index_ = 2 ∧
    (((Reassembler.new (ByteStream.new 10)).insert 0 [] true).insert 0 ['a'] false).output_ =
      ((Reassembler.new (ByteStream.new 10)).insert 0 [] true).output_ :=
  ⟨Reachable.insert 0 ['a', 'b'] false (Reachable.init 10),
   (next_index_tracks_open_stream
      (Reachable.insert 0 ['a', 'b'] false (Reachable.init 10))).2.1 (by decide),
   by decide,
   (next_index_tracks_open_stream (Reachable.insert 0 [] true (Reachable.init 10))).2.2
      (by decide) 0 ['a'] false⟩

/-- C19.  In every reachable state with an open stream `next_index_ =
bytes_pushed()`; after an `insert` from such a state `next_index_ =
bytes_pushed()` still holds and the buffer has grown by exactly the advance of
`next_index_`; and whenever `insert` reaches the flush loop (the trimmed range
`(a, d)` is non-empty, inside the window and in no stored segment), every
segment the loop pushes is no longer than `available_capacity()` at the moment
of its push. -/
theorem flush_never_truncates {r : Reassembler} (hr : Reachable r)
    (hopen : r.output_.is_closed = false) (first_index : Nat) (data : List Byte)
    (is_last_substring : Bool) :
    r.next_index_ = r.output_.bytes_pushed ∧
    (r.insert first_index data is_last_substring).next_index_ =
      (r.insert first_index data is_last_substring).output_.bytes_pushed ∧
    (r.insert first_index data is_last_substring).output_.buffer_.length =
      r.output_.buffer_.length +
        ((r.insert first_index data is_last_substring).next_index_ - r.next_index_) ∧
    (∀ (a : Nat) (d : List Byte), r.next_index_ ≤ a → 0 < d.length →
      a + d.length ≤ r.next_index_ + r.output_.available_capacity →
      containedIn a d r.segments_ = false →
      FlushFits r.output_ r.next_index_ (mergeStore a d r.unassembled_bytes_ r.segments_).1) := by
  have h := hr.inv
  obtain ⟨s1, _, s3⟩ := Reassembler.insert_synced h hopen first_index data is_last_substring
  refine ⟨h.synced hopen, s1, s3, ?_⟩
  intro a d ha hpos hhi hc
  rw [mergeStore_eq_mergeRef d _ _ _ h.segs]
  obtain ⟨m1, _, _⟩ := mergeRef_spec hpos hhi _ _ (SegsIn.mono _ h.segs (Nat.le_succ _) le_rfl) ha hc
  exact flushFits_of_segsIn _ _ _ h.stream hopen m1

/-- C19 at a concrete state: capacity 4 with `(2, "cd")` pending and the stream
open; `insert(0, "abcdef", false)` pushes "abcd" whole. -/
theorem flush_never_truncates_witness :
    Reachable ((Reassembler.new (ByteStream.new 4)).insert 2 ['c', 'd'] false) ∧
    (((Reassembler.new (ByteStream.new 4)).insert 2 ['c', 'd'] false).insert
      0 ['a', 'b', 'c', 'd', 'e', 'f'] false).next_index_ =
      (((Reassembler.new (ByteStream.new 4)).insert 2 ['c', 'd'] false).insert
        0 ['a', 'b', 'c', 'd', 'e', 'f'] false).output_.bytes_pushed ∧
    (((Reassembler.new (ByteStream.new 4)).insert 2 ['c', 'd'] false).insert
      0 ['a', 'b', 'c', 'd', 'e', 'f'] false).output_.peek = ['a', 'b', 'c', 'd'] :=
  ⟨Reachable.insert 2 ['c', 'd'] false (Reachable.init 4),
   (flush_never_truncates (Reachable.insert 2 ['c', 'd'] false (Reachable.init 4)) (by decide)
      0 ['a', 'b', 'c', 'd', 'e', 'f'] false).2.1,
   by decide⟩

/-! ## Coverage is exact -/

namespace Reassembler

/-- The trimmed range is the intersection of the range of the call with the
window. -/
theorem trim_range_iff (r : Reassembler) (fi : Nat) (data : List Byte) (i : Nat) :
    (r.trimStart fi ≤ i ∧ i < r.trimStart fi + (r.trimData fi data).length) ↔
    (fi ≤ i ∧ i < fi + data.length ∧ r.next_index_ ≤ i ∧
      i < r.next_index_ + r.output_.available_capacity) := by
  have hlen : (r.trimData fi data).length =
      min (r.next_index_ + r.output_.available_capacity - r.trimStart fi)
        (data.length - (r.next_index_ - fi)) := by
    unfold trimData; rw [List.length_take, List.length_drop]
  have hts : r.trimStart fi = max fi r.next_index_ := rfl
  omega

/-- `insert` invents no coverage: an index known after the call was known
before or lies in the trimmed range. -/
theorem covered_insert_rev {r : Reassembler} (h : r.Inv) (fi : Nat) (data : List Byte) (l : Bool)
    {i : Nat} (hi : (insert r fi data l).Covered i) :
    r.Covered i ∨ (r.trimStart fi ≤ i ∧ i < r.trimStart fi + (r.trimData fi data).length) := by
  have hsegs1 : SegsIn ((markEof r fi data l).next_index_ + 1)
      (r.next_index_ + r.output_.available_capacity) (markEof r fi data l).segments_ := by
    rw [markEof_next, markEof_segments]; exact h.segs
  rw [insert_eq] at hi
  split_ifs at hi with p1 p2 p3
  · rw [covered_closeIfEq, covered_markEof] at hi; exact Or.inl hi
  · rw [covered_closeIfEq, covered_markEof] at hi; exact Or.inl hi
  · rw [covered_closeIfGe, covered_markEof] at hi; exact Or.inl hi
  · obtain ⟨b1, b2, _, _⟩ := trim_bounds r fi data p2
    have hpos : 0 < (r.trimData fi data).length := List.length_pos.mpr p3
    by_cases hc : containedIn (r.trimStart fi) (r.trimData fi data) r.segments_ = true
    · have e2 : store (markEof r fi data l) (r.trimStart fi) (r.trimData fi data) =
          closeIfGe (markEof r fi data l) := by
        unfold store; rw [markEof_segments, if_pos hc]
      rw [e2, covered_closeIfGe, covered_markEof] at hi
      exact Or.inl hi
    · rw [Bool.not_eq_true] at hc
      rcases Nat.lt_or_ge r.next_index_ (r.trimStart fi) with hlt | hge
      · rw [store_far hsegs1 (by rw [markEof_next]; exact hlt) hpos b2
          (by rw [markEof_segments]; exact hc), covered_closeIfGe] at hi
        obtain ⟨_, _, hbytes⟩ := mergeRef_spec hpos b2 _ _ h.segs hlt hc
        unfold Covered at hi ⊢
        simp only [merged, markEof_next, markEof_segments] at hi
        rw [hbytes i] at hi
        by_cases hin : r.trimStart fi ≤ i ∧ i < r.trimStart fi + (r.trimData fi data).length
        · exact Or.inr hin
        · rw [if_neg hin] at hi
          exact Or.inl hi
      · have hea : r.trimStart fi = r.next_index_ := by omega
        rw [hea] at b2
        have e2 := store_near hsegs1 hpos (by rw [markEof_next]; exact b2)
        rw [markEof_next] at e2
        rw [hea, e2, covered_closeIfGe] at hi
        obtain ⟨_, _, s3, s4, s5⟩ := mergeNext_spec r.next_index_ _ r.segments_
          (r.trimData fi data) 0 _ h.segs b2
        unfold Covered at hi ⊢
        simp only [flushed, markEof_next, markEof_segments] at hi
        rw [hea]
        by_cases hlt2 : i < r.next_index_ + (mergeNext r.next_index_ (r.trimData fi data) 0
            r.segments_).1.length
        · by_cases hlt3 : i < r.next_index_
          · exact Or.inl (Or.inl hlt3)
          · by_cases hlt4 : i < r.next_index_ + (r.trimData fi data).length
            · exact Or.inr ⟨by omega, hlt4⟩
            · left; right
              rw [← s4 i (by omega) hlt2]
              cases hx : (mergeNext r.next_index_ (r.trimData fi data) 0
                  r.segments_).1[i - r.next_index_]? with
              | none => rw [List.getElem?_eq_none_iff] at hx; omega
              | some b => rfl
        · rcases hi with hi | hi
          · omega
          · left; right
            rw [← s5 i (by omega)]
            exact hi

end Reassembler

/-- Coverage in exact arithmetic.  With `K(state)` the indices below
`next_index_` together with the indices held by pending segments (`Covered`):
after an `insert` in a state reachable there, `K` is `K` before the call united
with the part of
`[first_index, first_index + len data)` inside the window
`[next_index_, next_index_ + available_capacity())` computed before the call,
and the new `next_index_` is the smallest index at or after the old one that
is not in that union. -/
theorem coverage_exact {r : Reassembler} (hr : Reachable r) (first_index : Nat)
    (data : List Byte) (is_last_substring : Bool) :
    (∀ i, (r.insert first_index data is_last_substring).Covered i ↔
      (r.Covered i ∨ (first_index ≤ i ∧ i < first_index + data.length ∧ r.next_index_ ≤ i ∧
        i < r.next_index_ + r.output_.available_capacity))) ∧
    r.next_index_ ≤ (r.insert first_index data is_last_substring).next_index_ ∧
    ¬ (r.Covered (r.insert first_index data is_last_substring).next_index_ ∨
        (first_index ≤ (r.insert first_index data is_last_substring).next_index_ ∧
          (r.insert first_index data is_last_substring).next_index_ < first_index + data.length ∧
          r.next_index_ ≤ (r.insert first_index data is_last_substring).next_index_ ∧
          (r.insert first_index data is_last_substring).next_index_ <
            r.next_index_ + r.output_.available_capacity)) ∧
    (∀ j, r.next_index_ ≤ j → j < (r.insert first_index data is_last_substring).next_index_ →
      (r.Covered j ∨ (first_index ≤ j ∧ j < first_index + data.length ∧ r.next_index_ ≤ j ∧
        j < r.next_index_ + r.output_.available_capacity))) := by
  have h := hr.inv
  have h1 := (Reassembler.insert_inv h first_index data is_last_substring).1
  have hiff : ∀ i, (r.insert first_index data is_last_substring).Covered i ↔
      (r.Covered i ∨ (first_index ≤ i ∧ i < first_index + data.length ∧ r.next_index_ ≤ i ∧
        i < r.next_index_ + r.output_.available_capacity)) := by
    intro i
    rw [← Reassembler.trim_range_iff]
    exact ⟨Reassembler.covered_insert_rev h first_index data is_last_substring,
      Reassembler.covered_insert h first_index data is_last_substring⟩
  have hnot : ¬ (r.insert first_index data is_last_substring).Covered
      (r.insert first_index data is_last_substring).next_index_ := by
    rintro (hlt | hsome)
    · omega
    · rw [byteAt_eq_none_of_lt _ h1.segs _ (Nat.lt_succ_self _)] at hsome
      simp at hsome
  refine ⟨hiff, ?_, fun hu => hnot ((hiff _).mpr hu), fun j _ hj => (hiff j).mp (Or.inl hj)⟩
  by_contra hlt
  exact hnot ((hiff _).mpr (Or.inl (Or.inl (by omega))))

/-! ## Adjacent segments -/

theorem mergeRef_head_of_ge {hi a : Nat} (d : List Byte) {m : Segments} (h : SegsIn a hi m) :
    ∃ v t, mergeRef a d m = (a, v) :: t := by
  cases m with
  | nil => exact ⟨d, [], rfl⟩
  | cons seg rest =>
    have h1 := h.1
    simp only [mergeRef]
    rw [if_neg (by omega)]
    split_ifs
    · exact ⟨_, _, rfl⟩
    · exact ⟨_, _, rfl⟩

/-- A stored segment that ends exactly where the new range starts is kept as it
is, and the new range is stored under its own start index. -/
theorem mergeRef_touching_prev {hi a : Nat} (d : List Byte) {seg : Nat × List Byte} :
    ∀ (m : Segments) (lo : Nat), SegsIn lo hi m → seg ∈ m → seg.1 + seg.2.length = a →
    seg ∈ mergeRef a d m ∧ ∃ v, (a, v) ∈ mergeRef a d m
  | [], _, _, hm, _ => by simp at hm
  | s :: rest, lo, ⟨h1, h2, h3, h4⟩, hm, hend => by
    have hs : s.1 < a ∧ s.1 + s.2.length ≤ a := by
      rcases List.mem_cons.mp hm with e | e
      · subst e; omega
      · have := SegsIn.of_mem rest h4 e
        omega
    have hmr : mergeRef a d (s :: rest) = s :: mergeRef a d rest := by
      simp only [mergeRef]; rw [if_pos hs.1, if_pos hs.2]
    rw [hmr]
    rcases List.mem_cons.mp hm with e | e
    · subst e
      rw [hend] at h4
      obtain ⟨v, t, hv⟩ := mergeRef_head_of_ge d h4
      exact ⟨List.mem_cons_self _ _, v, by rw [hv]; simp⟩
    · obtain ⟨i1, v, i2⟩ := mergeRef_touching_prev d rest _ h4 e hend
      exact ⟨List.mem_cons_of_mem _ i1, v, List.mem_cons_of_mem _ i2⟩

/-- After the merge no segment starts inside the new range or at its end. -/
theorem mergeRef_no_start_in_range {hi a : Nat} {d : List Byte} (hpos : 0 < d.length)
    (hhi : a + d.length ≤ hi) {seg : Nat × List Byte} :
    ∀ (m : Segments) (lo : Nat), SegsIn lo hi m → containedIn a d m = false →
    seg ∈ mergeRef a d m → a < seg.1 → a + d.length < seg.1
  | [], _, _, _, hm, hlt => by
    simp only [mergeRef, List.mem_singleton] at hm
    subst hm
    omega
  | s :: rest, lo, ⟨h1, h2, h3, h4⟩, hc, hm, hlt => by
    rw [containedIn_cons, Bool.or_eq_false_iff] at hc
    obtain ⟨hc1, hc2⟩ := hc
    have hc1' : ¬ (s.1 ≤ a ∧ s.1 + s.2.length ≥ a + d.length) := by
      intro hx
      simp [hx.1, hx.2] at hc1
    simp only [mergeRef] at hm
    by_cases hs : s.1 < a
    · rw [if_pos hs] at hm
      by_cases hno : s.1 + s.2.length ≤ a
      · rw [if_pos hno] at hm
        rcases List.mem_cons.mp hm with e | e
        · subst e; omega
        · exact mergeRef_no_start_in_range hpos hhi rest _ h4 hc2 e hlt
      · rw [if_neg hno] at hm
        have hlen : (s.2 ++ d.drop (s.1 + s.2.length - a)).length = a + d.length - s.1 := by
          simp only [List.length_append, List.length_drop]; omega
        obtain ⟨_, srest, sl, _, _⟩ :=
          mergeNext_cons_spec s.1 (s.2 ++ d.drop (s.1 + s.2.length - a))
            h4 (by omega) (by rw [hlen]; omega) (by rw [hlen]; omega)
        rcases List.mem_cons.mp hm with e | e
        · subst e; omega
        · have := SegsIn.of_mem _ srest e
          rw [hlen] at sl
          omega
    · rw [if_neg hs] at hm
      by_cases heq : s.1 = a
      · rw [if_pos heq] at hm
        obtain ⟨_, srest, sl, _, _⟩ := mergeNext_cons_spec a d h4 (by omega) hhi hpos
        rcases List.mem_cons.mp hm with e | e
        · subst e; omega
        · have := SegsIn.of_mem _ srest e
          omega
      · rw [if_neg heq] at hm
        obtain ⟨_, srest, sl, _, _⟩ := mergeNext_cons_spec a d (m := s :: rest)
          (SegsIn.head_lo ⟨h1, h2, h3, h4⟩) (by omega) hhi hpos
        rcases List.mem_cons.mp hm with e | e
        · subst e; omega
        · have := SegsIn.of_mem _ srest e
          omega

/-- What lines 75-106 do with blocks that touch the range, in exact arithmetic.
Take a reachable state and an `insert` whose trimmed range `[a, a + len d)` is
non-empty and lies in no stored segment.
After the call no pending segment starts inside the range or at its end: a
following segment that overlaps or touches the range has been absorbed (and no
coverage is lost).  A segment that ended exactly at `a` before the call is
still in the map unchanged, next to a segment stored under the start index `a`. -/
theorem adjacency_merge {r : Reassembler} (hr : Reachable r) (first_index : Nat)
    (data : List Byte) (is_last_substring : Bool)
    (hne : r.trimData first_index data ≠ [])
    (hc : containedIn (r.trimStart first_index) (r.trimData first_index data) r.segments_ = false) :
    (∀ seg ∈ (r.insert first_index data is_last_substring).segments_,
      r.trimStart first_index < seg.1 →
      r.trimStart first_index + (r.trimData first_index data).length < seg.1) ∧
    (∀ i, r.Covered i → (r.insert first_index data is_last_substring).Covered i) ∧
    (∀ seg ∈ r.segments_, seg.1 + seg.2.length = r.trimStart first_index →
      seg ∈ (r.insert first_index data is_last_substring).segments_ ∧
      ∃ v, (r.trimStart first_index, v) ∈
        (r.insert first_index data is_last_substring).segments_) := by
  have h := hr.inv
  have hpos : 0 < (r.trimData first_index data).length := List.length_pos.mpr hne
  have hlen : (r.trimData first_index data).length =
      min (r.next_index_ + r.output_.available_capacity - r.trimStart first_index)
        (data.length - (r.next_index_ - first_index)) := by
    unfold Reassembler.trimData; rw [List.length_take, List.length_drop]
  have hts : r.trimStart first_index = max first_index r.next_index_ := rfl
  have p1 : ¬ (first_index < r.next_index_ ∧ first_index + data.length ≤ r.next_index_) := by
    omega
  have p2 : ¬ r.next_index_ + r.output_.available_capacity ≤ r.trimStart first_index := by
    omega
  obtain ⟨b1, b2, _, _⟩ := Reassembler.trim_bounds r first_index data p2
  have hsegs1 : SegsIn ((Reassembler.markEof r first_index data is_last_substring).next_index_ + 1)
      (r.next_index_ + r.output_.available_capacity)
      (Reassembler.markEof r first_index data is_last_substring).segments_ := by
    rw [Reassembler.markEof_next, Reassembler.markEof_segments]; exact h.segs
  refine ⟨?_, fun i hi =>
    Reassembler.covered_insert h first_index data is_last_substring (Or.inl hi), ?_⟩
  · rw [Reassembler.insert_eq, if_neg p1, if_neg p2, if_neg hne]
    rcases Nat.lt_or_ge r.next_index_ (r.trimStart first_index) with hlt | hge
    · rw [Reassembler.store_far hsegs1 (by rw [Reassembler.markEof_next]; exact hlt) hpos b2
        (by rw [Reassembler.markEof_segments]; exact hc), Reassembler.closeIfGe_segments]
      intro seg hm hgt
      simp only [Reassembler.merged, Reassembler.markEof_segments] at hm
      exact mergeRef_no_start_in_range hpos b2 _ _ h.segs hc hm hgt
    · have hea : r.trimStart first_index = r.next_index_ := by omega
      rw [hea] at b2
      have e2 := Reassembler.store_near hsegs1 hpos (by rw [Reassembler.markEof_next]; exact b2)
      rw [Reassembler.markEof_next] at e2
      rw [hea, e2, Reassembler.closeIfGe_segments]
      obtain ⟨_, srest, sl, _, _⟩ := mergeNext_cons_spec r.next_index_
        (r.trimData first_index data) h.segs (Nat.le_succ _) b2 hpos
      intro seg hm _
      simp only [Reassembler.flushed, Reassembler.markEof_segments,
        Reassembler.markEof_next] at hm
      have := SegsIn.of_mem _ srest hm
      omega
  · intro seg hm hend
    have hb := SegsIn.of_mem _ h.segs hm
    have hlt : r.next_index_ < r.trimStart first_index := by omega
    rw [Reassembler.insert_eq, if_neg p1, if_neg p2, if_neg hne,
      Reassembler.store_far hsegs1 (by rw [Reassembler.markEof_next]; exact hlt) hpos b2
        (by rw [Reassembler.markEof_segments]; exact hc), Reassembler.closeIfGe_segments]
    simp only [Reassembler.merged, Reassembler.markEof_segments]
    exact mergeRef_touching_prev _ _ _ h.segs hm hend

/-! ## The 64-bit program and exact arithmetic -/

theorem add64_of_lt {a b : Nat} (h : a + b < 2 ^ 64) : add64 a b = a + b :=
  Nat.mod_eq_of_lt h

theorem sub64_of_le {a b : Nat} (h : b ≤ a) (ha : a < 2 ^ 64) : sub64 a b = a - b := by
  unfold sub64
  rw [Nat.mod_eq_of_lt (lt_of_le_of_lt h ha)]
  have e : a + (2 ^ 64 - b) = a - b + 2 ^ 64 := by omega
  rw [e, Nat.add_mod_right]
  exact Nat.mod_eq_of_lt (by omega)

theorem sum64_foldl : ∀ (m : Segments) (acc : Nat),
    m.foldl (fun un seg => add64 un seg.2.length) acc % 2 ^ 64 = (acc + sumSizes m) % 2 ^ 64
  | [], acc => by simp [sumSizes]
  | seg :: rest, acc => by
    rw [List.foldl_cons, sum64_foldl rest]
    simp only [sumSizes, add64]
    omega

theorem sum64_eq {m : Segments} (h : sumSizes m < 2 ^ 64) : sum64 m = sumSizes m := by
  have h1 := sum64_foldl m 0
  have h2 : ∀ (m : Segments) (acc : Nat), acc < 2 ^ 64 →
      m.foldl (fun un seg => add64 un seg.2.length) acc < 2 ^ 64 := by
    intro m
    induction m with
    | nil => intro acc h; exact h
    | cons seg rest ih =>
      intro acc _
      rw [List.foldl_cons]
      exact ih _ (Nat.mod_lt _ (by norm_num))
  unfold sum64
  rw [Nat.mod_eq_of_lt (h2 m 0 (by norm_num)), Nat.zero_add, Nat.mod_eq_of_lt h] at h1
  exact h1

namespace ByteStream

theorem push64_eq {s : ByteStream} {d : List Byte}
    (h : s.bytes_pushed_ + d.length < 2 ^ 64) : s.push64 d = s.push d := by
  unfold push64 push
  dsimp only
  rw [add64_of_lt (lt_of_le_of_lt (Nat.add_le_add_left (Nat.min_le_left _ _) _) h)]

theorem pop64_eq {s : ByteStream} {len : Nat}
    (h : len ≤ s.buffer_.length → s.bytes_popped_ + len < 2 ^ 64) : s.pop64 len = s.pop len := by
  unfold pop64 pop
  by_cases hl : len > s.buffer_.length
  · rw [if_pos hl, if_pos hl]
  · rw [if_neg hl, if_neg hl, add64_of_lt (h (by omega))]

theorem push64_closed (s : ByteStream) (d : List Byte) : (s.push64 d).closed_ = s.closed_ := by
  unfold push64
  dsimp only
  split_ifs <;> rfl

end ByteStream

theorem containedIn64_eq {hi a : Nat} {d : List Byte} (hhi : hi < 2 ^ 64)
    (ha : a + d.length < 2 ^ 64) : ∀ (m : Segments),
    (∀ seg ∈ m, seg.1 + seg.2.length ≤ hi) → containedIn64 a d m = containedIn a d m
  | [], _ => rfl
  | seg :: rest, hm => by
    have ih := containedIn64_eq hhi ha rest fun s hs => hm s (List.mem_cons_of_mem _ hs)
    have hs := hm seg (List.mem_cons_self _ _)
    unfold containedIn64 containedIn at ih ⊢
    rw [List.any_cons, List.any_cons, ih, add64_of_lt ha, add64_of_lt (by omega)]

/-- The loop of lines 94-103 on 64-bit words computes the same string and
leaves the same entries as in exact arithmetic when the range and every
following block end at or before `hi < 2^64`; the running count, which may
differ, does not influence them. -/
theorem mergeNext64_eq {hi fi : Nat} (hhi : hi < 2 ^ 64) : ∀ (m : Segments) (data : List Byte)
    (un un1 : Nat), (∀ seg ∈ m, seg.1 + seg.2.length ≤ hi) → fi + data.length ≤ hi →
    ∃ u, mergeNext64 fi data un m =
      some ((mergeNext fi data un1 m).1, u, (mergeNext fi data un1 m).2.2)
  | [], data, un, un1, _, _ => ⟨un, rfl⟩
  | nx :: rest, data, un, un1, hm, hd => by
    have hnx := hm nx (List.mem_cons_self _ _)
    have hrest : ∀ seg ∈ rest, seg.1 + seg.2.length ≤ hi :=
      fun s hs => hm s (List.mem_cons_of_mem _ hs)
    simp only [mergeNext64, mergeNext]
    rw [add64_of_lt (lt_of_le_of_lt hd hhi), add64_of_lt (lt_of_le_of_lt hnx hhi)]
    by_cases hc : fi + data.length ≥ nx.1
    · rw [if_pos hc, if_pos hc]
      by_cases he : fi + data.length < nx.1 + nx.2.length
      · rw [if_pos he, if_pos he, sub64_of_le hc (lt_of_le_of_lt hd hhi),
          substrFrom_of_le (by omega), Option.map_some', Option.some_bind]
        exact mergeNext64_eq hhi rest _ _ _ hrest (by
          rw [List.length_append, List.length_drop]; omega)
      · rw [if_neg he, if_neg he, Option.some_bind]
        exact mergeNext64_eq hhi rest _ _ _ hrest hd
    · rw [if_neg hc, if_neg hc]
      exact ⟨un, rfl⟩

/-- Lines 76-91 on 64-bit words leave the same map, `first_index` and `data`
as in exact arithmetic when every block ends below `2^64` and the containment
scan has found nothing. -/
theorem mergePrev64_eq {hi a : Nat} {d : List Byte} {segs : Segments} (un un1 : Nat)
    (hhi : hi < 2 ^ 64) (hm : ∀ seg ∈ segs, seg.1 + seg.2.length ≤ hi)
    (hc : containedIn a d segs = false) :
    ∃ u, mergePrev64 a d un segs =
      some ((mergePrev a d un1 segs).1, (mergePrev a d un1 segs).2.1,
        (mergePrev a d un1 segs).2.2.1, u) := by
  unfold mergePrev64 mergePrev
  dsimp only
  cases hp : (segs.takeWhile fun seg => decide (seg.1 < a)).getLast? with
  | none => exact ⟨un, rfl⟩
  | some prev =>
    dsimp only
    have hmem : prev ∈ segs :=
      (List.takeWhile_sublist _).subset (List.mem_of_getLast?_eq_some hp)
    have hend := hm prev hmem
    rw [add64_of_lt (lt_of_le_of_lt hend hhi)]
    by_cases hov : prev.1 + prev.2.length > a
    · rw [if_pos hov, if_pos hov]
      have hlt := overlap_size_lt_of_prev hc hp hov
      rw [sub64_of_le (le_of_lt hov) (lt_of_le_of_lt hend hhi),
        substrFrom_of_le (le_of_lt hlt), Option.map_some']
      exact ⟨_, rfl⟩
    · rw [if_neg hov, if_neg hov]
      exact ⟨un, rfl⟩

/-- After lines 76-91 every block, and the range as it stands at line 92, still
ends at or before `hi`. -/
theorem mergePrev_ends {hi a : Nat} {d : List Byte} {segs : Segments} (un : Nat)
    (hm : ∀ seg ∈ segs, seg.1 + seg.2.length ≤ hi) (hd : a + d.length ≤ hi)
    (hc : containedIn a d segs = false) :
    (∀ seg ∈ (mergePrev a d un segs).1, seg.1 + seg.2.length ≤ hi) ∧
    (mergePrev a d un segs).2.1 + (mergePrev a d un segs).2.2.1.length ≤ hi := by
  unfold mergePrev
  dsimp only
  cases hp : (segs.takeWhile fun seg => decide (seg.1 < a)).getLast? with
  | none => exact ⟨hm, hd⟩
  | some prev =>
    dsimp only
    by_cases hov : prev.1 + prev.2.length > a
    · rw [if_pos hov]
      have hlt := overlap_size_lt_of_prev hc hp hov
      have hlen : prev.1 + (prev.2 ++ d.drop (prev.1 + prev.2.length - a)).length ≤ hi := by
        rw [List.length_append, List.length_drop]; omega
      refine ⟨?_, hlen⟩
      intro seg hs
      rcases List.mem_append.mp hs with h1 | h1
      · exact hm seg ((List.takeWhile_sublist _).subset ((List.dropLast_sublist _).subset h1))
      · rcases List.mem_cons.mp h1 with h2 | h2
        · subst h2; exact hlen
        · exact hm seg ((List.dropWhile_sublist _).subset h2)
    · rw [if_neg hov]
      exact ⟨hm, hd⟩

/-- Lines 75-106 on 64-bit words leave the same map as in exact arithmetic when
the range and every block end at or before `hi < 2^64`. -/
theorem mergeStore64_eq {hi a : Nat} {d : List Byte} {segs : Segments} (un un1 : Nat)
    (hhi : hi < 2 ^ 64) (hm : ∀ seg ∈ segs, seg.1 + seg.2.length ≤ hi) (hd : a + d.length ≤ hi)
    (hc : containedIn a d segs = false) :
    ∃ u, mergeStore64 a d un segs = some ((mergeStore a d un1 segs).1, u) := by
  obtain ⟨u, h1⟩ := mergePrev64_eq un un1 hhi hm hc
  obtain ⟨e1, e2⟩ := mergePrev_ends un1 hm hd hc
  obtain ⟨v, h2⟩ := mergeNext64_eq hhi
    ((mergePrev a d un1 segs).1.dropWhile fun seg => decide (seg.1 ≤ (mergePrev a d un1 segs).2.1))
    (mergePrev a d un1 segs).2.2.1 u (mergePrev a d un1 segs).2.2.2
    (fun seg hs => e1 seg ((List.dropWhile_sublist _).subset hs)) e2
  unfold mergeStore64 mergeStore
  rw [h1, Option.some_bind]
  dsimp only
  rw [h2, Option.map_some']
  exact ⟨v, rfl⟩

theorem ByteStream.push_pushed_le (s : ByteStream) (d : List Byte) :
    (s.push d).bytes_pushed_ ≤ s.bytes_pushed_ + d.length := by
  unfold ByteStream.push
  dsimp only
  split_ifs
  · omega
  · dsimp only
    omega
  · omega

/-- The flush loop on 64-bit words is the flush loop in exact arithmetic when
every block ends at or before `hi < 2^64`, the stream has been written no
further than `next_index_`, and the running count covers the blocks. -/
theorem flush64_eq {hi : Nat} (hhi : hi < 2 ^ 64) : ∀ (m : Segments) (out : ByteStream)
    (next un : Nat), (∀ seg ∈ m, seg.1 + seg.2.length ≤ hi) → out.bytes_pushed_ ≤ next →
    sumSizes m ≤ un → un < 2 ^ 64 → flush64 out next un m = flush out next un m
  | [], _, _, _, _, _, _, _ => rfl
  | seg :: rest, out, next, un, hm, hp, hs, hu => by
    have hseg := hm seg (List.mem_cons_self _ _)
    simp only [sumSizes] at hs
    simp only [flush64, flush]
    by_cases he : seg.1 = next
    · rw [if_pos he, if_pos he, ByteStream.push64_eq (by omega), add64_of_lt (by omega),
        sub64_of_le (by omega) hu]
      have := ByteStream.push_pushed_le out seg.2
      exact flush64_eq hhi rest _ _ _ (fun s h => hm s (List.mem_cons_of_mem _ h))
        (by omega) (by omega) (by omega)
    · rw [if_neg he, if_neg he]

namespace Reassembler

theorem store64_eq {r : Reassembler} (h : r.Inv)
    (hhi : r.next_index_ + r.output_.available_capacity < 2 ^ 64) {a : Nat} {d : List Byte}
    (ha : r.next_index_ ≤ a) (hpos : 0 < d.length)
    (hd : a + d.length ≤ r.next_index_ + r.output_.available_capacity) :
    store64 r a d = some (store r a d) := by
  have hm : ∀ seg ∈ r.segments_,
      seg.1 + seg.2.length ≤ r.next_index_ + r.output_.available_capacity :=
    fun seg hs => (SegsIn.of_mem _ h.segs hs).2.2
  have hs0 : SegsIn r.next_index_ (r.next_index_ + r.output_.available_capacity) r.segments_ :=
    SegsIn.mono _ h.segs (Nat.le_succ _) le_rfl
  unfold store64 store
  rw [containedIn64_eq hhi (lt_of_le_of_lt hd hhi) _ hm]
  by_cases hc : containedIn a d r.segments_ = true
  · rw [if_pos hc, if_pos hc]
  · rw [if_neg hc, if_neg hc]
    rw [Bool.not_eq_true] at hc
    obtain ⟨u, h1⟩ := mergeStore64_eq r.unassembled_bytes_ r.unassembled_bytes_ hhi hm hd hc
    obtain ⟨m1, _, _⟩ := mergeRef_spec hpos hd _ _ hs0 ha hc
    have hms := mergeStore_eq_mergeRef d r.unassembled_bytes_ _ _ hs0 (a := a)
    have hsum := sumSizes_le_sub m1
    rw [h1, Option.map_some']
    dsimp only
    rw [hms, sum64_eq (by omega),
      flush64_eq hhi _ _ _ _ (fun seg hs => (SegsIn.of_mem _ m1 hs).2.2) h.ahead le_rfl (by omega)]

theorem insertRight64_eq {r : Reassembler} (h : r.Inv)
    (hhi : r.next_index_ + r.output_.available_capacity < 2 ^ 64) {a : Nat} {d : List Byte}
    (ha : r.next_index_ ≤ a) (hd : a + d.length < 2 ^ 64) :
    insertRight64 r (r.next_index_ + r.output_.available_capacity) a d =
      some (insertRight r (r.next_index_ + r.output_.available_capacity) a d) := by
  unfold insertRight64 insertRight
  by_cases h1 : a ≥ r.next_index_ + r.output_.available_capacity
  · rw [if_pos h1, if_pos h1]
  · rw [if_neg h1, if_neg h1, add64_of_lt hd, sub64_of_le (by omega) hhi]
    dsimp only
    by_cases h2 : a + d.length > r.next_index_ + r.output_.available_capacity
    · rw [if_pos h2]
      by_cases h3 : (d.take (r.next_index_ + r.output_.available_capacity - a)).isEmpty = true
      · rw [if_pos h3, if_pos h3]
      · rw [if_neg h3, if_neg h3]
        have hpos : 0 < (d.take (r.next_index_ + r.output_.available_capacity - a)).length := by
          rw [List.isEmpty_iff] at h3
          exact List.length_pos.mpr h3
        exact store64_eq h hhi ha hpos (by rw [List.length_take]; omega)
    · rw [if_neg h2]
      by_cases h3 : d.isEmpty = true
      · rw [if_pos h3, if_pos h3]
      · rw [if_neg h3, if_neg h3]
        have hpos : 0 < d.length := by
          rw [List.isEmpty_iff] at h3
          exact List.length_pos.mpr h3
        exact store64_eq h hhi ha hpos (by omega)

theorem markEof64_eq (r : Reassembler) {fi : Nat} {data : List Byte} (l : Bool)
    (hin : fi + data.length < 2 ^ 64) : markEof64 r fi data l = markEof r fi data l := by
  unfold markEof64 markEof
  rw [add64_of_lt hin]

/-- On a state that satisfies the invariant and whose window ends below `2^64`,
and for a range that ends below `2^64`, the 64-bit `insert` throws nothing and
returns the state computed in exact arithmetic. -/
theorem insert64_eq {r : Reassembler} (h : r.Inv)
    (hhi : r.next_index_ + r.output_.available_capacity < 2 ^ 64) {fi : Nat} {data : List Byte}
    (l : Bool) (hin : fi + data.length < 2 ^ 64) :
    insert64 r fi data l = some (insert r fi data l) := by
  have hm := h.markEof fi data l
  have hhi1 : (markEof r fi data l).next_index_ +
      (markEof r fi data l).output_.available_capacity < 2 ^ 64 := by
    rw [markEof_next, markEof_output]; exact hhi
  unfold insert64 insert
  rw [markEof64_eq r l hin]
  dsimp only
  rw [add64_of_lt hhi1, add64_of_lt hin]
  by_cases h1 : fi < (markEof r fi data l).next_index_
  · rw [if_pos h1, if_pos h1]
    by_cases h2 : fi + data.length ≤ (markEof r fi data l).next_index_
    · rw [if_pos h2, if_pos h2]
    · rw [if_neg h2, if_neg h2, sub64_of_le (le_of_lt h1) (by omega),
        substrFrom_of_le (by omega), Option.some_bind]
      exact insertRight64_eq hm hhi1 le_rfl (by rw [List.length_drop]; omega)
  · rw [if_neg h1, if_neg h1]
    exact insertRight64_eq hm hhi1 (by omega) hin

end Reassembler

/-! ## Runs of the 64-bit program below `2^64` -/

theorem ByteStream.push_capacity (s : ByteStream) (d : List Byte) :
    (s.push d).capacity_ = s.capacity_ := by
  unfold ByteStream.push
  dsimp only
  split_ifs <;> rfl

theorem flush_capacity : ∀ (m : Segments) (out : ByteStream) (next un : Nat),
    (flush out next un m).1.capacity_ = out.capacity_
  | [], _, _, _ => rfl
  | seg :: rest, out, next, un => by
    simp only [flush]
    split_ifs
    · rw [flush_capacity rest, ByteStream.push_capacity]
    · rfl

namespace Reassembler

theorem closeIfEq_capacity (r : Reassembler) :
    (closeIfEq r).output_.capacity_ = r.output_.capacity_ := by
  rcases closeIfEq_cases r with e | e <;> rw [e]
  rfl

theorem closeIfGe_capacity (r : Reassembler) :
    (closeIfGe r).output_.capacity_ = r.output_.capacity_ := by
  rcases closeIfGe_cases r with e | e <;> rw [e]
  rfl

theorem insert_capacity (r : Reassembler) (fi : Nat) (data : List Byte) (l : Bool) :
    (insert r fi data l).output_.capacity_ = r.output_.capacity_ := by
  rw [insert_eq]
  split_ifs
  · rw [closeIfEq_capacity, markEof_output]
  · rw [closeIfEq_capacity, markEof_output]
  · rw [closeIfGe_capacity, markEof_output]
  · unfold store
    split_ifs
    · rw [closeIfGe_capacity, markEof_output]
    · rw [closeIfGe_capacity]
      simp only [markEof_output]
      exact flush_capacity _ _ _ _

end Reassembler

/-- A run of the 64-bit program below `2^64` is a run in exact arithmetic: its
state is reachable there, the capacity is the one given at construction, and
no index from `2^64 - 1 - capacity` on is known to the Reassembler. -/
theorem Reachable64.reachable {capacity : Nat} {r : Reassembler} (h : Reachable64 capacity r) :
    Reachable r ∧ r.output_.capacity_ = capacity ∧ capacity < 2 ^ 64 ∧
    ∀ i, 2 ^ 64 - 1 - capacity ≤ i → ¬ r.Covered i := by
  induction h with
  | init hc =>
    refine ⟨Reachable.init capacity, rfl, hc, ?_⟩
    rintro i _ (h1 | h1)
    · exact absurd h1 (Nat.not_lt_zero _)
    · simp [Reassembler.new, byteAt] at h1
  | @insert r r1 fi data l _ hb he ih =>
    obtain ⟨hr, hcap, hc, hcov⟩ := ih
    have hinv := hr.inv
    have hnext : r.next_index_ ≤ 2 ^ 64 - 1 - capacity := by
      by_contra hlt
      exact hcov _ le_rfl (Or.inl (by omega))
    have hav := ByteStream.available_capacity_of_inv hinv.stream
    rw [Reassembler.insert64_eq hinv (by omega) l (by omega)] at he
    have he1 : r.insert fi data l = r1 := Option.some.inj he
    subst he1
    refine ⟨Reachable.insert fi data l hr, by rw [Reassembler.insert_capacity, hcap], hc, ?_⟩
    intro i hi hci
    rcases Reassembler.covered_insert_rev hinv fi data l hci with h1 | h1
    · exact hcov i hi h1
    · have := (Reassembler.trim_range_iff r fi data i).mp h1
      omega
  | @pop r len _ ih =>
    obtain ⟨hr, hcap, hc, hcov⟩ := ih
    have hinv := hr.inv
    have hnext : r.next_index_ ≤ 2 ^ 64 - 1 - capacity := by
      by_contra hlt
      exact hcov _ le_rfl (Or.inl (by omega))
    have hst := hinv.stream.1
    have hah := hinv.ahead
    have hp : r.pop64 len = r.pop len := by
      unfold Reassembler.pop64 Reassembler.pop
      rw [ByteStream.pop64_eq (by intro hl; omega)]
    rw [hp]
    refine ⟨Reachable.pop len hr, ?_, hc, ?_⟩
    · rw [← hcap]
      unfold Reassembler.pop ByteStream.pop
      dsimp only
      split_ifs <;> rfl
    · intro i hi hci
      exact hcov i hi hci

/-- In a run below `2^64` the window ends below `2^64`. -/
theorem Reachable64.window_lt {capacity : Nat} {r : Reassembler} (h : Reachable64 capacity r) :
    r.next_index_ + r.output_.available_capacity < 2 ^ 64 := by
  obtain ⟨hr, hcap, hc, hcov⟩ := h.reachable
  have hnext : r.next_index_ ≤ 2 ^ 64 - 1 - capacity := by
    by_contra hlt
    exact hcov _ le_rfl (Or.inl (by omega))
  have hav := ByteStream.available_capacity_of_inv hr.inv.stream
  omega

/-- In a run below `2^64` the 64-bit `insert` throws nothing and returns the
state computed in exact arithmetic. -/
theorem Reachable64.insert64_exact {capacity : Nat} {r : Reassembler} (h : Reachable64 capacity r)
    (fi : Nat) (data : List Byte) (l : Bool) (hb : fi + data.length + capacity < 2 ^ 64) :
    r.insert64 fi data l = some (r.insert fi data l) :=
  Reassembler.insert64_eq h.reachable.1.inv h.window_lt l (by omega)

/-! ## Closing the stream, on 64-bit words -/

theorem flush64_closed : ∀ (m : Segments) (out : ByteStream) (next un : Nat),
    (flush64 out next un m).1.closed_ = out.closed_
  | [], _, _, _ => rfl
  | seg :: rest, out, next, un => by
    simp only [flush64]
    split_ifs
    · rw [flush64_closed rest, ByteStream.push64_closed]
    · rfl

namespace Reassembler

theorem markEof64_output (r : Reassembler) (fi : Nat) (data : List Byte) (l : Bool) :
    (markEof64 r fi data l).output_ = r.output_ := by
  unfold markEof64; split_ifs <;> rfl

theorem markEof64_eof_received (r : Reassembler) (fi : Nat) (data : List Byte) (l : Bool) :
    (markEof64 r fi data l).eof_received_ = (l || r.eof_received_) := by
  unfold markEof64
  cases l <;> simp

theorem store64_closure_form {r r1 : Reassembler} {a : Nat} {d : List Byte}
    (h : store64 r a d = some r1) :
    ∃ X : Reassembler, (r1 = closeIfEq X ∨ r1 = closeIfGe X) ∧
      X.output_.closed_ = r.output_.closed_ ∧ X.eof_received_ = r.eof_received_ := by
  unfold store64 at h
  split_ifs at h
  · exact ⟨r, Or.inr (Option.some.inj h).symm, rfl, rfl⟩
  · cases hm : mergeStore64 a d r.unassembled_bytes_ r.segments_ with
    | none => rw [hm] at h; exact absurd h (by simp)
    | some ms =>
      rw [hm, Option.map_some'] at h
      exact ⟨_, Or.inr (Option.some.inj h).symm, flush64_closed _ _ _ _, rfl⟩

theorem insertRight64_closure_form {r r1 : Reassembler} {we a : Nat} {d : List Byte}
    (h : insertRight64 r we a d = some r1) :
    ∃ X : Reassembler, (r1 = closeIfEq X ∨ r1 = closeIfGe X) ∧
      X.output_.closed_ = r.output_.closed_ ∧ X.eof_received_ = r.eof_received_ := by
  unfold insertRight64 at h
  dsimp only at h
  split_ifs at h
  · exact ⟨r, Or.inl (Option.some.inj h).symm, rfl, rfl⟩
  · exact ⟨r, Or.inr (Option.some.inj h).symm, rfl, rfl⟩
  · exact store64_closure_form h
  · exact ⟨r, Or.inr (Option.some.inj h).symm, rfl, rfl⟩
  · exact store64_closure_form h

/-- Every path of the 64-bit `insert` that returns ends in one closure test,
applied to a state whose stream is closed exactly if it was closed before the
call and whose `eof_received_` is set exactly if it was set before or the call
has `is_last_substring`. -/
theorem insert64_closure_form {r r1 : Reassembler} {fi : Nat} {data : List Byte} {l : Bool}
    (h : insert64 r fi data l = some r1) :
    ∃ X : Reassembler, (r1 = closeIfEq X ∨ r1 = closeIfGe X) ∧
      X.output_.closed_ = r.output_.closed_ ∧ X.eof_received_ = (l || r.eof_received_) := by
  unfold insert64 at h
  dsimp only at h
  split_ifs at h
  · exact ⟨_, Or.inl (Option.some.inj h).symm, by rw [markEof64_output],
      markEof64_eof_received r fi data l⟩
  · cases hs : substrFrom data (sub64 (markEof64 r fi data l).next_index_ fi) with
    | none => rw [hs] at h; exact absurd h (by simp)
    | some data1 =>
      rw [hs, Option.some_bind] at h
      obtain ⟨X, h1, h2, h3⟩ := insertRight64_closure_form h
      exact ⟨X, h1, by rw [h2, markEof64_output], by rw [h3, markEof64_eof_received]⟩
  · obtain ⟨X, h1, h2, h3⟩ := insertRight64_closure_form h
    exact ⟨X, h1, by rw [h2, markEof64_output], by rw [h3, markEof64_eof_received]⟩

/-- A run of the 64-bit program whose `insert` calls all have
`is_last_substring = false` keeps `eof_received_` unset and the stream open. -/
theorem run64_open_of_no_last : ∀ (ops : List Op) (r r1 : Reassembler),
    r.eof_received_ = false → r.output_.closed_ = false →
    (∀ op ∈ ops, op.is_last_substring = false) →
    r.run64 ops = some r1 → r1.eof_received_ = false ∧ r1.output_.closed_ = false
  | [], r, r1, h1, h2, _, hrun => by
    have e : r = r1 := Option.some.inj hrun
    subst e
    exact ⟨h1, h2⟩
  | op :: ops, r, r1, h1, h2, hl, hrun => by
    simp only [run64] at hrun
    cases hs : r.step64 op with
    | none => rw [hs] at hrun; exact absurd hrun (by simp)
    | some r2 =>
      rw [hs, Option.some_bind] at hrun
      have hrest : ∀ op ∈ ops, op.is_last_substring = false :=
        fun o hm => hl o (List.mem_cons_of_mem _ hm)
      cases op with
      | pop len =>
        have e : r.pop64 len = r2 := Option.some.inj hs
        subst e
        have hc : (r.pop64 len).output_.closed_ = false := by
          unfold pop64 ByteStream.pop64 ByteStream.set_error
          dsimp only
          split_ifs <;> exact h2
        exact run64_open_of_no_last ops (r.pop64 len) r1 h1 hc hrest hrun
      | insert fi data l =>
        have hlf : l = false := hl (Op.insert fi data l) (List.mem_cons_self _ _)
        subst hlf
        obtain ⟨X, hform, hX1, hX2⟩ := insert64_closure_form (show insert64 r fi data false = some r2
          from hs)
        rw [h2] at hX1
        rw [h1] at hX2
        have hX2f : X.eof_received_ = false := by rw [hX2]; rfl
        have he : r2.eof_received_ = false := by
          rcases hform with e | e
          · rw [e, (closeIfEq_eof X).1, hX2f]
          · rw [e, (closeIfGe_eof X).1, hX2f]
        have ho : r2.output_.closed_ = false := by
          cases hx : r2.output_.closed_ with
          | false => rfl
          | true =>
            exfalso
            rcases hform with e | e
            · rw [e] at hx he
              rw [(closeIfEq_newly_closed hX1 hx).1] at he
              exact absurd he (by simp)
            · rw [e] at hx he
              rw [(closeIfGe_newly_closed hX1 hx).1] at he
              exact absurd he (by simp)
        exact run64_open_of_no_last ops _ r1 he ho hrest hrun

end Reassembler

/-- C12.  On the 64-bit program, in every state (reachable or not) and for
every input: when an `insert` call returns and has turned the stream from open
to closed, the state at return has `eof_received_` set,
`count_bytes_pending() = 0` and `next_index_ ≥ eof_index_` (the `eof_index_`
stored by line 21, a sum on `uint64_t`).  A run on a fresh Reassembler of any
capacity, made of reader pops and of `insert` calls none of which has
`is_last_substring` set, never ends with the stream closed.  And in a run
below `2^64` every `insert` call returns. -/
theorem never_closed_early64 :
    (∀ (r r1 : Reassembler) (first_index : Nat) (data : List Byte) (is_last_substring : Bool),
      r.insert64 first_index data is_last_substring = some r1 →
      r.output_.is_closed = false → r1.output_.is_closed = true →
      r1.eof_received_ = true ∧ r1.count_bytes_pending = 0 ∧ r1.eof_index_ ≤ r1.next_index_) ∧
    (∀ (capacity : Nat) (ops : List Op) (r1 : Reassembler),
      (∀ op ∈ ops, op.is_last_substring = false) →
      (Reassembler.new (ByteStream.new capacity)).run64 ops = some r1 →
      r1.output_.is_closed = false) ∧
    (∀ (capacity : Nat) (r : Reassembler) (first_index : Nat) (data : List Byte)
      (is_last_substring : Bool), Reachable64 capacity r →
      first_index + data.length + capacity < 2 ^ 64 →
      (r.insert64 first_index data is_last_substring).isSome = true) := by
  refine ⟨?_, ?_, ?_⟩
  · intro r r1 fi data l he h0 h1
    obtain ⟨X, hform, hX, _⟩ := Reassembler.insert64_closure_form he
    have h0c : r.output_.closed_ = false := h0
    rw [h0c] at hX
    have h1c : r1.output_.closed_ = true := h1
    rcases hform with e | e
    · rw [e] at h1c ⊢
      exact Reassembler.closeIfEq_newly_closed hX h1c
    · rw [e] at h1c ⊢
      exact Reassembler.closeIfGe_newly_closed hX h1c
  · intro capacity ops r1 hl hrun
    exact (Reassembler.run64_open_of_no_last ops _ r1 rfl rfl hl hrun).2
  · intro capacity r fi data l hr hb
    rw [hr.insert64_exact fi data l hb]
    rfl

/-- C12 at concrete inputs.  Capacity 10: `insert(2^64 - 1, "a", true)` stores
`eof_index_ = 0` (the sum of line 21 wraps), is discarded right of the window
and closes the stream through the test of line 48, with the three conditions
met at return.  Capacity 5: `insert(3, "de", false)`, `pop(0)`,
`insert(0, "abc", false)` leaves the stream open with "abcde" written. -/
theorem never_closed_early64_witness :
    ((Reassembler.new (ByteStream.new 10)).insert64 (2 ^ 64 - 1) ['a'] true).map
        (fun r1 => (r1.output_.is_closed, r1.eof_index_, r1.next_index_)) = some (true, 0, 0) ∧
    ({ Reassembler.new (ByteStream.new 10) with
        output_ := (ByteStream.new 10).close, eof_received_ := true }.eof_received_ = true ∧
     { Reassembler.new (ByteStream.new 10) with
        output_ := (ByteStream.new 10).close, eof_received_ := true }.count_bytes_pending = 0 ∧
     { Reassembler.new (ByteStream.new 10) with
        output_ := (ByteStream.new 10).close, eof_received_ := true }.eof_index_ ≤
      { Reassembler.new (ByteStream.new 10) with
        output_ := (ByteStream.new 10).close, eof_received_ := true }.next_index_) ∧
    ({ Reassembler.new (ByteStream.new 5) with
        output_ := { ByteStream.new 5 with buffer_ := ['a', 'b', 'c', 'd', 'e'],
                                           bytes_pushed_ := 5 },
        next_index_ := 5 } : Reassembler).output_.is_closed = false :=
  ⟨by decide,
   never_closed_early64.1 (Reassembler.new (ByteStream.new 10)) _ (2 ^ 64 - 1) ['a'] true
      (by decide) (by decide) (by decide),
   never_closed_early64.2.1 5 [.insert 3 ['d', 'e'] false, .pop 0, .insert 0 ['a', 'b', 'c'] false]
      _ (by decide) (by decide)⟩

/-! ## The memory bound, in-order inserts, the pending map and coverage on the 64-bit program -/

/-- C7 fails as stated.  Capacity `2^64 - 1`, fresh Reassembler: the window is
`[0, 2^64 - 1)`.  In `insert(2^64 - 2, "ab", false)` the sum
`first_index + data.size()` of line 51 wraps to 0, the right trim is skipped,
and the byte 'b' is stored at index `2^64 - 1`, the end of the window. -/
theorem stored_beyond_window_at_wrap :
    (Reassembler.new (ByteStream.new (2 ^ 64 - 1))).next_index_ +
      (Reassembler.new (ByteStream.new (2 ^ 64 - 1))).output_.available_capacity = 2 ^ 64 - 1 ∧
    add64 (2 ^ 64 - 2) (['a', 'b'] : List Byte).length = 0 ∧
    ((Reassembler.new (ByteStream.new (2 ^ 64 - 1))).insert64 (2 ^ 64 - 2) ['a', 'b'] false).map
        (fun r1 => (r1.segments_, byteAt r1.segments_ (2 ^ 64 - 1)))
      = some ([(2 ^ 64 - 2, ['a', 'b'])], some 'b') := by
  decide

/-- C7, on runs below `2^64`.  In every state that the 64-bit program reaches
from construction with `capacity` through `insert` calls with
`first_index + len data + capacity < 2^64` and reader pops, the bytes pending
in the Reassembler and the bytes buffered in the stream together fit the
capacity; and such an `insert` call returns a state in which no pending
segment holds a byte at or beyond `next_index_ + available_capacity()` as
computed when the call started. -/
theorem pending_within_capacity64 {capacity : Nat} {r : Reassembler}
    (hr : Reachable64 capacity r) (first_index : Nat) (data : List Byte)
    (is_last_substring : Bool) (hb : first_index + data.length + capacity < 2 ^ 64) :
    r.output_.capacity_ = capacity ∧
    r.count_bytes_pending + r.output_.bytes_buffered ≤ r.output_.capacity_ ∧
    ∃ r1, r.insert64 first_index data is_last_substring = some r1 ∧
      ∀ i, r.next_index_ + r.output_.available_capacity ≤ i → byteAt r1.segments_ i = none := by
  obtain ⟨hex, hcap, _, _⟩ := hr.reachable
  have h := pending_within_capacity hex first_index data is_last_substring
  exact ⟨hcap, h.1, _, hr.insert64_exact first_index data is_last_substring hb, h.2⟩

/-- C7 at a concrete state: capacity 4, `insert(2, "cdefg", false)` on a fresh
Reassembler keeps "cd" pending and nothing at index 4 or beyond. -/
theorem pending_within_capacity64_witness :
    Reachable64 4 (Reassembler.new (ByteStream.new 4)) ∧
    2 + (['c', 'd', 'e', 'f', 'g'] : List Byte).length + 4 < 2 ^ 64 ∧
    ((Reassembler.new (ByteStream.new 4)).insert64 2 ['c', 'd', 'e', 'f', 'g'] false).map
        (fun r1 => r1.segments_) = some [(2, ['c', 'd'])] ∧
    (Reassembler.new (ByteStream.new 4)).count_bytes_pending +
      (Reassembler.new (ByteStream.new 4)).output_.bytes_buffered ≤
        (Reassembler.new (ByteStream.new 4)).output_.capacity_ ∧
    ∃ r1, (Reassembler.new (ByteStream.new 4)).insert64 2 ['c', 'd', 'e', 'f', 'g'] false
        = some r1 ∧
      ∀ i, (Reassembler.new (ByteStream.new 4)).next_index_ +
          (Reassembler.new (ByteStream.new 4)).output_.available_capacity ≤ i →
        byteAt r1.segments_ i = none :=
  ⟨Reachable64.init (by decide), by decide, by decide,
   (pending_within_capacity64 (Reachable64.init (by decide)) 2 ['c', 'd', 'e', 'f', 'g'] false
      (by decide)).2⟩

/-- C8 fails as stated.  Capacity `2^64 - 1`: after `insert(0, "a", false)` and
`pop(1)` the stream is open, nothing is pending, `next_index_ = 1` and
`available_capacity() = 2^64 - 1`, so the slice of "b" that the claim has the
buffer gain on `insert(1, "b", false)` is "b".  The sum
`next_index_ + available_cap` of line 29 wraps to 0, the call is discarded by
line 46, and the buffer, `next_index_` and `bytes_pushed` stay as they were. -/
theorem in_order_insert_discarded_at_wrap :
    ((Reassembler.new (ByteStream.new (2 ^ 64 - 1))).run64
        [.insert 0 ['a'] false, .pop 1]).map
        (fun r => (r.output_.is_closed, r.segments_, r.next_index_))
      = some (false, [], 1) ∧
    ((Reassembler.new (ByteStream.new (2 ^ 64 - 1))).run64
        [.insert 0 ['a'] false, .pop 1]).map
        (fun r => (r.output_.available_capacity, r.output_.buffer_, r.output_.bytes_pushed_))
      = some (2 ^ 64 - 1, [], 1) ∧
    add64 1 (2 ^ 64 - 1) = 0 ∧
    ((['b'] : List Byte).drop (1 - 1)).take (2 ^ 64 - 1) = ['b'] ∧
    ((Reassembler.new (ByteStream.new (2 ^ 64 - 1))).run64
        [.insert 0 ['a'] false, .pop 1, .insert 1 ['b'] false]).map
        (fun r => (r.output_.buffer_, r.next_index_, r.output_.bytes_pushed_))
      = some ([], 1, 1) := by
  decide

/-- C8, on runs below `2^64`.  In a state that the 64-bit program reaches from
construction with `capacity` through `insert` calls with
`first_index + len data + capacity < 2^64` and reader pops, with an open stream
and no pending segment, such an `insert` call that starts at or before
`next_index_` returns, having appended to the buffer exactly the bytes of
`data` from offset `next_index_ - first_index` on, cut to
`available_capacity()` bytes; `next_index_` and `bytes_pushed` advance by the
number of bytes appended; nothing is pending before or after. -/
theorem in_order_insert64 {capacity : Nat} {r : Reassembler} (hr : Reachable64 capacity r)
    (hopen : r.output_.is_closed = false) (hnone : r.segments_ = [])
    (first_index : Nat) (data : List Byte) (is_last_substring : Bool)
    (hfi : first_index ≤ r.next_index_)
    (hb : first_index + data.length + capacity < 2 ^ 64) :
    ∃ r1, r.insert64 first_index data is_last_substring = some r1 ∧
      r1.output_.buffer_ =
        r.output_.buffer_ ++
          (data.drop (r.next_index_ - first_index)).take r.output_.available_capacity ∧
      r1.next_index_ =
        r.next_index_ +
          ((data.drop (r.next_index_ - first_index)).take r.output_.available_capacity).length ∧
      r1.output_.bytes_pushed =
        r.output_.bytes_pushed +
          ((data.drop (r.next_index_ - first_index)).take r.output_.available_capacity).length ∧
      r1.output_.bytes_popped = r.output_.bytes_popped ∧
      r.count_bytes_pending = 0 ∧
      r1.count_bytes_pending = 0 ∧
      r1.segments_ = [] :=
  ⟨_, hr.insert64_exact first_index data is_last_substring hb,
    in_order_insert hr.reachable.1 hopen hnone first_index data is_last_substring hfi⟩

/-- C8 on the scenarios of the specification, run on the 64-bit program.
Capacity 2: `insert(0, "ab")` on the fresh Reassembler gives `peek() = "ab"`;
`insert(2, "c", true)` is dropped while the window is full; after `pop(1)` the
same call is accepted (`peek() = "bc"`) and after popping the rest the stream
is finished.  Capacity 3: `insert(0, "abc")` then `insert(0, "ab")` leaves
"abc". -/
theorem in_order_insert64_witness :
    (Reachable64 2 (Reassembler.new (ByteStream.new 2)) ∧
     0 + (['a', 'b'] : List Byte).length + 2 < 2 ^ 64 ∧
     ∃ r1, (Reassembler.new (ByteStream.new 2)).insert64 0 ['a', 'b'] false = some r1 ∧
       r1.output_.buffer_ = [] ++ ((['a', 'b'] : List Byte).drop (0 - 0)).take 2) ∧
    ((Reassembler.new (ByteStream.new 2)).run64 [.insert 0 ['a', 'b'] false]).map
        (fun r => r.output_.peek) = some ['a', 'b'] ∧
    ((Reassembler.new (ByteStream.new 2)).run64
        [.insert 0 ['a', 'b'] false, .insert 2 ['c'] true]).map
        (fun r => (r.output_.peek, r.count_bytes_pending)) = some (['a', 'b'], 0) ∧
    ((Reassembler.new (ByteStream.new 2)).run64
        [.insert 0 ['a', 'b'] false, .insert 2 ['c'] true, .pop 1, .insert 2 ['c'] true]).map
        (fun r => r.output_.peek) = some ['b', 'c'] ∧
    ((Reassembler.new (ByteStream.new 2)).run64
        [.insert 0 ['a', 'b'] false, .insert 2 ['c'] true, .pop 1, .insert 2 ['c'] true,
         .pop 2]).map
        (fun r => r.output_.is_finished) = some true ∧
    ((Reassembler.new (ByteStream.new 3)).run64
        [.insert 0 ['a', 'b', 'c'] false, .insert 0 ['a', 'b'] false]).map
        (fun r => (r.output_.peek, r.count_bytes_pending)) = some (['a', 'b', 'c'], 0) :=
  ⟨⟨Reachable64.init (by decide), by decide,
    (in_order_insert64 (Reachable64.init (by decide)) rfl rfl 0 ['a', 'b'] false (Nat.le_refl 0)
      (by decide)).imp fun _ h => ⟨h.1, h.2.1⟩⟩,
   by decide, by decide, by decide, by decide, by decide⟩

/-- C16 fails as stated.  Capacity `2^64 - 1`, fresh Reassembler:
`insert(2^64 - 2, "ab", false)` is stored untrimmed (the sum of line 51 wraps),
and in the state at return the pending segment `(2^64 - 2, "ab")` ends at
`2^64`, beyond `next_index_ + available_capacity() = 2^64 - 1`; as a `uint64_t`
its end index is 0, below its start.  A following
`insert(2^64 - 4, "wxyz", false)` is stored untrimmed and unmerged as well (its
wrapped end defeats the tests of lines 51 and 94), and the two pending
segments both cover the indices `2^64 - 2` and `2^64 - 1`. -/
theorem segment_ends_beyond_window_at_wrap :
    ((Reassembler.new (ByteStream.new (2 ^ 64 - 1))).insert64 (2 ^ 64 - 2) ['a', 'b'] false).map
        (fun r1 => (r1.segments_, r1.next_index_ + r1.output_.available_capacity))
      = some ([(2 ^ 64 - 2, ['a', 'b'])], 2 ^ 64 - 1) ∧
    2 ^ 64 - 1 < (2 ^ 64 - 2) + (['a', 'b'] : List Byte).length ∧
    add64 (2 ^ 64 - 2) (['a', 'b'] : List Byte).length = 0 ∧
    ((Reassembler.new (ByteStream.new (2 ^ 64 - 1))).run64
        [.insert (2 ^ 64 - 2) ['a', 'b'] false,
         .insert (2 ^ 64 - 4) ['w', 'x', 'y', 'z'] false]).map (fun r => r.segments_)
      = some [(2 ^ 64 - 4, ['w', 'x', 'y', 'z']), (2 ^ 64 - 2, ['a', 'b'])] := by
  decide

/-- C16, on runs below `2^64`.  In every state that the 64-bit program reaches
from construction with `capacity` through `insert` calls with
`first_index + len data + capacity < 2^64` and reader pops, every pending
segment is non-empty, starts after `next_index_` and ends at or before
`next_index_ + available_capacity()`, a sum below `2^64`; and two distinct
pending segments cover disjoint index ranges. -/
theorem pending_segments_invariant64 {capacity : Nat} {r : Reassembler}
    (hr : Reachable64 capacity r) :
    r.next_index_ + r.output_.available_capacity < 2 ^ 64 ∧
    (∀ seg ∈ r.segments_, 0 < seg.2.length ∧ r.next_index_ ≤ seg.1 ∧ r.next_index_ < seg.1 ∧
      seg.1 + seg.2.length ≤ r.next_index_ + r.output_.available_capacity) ∧
    (∀ s1 ∈ r.segments_, ∀ s2 ∈ r.segments_, s1 ≠ s2 →
      s1.1 + s1.2.length ≤ s2.1 ∨ s2.1 + s2.2.length ≤ s1.1) :=
  ⟨hr.window_lt, pending_segments_invariant hr.reachable.1⟩

/-- C16 at a concrete state: capacity 4, `insert(1, "bcdefg")` is cut to the
window and `(1, "bcd")` is pending, with `next_index_ = 0` and
`available_capacity() = 4`. -/
theorem pending_segments_invariant64_witness :
    Reachable64 4 { Reassembler.new (ByteStream.new 4) with
        segments_ := [(1, ['b', 'c', 'd'])], unassembled_bytes_ := 3 } ∧
    (Reassembler.new (ByteStream.new 4)).insert64 1 ['b', 'c', 'd', 'e', 'f', 'g'] false =
      some { Reassembler.new (ByteStream.new 4) with
        segments_ := [(1, ['b', 'c', 'd'])], unassembled_bytes_ := 3 } ∧
    ∀ seg ∈ ([(1, ['b', 'c', 'd'])] : Segments),
      0 < seg.2.length ∧ 0 ≤ seg.1 ∧ 0 < seg.1 ∧ seg.1 + seg.2.length ≤ 0 + 4 :=
  ⟨Reachable64.insert 1 ['b', 'c', 'd', 'e', 'f', 'g'] false (Reachable64.init (by decide))
      (by decide) (by decide),
   by decide,
   (pending_segments_invariant64
      (Reachable64.insert 1 ['b', 'c', 'd', 'e', 'f', 'g'] false (Reachable64.init (by decide))
        (by decide)
        (by decide : (Reassembler.new (ByteStream.new 4)).insert64 1
            ['b', 'c', 'd', 'e', 'f', 'g'] false =
          some { Reassembler.new (ByteStream.new 4) with
            segments_ := [(1, ['b', 'c', 'd'])], unassembled_bytes_ := 3 }))).2.1⟩

/-- C20 fails as stated.  Capacity `2^64 - 1`.  On the fresh Reassembler the
window is `[0, 2^64 - 1)` and nothing is known; `insert(2^64 - 2, "ab", false)`
makes index `2^64 - 1`, which is outside the window, known (the sum of line 51
wraps and the right trim is skipped).  After `insert(0, "a", false)` and
`pop(1)` the window is `[1, 2^64)` and index 1 is not known;
`insert(1, "b", false)` leaves it unknown (the sum of line 29 wraps to 0 and
line 46 discards the call). -/
theorem coverage_differs_at_wrap :
    ((Reassembler.new (ByteStream.new (2 ^ 64 - 1))).next_index_ = 0 ∧
     (Reassembler.new (ByteStream.new (2 ^ 64 - 1))).segments_ = [] ∧
     (Reassembler.new (ByteStream.new (2 ^ 64 - 1))).next_index_ +
       (Reassembler.new (ByteStream.new (2 ^ 64 - 1))).output_.available_capacity = 2 ^ 64 - 1 ∧
     ((Reassembler.new (ByteStream.new (2 ^ 64 - 1))).insert64 (2 ^ 64 - 2) ['a', 'b'] false).map
        (fun r1 => byteAt r1.segments_ (2 ^ 64 - 1)) = some (some 'b')) ∧
    (((Reassembler.new (ByteStream.new (2 ^ 64 - 1))).run64
        [.insert 0 ['a'] false, .pop 1]).map
        (fun r => (r.next_index_, r.segments_, r.next_index_ + r.output_.available_capacity))
      = some (1, [], 2 ^ 64) ∧
     ((Reassembler.new (ByteStream.new (2 ^ 64 - 1))).run64
        [.insert 0 ['a'] false, .pop 1, .insert 1 ['b'] false]).map
        (fun r => (r.next_index_, r.segments_)) = some (1, [])) := by
  decide

/-- C20, on runs below `2^64`.  With `K(state)` the indices below `next_index_`
together with the indices held by pending segments (`Covered`): in a state
that the 64-bit program reaches from construction with `capacity` through
`insert` calls with `first_index + len data + capacity < 2^64` and reader pops,
such an `insert` call returns; `K` after it is `K` before it united with the
part of `[first_index, first_index + len data)` inside the window
`[next_index_, next_index_ + available_capacity())` computed before the call;
and the new `next_index_` is the smallest index at or after the old one that
is not in that union. -/
theorem coverage_exact64 {capacity : Nat} {r : Reassembler} (hr : Reachable64 capacity r)
    (first_index : Nat) (data : List Byte) (is_last_substring : Bool)
    (hb : first_index + data.length + capacity < 2 ^ 64) :
    ∃ r1, r.insert64 first_index data is_last_substring = some r1 ∧
      (∀ i, r1.Covered i ↔
        (r.Covered i ∨ (first_index ≤ i ∧ i < first_index + data.length ∧ r.next_index_ ≤ i ∧
          i < r.next_index_ + r.output_.available_capacity))) ∧
      r.next_index_ ≤ r1.next_index_ ∧
      ¬ (r.Covered r1.next_index_ ∨
          (first_index ≤ r1.next_index_ ∧ r1.next_index_ < first_index + data.length ∧
            r.next_index_ ≤ r1.next_index_ ∧
            r1.next_index_ < r.next_index_ + r.output_.available_capacity)) ∧
      (∀ j, r.next_index_ ≤ j → j < r1.next_index_ →
        (r.Covered j ∨ (first_index ≤ j ∧ j < first_index + data.length ∧ r.next_index_ ≤ j ∧
          j < r.next_index_ + r.output_.available_capacity))) :=
  ⟨_, hr.insert64_exact first_index data is_last_substring hb,
    coverage_exact hr.reachable.1 first_index data is_last_substring⟩

/-- C20 at a concrete state: capacity 4 with `(2, "c")` pending;
`insert(0, "ab", false)` covers `[0, 2)`, reaches the pending byte and moves
`next_index_` to 3, and index 3 is not covered afterwards. -/
theorem coverage_exact64_witness :
    Reachable64 4 ((Reassembler.new (ByteStream.new 4)).insert 2 ['c'] false) ∧
    0 + (['a', 'b'] : List Byte).length + 4 < 2 ^ 64 ∧
    (((Reassembler.new (ByteStream.new 4)).insert 2 ['c'] false).insert64 0 ['a', 'b'] false).map
        (fun r1 => (r1.next_index_, r1.segments_)) = some (3, []) ∧
    ∃ r1, ((Reassembler.new (ByteStream.new 4)).insert 2 ['c'] false).insert64 0 ['a', 'b'] false
        = some r1 ∧
      (r1.Covered 1 ↔
        (((Reassembler.new (ByteStream.new 4)).insert 2 ['c'] false).Covered 1 ∨
          (0 ≤ 1 ∧ 1 < 0 + (['a', 'b'] : List Byte).length ∧
            ((Reassembler.new (ByteStream.new 4)).insert 2 ['c'] false).next_index_ ≤ 1 ∧
            1 < ((Reassembler.new (ByteStream.new 4)).insert 2 ['c'] false).next_index_ +
              ((Reassembler.new (ByteStream.new 4)).insert 2 ['c'] false).output_.available_capacity))) ∧
      ((Reassembler.new (ByteStream.new 4)).insert 2 ['c'] false).next_index_ ≤ r1.next_index_ :=
  ⟨Reachable64.insert 2 ['c'] false (Reachable64.init (by decide)) (by decide) (by decide),
   by decide, by decide,
   (coverage_exact64
      (Reachable64.insert 2 ['c'] false (Reachable64.init (by decide)) (by decide)
        (by decide : (Reassembler.new (ByteStream.new 4)).insert64 2 ['c'] false =
          some ((Reassembler.new (ByteStream.new 4)).insert 2 ['c'] false)))
      0 ['a', 'b'] false (by decide)).imp fun _ h => ⟨h.1, h.2.1 1, h.2.2.1⟩⟩

/-! ## Which bytes win where ranges overlap, on the 64-bit program -/

/-- C3, as the code has it, on runs below `2^64`.  Take a state that the
64-bit program reaches from construction with `capacity` through `insert`
calls with `first_index + len data + capacity < 2^64` and reader pops, such an
`insert` call whose window-trimmed range `[a, a + len d)` is non-empty, a
pending segment `seg` and an index `i` that lies both in `seg` and in the
trimmed range.  The call returns, and in the state at return: if `seg` starts
before `a` (the previous block), the pending byte at `i` is still the byte of
`seg`; if `seg` starts after `a` (a following block), the byte at `i` is the
byte of the new `data`, pending when `a` is beyond `next_index_`, and in the
buffer of the stream, at offset `i - bytes_popped`, when `a` is `next_index_`
(the merged segment is flushed in the same call) and the stream is open. -/
theorem overlap_tie_break64 {capacity : Nat} {r : Reassembler} (hr : Reachable64 capacity r)
    (first_index : Nat) (data : List Byte) (is_last_substring : Bool)
    (hb : first_index + data.length + capacity < 2 ^ 64) {seg : Nat × List Byte}
    (hseg : seg ∈ r.segments_) {i : Nat} (h1 : seg.1 ≤ i) (h2 : i < seg.1 + seg.2.length)
    (h3 : r.trimStart first_index ≤ i)
    (h4 : i < r.trimStart first_index + (r.trimData first_index data).length) :
    ∃ r1, r.insert64 first_index data is_last_substring = some r1 ∧
      (seg.1 < r.trimStart first_index → byteAt r1.segments_ i = seg.2[i - seg.1]?) ∧
      (r.trimStart first_index < seg.1 → r.next_index_ < r.trimStart first_index →
        byteAt r1.segments_ i = data[i - first_index]?) ∧
      (r.trimStart first_index < seg.1 → r.trimStart first_index = r.next_index_ →
        r.output_.is_closed = false →
        i < r1.next_index_ ∧ r1.output_.bytes_popped_ ≤ i ∧
        r1.output_.buffer_[i - r1.output_.bytes_popped_]? = data[i - first_index]?) :=
  ⟨_, hr.insert64_exact first_index data is_last_substring hb,
    Reassembler.overlap_bytes hr.reachable.1.inv first_index data is_last_substring hseg h1 h2 h3 h4⟩

/-- C3 at concrete inputs, capacity 10 with `(3, "cd")` pending: `insert(4, "YZ")`
overlaps it from inside (index 4 keeps the earlier 'd', pending);
`insert(2, "XY")` overlaps it from the left (index 3 takes the newer 'Y',
pending); `insert(0, "abcX")` overlaps it from the left and is flushed (index 3
takes the newer 'X', in the buffer). -/
theorem overlap_tie_break64_witness :
    Reachable64 10 ((Reassembler.new (ByteStream.new 10)).insert 3 ['c', 'd'] false) ∧
    ((Reassembler.new (ByteStream.new 10)).insert 3 ['c', 'd'] false).segments_
      = [(3, ['c', 'd'])] ∧
    (∃ r1, ((Reassembler.new (ByteStream.new 10)).insert 3 ['c', 'd'] false).insert64
        4 ['Y', 'Z'] false = some r1 ∧ byteAt r1.segments_ 4 = some 'd') ∧
    (∃ r1, ((Reassembler.new (ByteStream.new 10)).insert 3 ['c', 'd'] false).insert64
        2 ['X', 'Y'] false = some r1 ∧ byteAt r1.segments_ 3 = some 'Y') ∧
    (∃ r1, ((Reassembler.new (ByteStream.new 10)).insert 3 ['c', 'd'] false).insert64
        0 ['a', 'b', 'c', 'X'] false = some r1 ∧
      r1.output_.buffer_[3 - r1.output_.bytes_popped_]? = some 'X') :=
  ⟨Reachable64.insert 3 ['c', 'd'] false (Reachable64.init (by decide)) (by decide) (by decide),
   by decide,
   (overlap_tie_break64
      (Reachable64.insert 3 ['c', 'd'] false (Reachable64.init (by decide)) (by decide)
        (by decide : (Reassembler.new (ByteStream.new 10)).insert64 3 ['c', 'd'] false =
          some ((Reassembler.new (ByteStream.new 10)).insert 3 ['c', 'd'] false)))
      4 ['Y', 'Z'] false (by decide)
      (show ((3, ['c', 'd']) : Nat × List Byte) ∈
        ((Reassembler.new (ByteStream.new 10)).insert 3 ['c', 'd'] false).segments_ by decide)
      (i := 4) (by decide) (by decide) (by decide) (by decide)).imp
        fun _ h => ⟨h.1, h.2.1 (by decide)⟩,
   (overlap_tie_break64
      (Reachable64.insert 3 ['c', 'd'] false (Reachable64.init (by decide)) (by decide)
        (by decide : (Reassembler.new (ByteStream.new 10)).insert64 3 ['c', 'd'] false =
          some ((Reassembler.new (ByteStream.new 10)).insert 3 ['c', 'd'] false)))
      2 ['X', 'Y'] false (by decide)
      (show ((3, ['c', 'd']) : Nat × List Byte) ∈
        ((Reassembler.new (ByteStream.new 10)).insert 3 ['c', 'd'] false).segments_ by decide)
      (i := 3) (by decide) (by decide) (by decide) (by decide)).imp
        fun _ h => ⟨h.1, h.2.2.1 (by decide) (by decide)⟩,
   (overlap_tie_break64
      (Reachable64.insert 3 ['c', 'd'] false (Reachable64.init (by decide)) (by decide)
        (by decide : (Reassembler.new (ByteStream.new 10)).insert64 3 ['c', 'd'] false =
          some ((Reassembler.new (ByteStream.new 10)).insert 3 ['c', 'd'] false)))
      0 ['a', 'b', 'c', 'X'] false (by decide)
      (show ((3, ['c', 'd']) : Nat × List Byte) ∈
        ((Reassembler.new (ByteStream.new 10)).insert 3 ['c', 'd'] false).segments_ by decide)
      (i := 3) (by decide) (by decide) (by decide) (by decide)).imp
        fun _ h => ⟨h.1, (h.2.2.2 (by decide) (by decide) (by decide)).2.2⟩⟩

/-! ## Adjacent segments on the 64-bit program -/

/-- C17, evaluated on the code.  Capacity 10.  After `insert(1, "b", false)` the
range of `insert(2, "c", false)` touches the end of the pending segment
`(1, "b")`: the test of line 80 is `>`, the previous block is not extended,
and the map holds the two adjacent segments `(1, "b")` and `(2, "c")`, the end
index of the first being the start index of the second.  In the other order
the loop of line 94, whose test is `>=`, absorbs the touching block:
`insert(2, "c", false)` then `insert(1, "b", false)` leaves the one segment
`(1, "bc")`.  The 64-bit program and exact arithmetic agree on both runs. -/
theorem adjacent_previous_block_not_merged :
    ((Reassembler.new (ByteStream.new 10)).run64
        [.insert 1 ['b'] false, .insert 2 ['c'] false]).map (fun r => r.segments_)
      = some [(1, ['b']), (2, ['c'])] ∧
    (((Reassembler.new (ByteStream.new 10)).insert 1 ['b'] false).insert 2 ['c'] false).segments_
      = [(1, ['b']), (2, ['c'])] ∧
    1 + (['b'] : List Byte).length = 2 ∧
    ((Reassembler.new (ByteStream.new 10)).run64
        [.insert 2 ['c'] false, .insert 1 ['b'] false]).map (fun r => r.segments_)
      = some [(1, ['b', 'c'])] ∧
    (((Reassembler.new (ByteStream.new 10)).insert 2 ['c'] false).insert 1 ['b'] false).segments_
      = [(1, ['b', 'c'])] := by
  decide

end CS144
